import Mathlib

/-!
# goallpublic: the rename engine of `processFile`

A shallow embedding of `src/main.go`.  The program parses one Go file, walks
the syntax tree with `ast.Inspect`, capitalises lowercase-initial identifiers
in a fixed set of syntactic roles, and writes the file back when something
changed.

## Memory model

`go/ast` trees are pointer structures: every identifier occurrence is a
heap-allocated `*ast.Ident` whose `Name` field the engine overwrites in place,
while the shape of the tree is never touched.  The embedding keeps the two
apart:

* `Node` is the immutable shape.  An identifier occurrence is `Node.ident r`,
  where `r` is the address of its `*ast.Ident`.
* `State.names` is the heap: it maps an address to the current `Name` string.
* `State.changed` is the local variable `changed` of `processFile`.

Strings are Go strings, that is byte sequences (`List Nat`, bytes `0..255`).
-/

namespace Goallpublic

/-! ## Names -/

/-- A Go string: its bytes. -/
abbrev Name := List Nat

/-- The bytes (UTF-8) of a string literal, used to write inputs readably. -/
def bytes (s : String) : Name := s.toUTF8.data.toList.map UInt8.toNat

/-- The function `isLowerCase` (main.go:240): the string is not empty and its
first byte is one of the letters a to z (97 to 122). -/
def isLowerCase : Name → Bool
  | [] => false
  | b :: _ => decide (97 ≤ b) && decide (b ≤ 122)

/-- The function `unicode.ToUpper` on the code points `0..255`, which are the only ones
`string(s[0])` can produce from a byte. -/
def toUpperRune (r : Nat) : Nat :=
  if 97 ≤ r ∧ r ≤ 122 then r - 32
  else if r = 0xB5 then 0x39C
  else if 0xE0 ≤ r ∧ r ≤ 0xFE ∧ r ≠ 0xF7 then r - 32
  else if r = 0xFF then 0x178
  else r

/-- UTF-8 encoding of a code point below `0x800` (one or two bytes). -/
def encodeRune (r : Nat) : List Nat :=
  if r < 0x80 then [r] else [0xC0 + r / 64, 0x80 + r % 64]

/-- The function `capitalize` (main.go:244): the empty string is returned as is, otherwise
`strings.ToUpper(string(s[0])) + s[1:]`, where `string(s[0])` converts the
first byte, read as a code point, to a string. -/
def capitalize : Name → Name
  | [] => []
  | b :: rest => encodeRune (toUpperRune b) ++ rest

/-- The keywords of Go: `token.Lookup(name).IsKeyword()`. -/
def keywords : List Name :=
  ["break", "case", "chan", "const", "continue", "default", "defer", "else",
   "fallthrough", "for", "func", "go", "goto", "if", "import", "interface",
   "map", "package", "range", "return", "select", "struct", "switch", "type",
   "var"].map bytes

/-- The predeclared identifiers of Go: `doc.IsPredeclared(name)` (types,
functions and constants). -/
def predeclared : List Name :=
  ["any", "bool", "byte", "comparable", "complex64", "complex128", "error",
   "float32", "float64", "int", "int8", "int16", "int32", "int64", "rune",
   "string", "uint", "uint8", "uint16", "uint32", "uint64", "uintptr",
   "append", "cap", "clear", "close", "complex", "copy", "delete", "imag",
   "len", "make", "max", "min", "new", "panic", "print", "println", "real",
   "recover",
   "false", "iota", "nil", "true"].map bytes

/-- The function `isReservedType` (main.go:251): a keyword or a predeclared identifier. -/
def isReservedType (name : Name) : Bool :=
  if keywords.contains name then true
  else if predeclared.contains name then true
  else false

/-! ## Syntax trees -/

/-- The node kinds of `go/ast` the engine tells apart, by a case of its type
switch or by a type assertion; every other kind of node is `Other`, a few of
them are named to make inputs readable.  `Nil` is an absent optional child and
`List` stands for a slice-valued field where a node has more than one. -/
inductive Kind
  | File | GenDecl | FuncDecl | TypeSpec | ValueSpec
  | FieldList | Field | FuncType | BlockStmt
  | CallExpr | SelectorExpr | CompositeLit | KeyValueExpr
  | InterfaceType | StructType | StarExpr | ArrayType | BasicLit
  | ExprStmt | AssignStmt
  | List | Nil | Other
  deriving DecidableEq, Repr

/-- A syntax tree.  `ident r` is an `*ast.Ident` at address `r`; `node k kids`
is any other node, its children in the order `ast.Walk` visits them:

* `File`: `Name, Decls...`
* `FuncDecl`: `Recv, Name, Type, Body` (`Recv` and `Body` may be `Nil`)
* `FieldList`: its `List` of fields
* `Field`: `List Names, Type, Tag` (`Tag` only where there is one)
* `TypeSpec`: `Name, TypeParams, Type`
* `ValueSpec`: `List Names, Type, List Values` (`Type` may be `Nil`)
* `CallExpr`: `Fun, Args...`
* `SelectorExpr`: `X, Sel`
* `CompositeLit`: `Type, Elts...` (`Type` may be `Nil`)
* `KeyValueExpr`: `Key, Value`
* `InterfaceType`: `Methods`;  `StructType`: `Fields`.

Comments and documentation nodes, which hold no identifier, are left out. -/
inductive Node
  | ident (ref : Nat)
  | node (kind : Kind) (kids : List Node)
  deriving Repr

mutual
/-- Equality of trees is decidable. -/
def Node.decEq : (a b : Node) → Decidable (a = b)
  | .ident a, .ident b =>
      if h : a = b then isTrue (by rw [h]) else isFalse (fun e => h (by injection e))
  | .node k ks, .node l ls =>
      if hk : k = l then
        match Node.decEqList ks ls with
        | isTrue h => isTrue (by rw [hk, h])
        | isFalse h => isFalse (fun e => h (by injection e))
      else isFalse (fun e => hk (by injection e))
  | .ident _, .node _ _ => isFalse (fun e => by injection e)
  | .node _ _, .ident _ => isFalse (fun e => by injection e)
/-- Equality of lists of trees is decidable. -/
def Node.decEqList : (a b : List Node) → Decidable (a = b)
  | [], [] => isTrue rfl
  | a :: as, b :: bs =>
      match Node.decEq a b with
      | isTrue h =>
        match Node.decEqList as bs with
        | isTrue h2 => isTrue (by rw [h, h2])
        | isFalse h2 => isFalse (fun e => h2 (by injection e))
      | isFalse h => isFalse (fun e => h (by injection e))
  | [], _ :: _ => isFalse (fun e => by injection e)
  | _ :: _, [] => isFalse (fun e => by injection e)
end

instance : DecidableEq Node := Node.decEq

/-- The state the traversal threads: the `Name` field of every `*ast.Ident`
and the variable `changed`. -/
structure State where
  names : Nat → Name
  changed : Bool

/-- The assignment pair `id.Name = capitalize(id.Name); changed = true`. -/
def State.rename (s : State) (r : Nat) : State :=
  { names := Function.update s.names r (capitalize (s.names r)), changed := true }

/-- The guarded assignment `if isLowerCase(id.Name) { id.Name = capitalize(id.Name);
changed = true }`. -/
def capIdent (r : Nat) (s : State) : State :=
  if isLowerCase (s.names r) then s.rename r else s

/-- The same with the reserved-name guard of main.go:200-206 and 210-216. -/
def capUnreserved (r : Nat) (s : State) : State :=
  if isLowerCase (s.names r) then
    if !isReservedType (s.names r) then s.rename r else s
  else s

mutual
/-- The traversal `ast.Inspect(n, f)` for a callback that always returns `true`: `f` on the
node, then the children in order. -/
def inspect (f : Node → State → State) : Node → State → State
  | .ident r, s => f (.ident r) s
  | .node k kids, s => inspectList f kids (f (.node k kids) s)
/-- The children of a node, left to right. -/
def inspectList (f : Node → State → State) : List Node → State → State
  | [], s => s
  | n :: ns, s => inspectList f ns (inspect f n s)
end

/-- The callback of the scan at main.go:85-95: a call whose target is a
selector named `oldName`. -/
def scanMethodCalls (oldName : Name) : Node → State → State
  | .node .CallExpr (.node .SelectorExpr [_, .ident sel] :: _), s =>
      if s.names sel = oldName then s.rename sel else s
  | _, s => s

/-- The callback of the scan at main.go:104-112: a call whose target is the
identifier `oldName`. -/
def scanFuncCalls (oldName : Name) : Node → State → State
  | .node .CallExpr (.ident f :: _), s =>
      if s.names f = oldName then s.rename f else s
  | _, s => s

/-- The callback of the scan of an initializer, main.go:209-218. -/
def capFree : Node → State → State
  | .ident r, s => capUnreserved r s
  | _, s => s

/-- The slices `x.Recv.List`, `x.Methods.List`, `x.Fields.List`: the fields of a field
list that is not nil. -/
def fieldsOf : Node → Option (List Node)
  | .node .FieldList fs => some fs
  | _ => none

/-- The loop body of main.go:116-121 on one receiver field. -/
def capRecvField : State → Node → State
  | s, .node .Field (_ :: .ident t :: _) => capIdent t s
  | s, _ => s

/-- One `*ast.Ident` of a `Names` slice. -/
def capNameNode : State → Node → State
  | s, .ident r => capIdent r s
  | s, _ => s

/-- The loop body over `field.Names` of main.go:132-138 and 159-166. -/
def capFieldNames : State → Node → State
  | s, .node .Field (.node .List names :: _) => names.foldl capNameNode s
  | s, _ => s

/-- The loop body of main.go:176-183 on one element of a composite literal. -/
def capKey : State → Node → State
  | s, .node .KeyValueExpr (.ident key :: _) => capIdent key s
  | s, _ => s

/-- The string `"main"`. -/
def mainName : Name := bytes "main"

/-- The case `*ast.FuncDecl`, main.go:73-122. -/
def visitFuncDecl (root recv : Node) (nm : Nat) (s : State) : State :=
  if s.names nm = mainName then s
  else
    let s1 :=
      if (fieldsOf recv).isSome && isLowerCase (s.names nm) then
        let oldName := s.names nm
        inspect (scanMethodCalls oldName) root (s.rename nm)
      else s
    let s2 :=
      if isLowerCase (s1.names nm) then
        let oldName := s1.names nm
        inspect (scanFuncCalls oldName) root (s1.rename nm)
      else s1
    match fieldsOf recv with
    | some fields => fields.foldl capRecvField s2
    | none => s2

/-- The case `*ast.ValueSpec`, main.go:190-219. -/
def visitValueSpec (names : List Node) (typ : Node) (values : List Node) (s : State) : State :=
  let s1 := names.foldl capNameNode s
  let s2 :=
    match typ with
    | .ident t => capUnreserved t s1
    | _ => s1
  values.foldl (fun st value => inspect capFree value st) s2

/-- The callback of the outer `ast.Inspect`, main.go:71-222, on the tree
rooted at `root`. -/
def visit (root : Node) : Node → State → State
  | .node .FuncDecl (recv :: .ident nm :: _), s => visitFuncDecl root recv nm s
  | .node .CallExpr (.ident f :: _), s => capIdent f s
  | .node .InterfaceType [methods], s =>
      match fieldsOf methods with
      | some fields => fields.foldl capFieldNames s
      | none => s
  | .node .TypeSpec [.ident nm, _, typ], s =>
      let s1 := capIdent nm s
      match typ with
      | .node .InterfaceType _ => capIdent nm s1
      | _ => s1
  | .node .StructType [fields], s =>
      match fieldsOf fields with
      | some fs => fs.foldl capFieldNames s
      | none => s
  | .node .CompositeLit (typ :: elts), s =>
      let s1 :=
        match typ with
        | .ident t => capIdent t s
        | _ => s
      elts.foldl capKey s1
  | .node .SelectorExpr [_, .ident sel], s => capIdent sel s
  | .node .ValueSpec [.node .List names, typ, .node .List values], s =>
      visitValueSpec names typ values s
  | _, s => s

/-- The engine: the `ast.Inspect` pass of `processFile` (main.go:70-222) on
the tree `root` whose identifiers are spelled `names`; the result is the
spelling after the pass and the value of `changed`. -/
def engine (root : Node) (names : Nat → Name) : State :=
  inspect (visit root) root { names := names, changed := false }

/-! ## The nodes and identifiers of a tree -/

mutual
/-- The nodes of a tree in the order `ast.Inspect` calls its callback on them. -/
def subnodes : Node → List Node
  | .ident r => [.ident r]
  | .node k kids => .node k kids :: subnodesList kids
/-- The nodes of a list of trees, left to right. -/
def subnodesList : List Node → List Node
  | [] => []
  | n :: ns => subnodes n ++ subnodesList ns
end

/-- The addresses of the nodes of a list that are identifiers. -/
def identsOf : List Node → List Nat
  | [] => []
  | .ident r :: ns => r :: identsOf ns
  | _ :: ns => identsOf ns

/-- The addresses of all identifier occurrences of a tree. -/
def refs (n : Node) : List Nat := identsOf (subnodes n)

/-- No `*ast.Ident` is shared: every occurrence of an identifier in the tree
is a node of its own, as in the trees `parser.ParseFile` builds. -/
def NoAlias (root : Node) : Prop := (refs root).Nodup

instance (root : Node) : Decidable (NoAlias root) := by
  unfold NoAlias; infer_instance

/-! ## The identifiers a case of the callback assigns -/

/-- The receiver type identifier the loop body of main.go:116-121 reaches on a field. -/
def recvTypeRef : Node → List Nat
  | .node .Field (_ :: .ident t :: _) => [t]
  | _ => []

/-- The names the loop bodies of main.go:132-138 and 159-166 reach on a field. -/
def fieldNameRef : Node → List Nat
  | .node .Field (.node .List names :: _) => identsOf names
  | _ => []

/-- The key the loop body of main.go:176-183 reaches on an element. -/
def keyRef : Node → List Nat
  | .node .KeyValueExpr (.ident key :: _) => [key]
  | _ => []

/-- The receiver type identifiers of a list of fields. -/
def recvTypeRefs (fs : List Node) : List Nat := fs.flatMap recvTypeRef

/-- The field (or method) names of a list of fields. -/
def fieldNameRefs (fs : List Node) : List Nat := fs.flatMap fieldNameRef

/-- The keys of a list of elements. -/
def keyRefs (es : List Node) : List Nat := es.flatMap keyRef

/-- The identifier a type assertion `.(*ast.Ident)` yields, if it succeeds. -/
def identRef : Node → List Nat
  | .ident r => [r]
  | _ => []

/-- The fields of an optional field list (none when it is nil). -/
def fieldsOrNil (n : Node) : List Node := (fieldsOf n).getD []

/-- The identifiers all initializers of a value specification contain. -/
def valueRefs (vs : List Node) : List Nat := vs.flatMap refs

/-- The identifiers the callback assigns on a node under the only guard
`isLowerCase`. -/
def unguarded : Node → List Nat
  | .node .FuncDecl (recv :: .ident nm :: _) => nm :: recvTypeRefs (fieldsOrNil recv)
  | .node .CallExpr (.ident f :: _) => [f]
  | .node .InterfaceType [methods] => fieldNameRefs (fieldsOrNil methods)
  | .node .TypeSpec [.ident nm, _, _] => [nm]
  | .node .StructType [fields] => fieldNameRefs (fieldsOrNil fields)
  | .node .CompositeLit (typ :: elts) => identRef typ ++ keyRefs elts
  | .node .SelectorExpr [_, .ident sel] => [sel]
  | .node .ValueSpec [.node .List names, _, .node .List _] => identsOf names
  | _ => []

/-- The identifiers the callback assigns on a node under the guards
`isLowerCase` and `!isReservedType`. -/
def guarded : Node → List Nat
  | .node .ValueSpec [.node .List _, typ, .node .List values] => identRef typ ++ valueRefs values
  | _ => []

/-- The identifier a secondary scan (main.go:85-95, 104-112) may assign on a node. -/
def callTarget : Node → List Nat
  | .node .CallExpr (.ident f :: _) => [f]
  | .node .CallExpr (.node .SelectorExpr [_, .ident sel] :: _) => [sel]
  | _ => []

/-- The identifiers the secondary scans of the tree may assign. -/
def callTargets (root : Node) : List Nat := (subnodes root).flatMap callTarget

/-- Guarded renames of a list of identifiers, in order. -/
def capAll (l : List Nat) (s : State) : State := l.foldl (fun st r => capIdent r st) s

/-- Guarded renames, reserved names excluded, of a list of identifiers, in order. -/
def capAllUnreserved (l : List Nat) (s : State) : State :=
  l.foldl (fun st r => capUnreserved r st) s

/-- Whether the callback takes the case `*ast.FuncDecl` on the node. -/
def isFuncDecl : Node → Bool
  | .node .FuncDecl (_ :: .ident _ :: _) => true
  | _ => false

/-- The initializer expressions of a value specification. -/
def initializers : Node → List Node
  | .node .ValueSpec [.node .List _, _, .node .List values] => values
  | _ => []

/-- The nodes of the tree that are part of an initializer expression. -/
def initializerNodes (root : Node) : List Node :=
  (subnodes root).flatMap (fun m => (initializers m).flatMap subnodes)

/-! ## Runs of the engine and what they leave behind -/

/-- A run from `s` to `t`: a sequence of assignments `id.Name = capitalize(id.Name);
changed = true`, each on an identifier that is lowercase-initial at that moment
and that `A` allows in the state of that moment. -/
inductive Run (A : State → Nat → Prop) : State → State → Prop
  | refl (s : State) : Run A s s
  | tail {s t : State} (r : Nat) : Run A s t → isLowerCase (t.names r) = true → A t r →
      Run A s (t.rename r)

/-- The spelling `t` grows out of the spelling `s`: every name is the same or
was lowercase-initial and is now capitalised. -/
def Grows (s t : Nat → Name) : Prop :=
  ∀ r, t r = s r ∨ (isLowerCase (s r) = true ∧ t r = capitalize (s r))

/-- Every identifier is allowed. -/
def anyRef : State → Nat → Prop := fun _ _ => True

/-- An identifier under the reserved-name guard is at rest. -/
def AtRest (σ : Nat → Name) (r : Nat) : Prop :=
  isLowerCase (σ r) = false ∨ isReservedType (σ r) = true

/-- The callback has nothing left to do on the node `m` under the spelling `σ`:
the identifiers it assigns on `m` are not lowercase-initial, or reserved where
the reserved-name guard applies. -/
def Settled (σ : Nat → Name) (m : Node) : Prop :=
  (∀ r ∈ unguarded m, isLowerCase (σ r) = false) ∧
  (∀ r ∈ guarded m, AtRest σ r)

/-- What the callback may assign on the node `m` of the tree `root`: the
identifiers of `m` it reaches directly, the call targets of the whole tree (by
a secondary scan), and the identifiers under the reserved-name guard while
their name is not reserved. -/
def Allowed (root m : Node) : State → Nat → Prop := fun u r =>
  r ∈ unguarded m ∨ r ∈ callTargets root ∨ (r ∈ guarded m ∧ isReservedType (u.names r) = false)

/-- A tree as `parser.ParseFile` builds it: no identifier node is shared, and
function declarations, which are top-level declarations of a file, are never
part of an initializer expression. -/
def WellFormed (root : Node) : Prop :=
  NoAlias root ∧ ∀ m ∈ initializerNodes root, isFuncDecl m = false

instance (root : Node) : Decidable (WellFormed root) := by
  unfold WellFormed; infer_instance

/-! ## Sample inputs -/

/-- The spelling that gives the identifier at address `i` the `i`-th string. -/
def namesOf (l : List String) : Nat → Name := fun i => (l.map bytes).getD i []

/-- An absent optional child. -/
def nil : Node := .node .Nil []

/-- The file
`package p; func greet(s string) {}; func main() { greet("a") }`. -/
def greetFile : Node :=
  .node .File [.ident 0,
    .node .FuncDecl [nil, .ident 1,
      .node .FuncType [.node .FieldList [.node .Field [.node .List [.ident 2], .ident 3]]],
      .node .BlockStmt []],
    .node .FuncDecl [nil, .ident 4, .node .FuncType [.node .FieldList []],
      .node .BlockStmt [.node .ExprStmt [.node .CallExpr [.ident 5, .node .BasicLit []]]]]]

/-- The identifiers of `greetFile`. -/
def greetNames : Nat → Name := namesOf ["p", "greet", "s", "string", "main", "greet"]

/-- The file
`package p; type dog struct{}; func (d dog) speak() {};
func main() { d := dog{}; d.speak() }`. -/
def dogFile : Node :=
  .node .File [.ident 0,
    .node .GenDecl [.node .TypeSpec [.ident 1, nil, .node .StructType [.node .FieldList []]]],
    .node .FuncDecl [.node .FieldList [.node .Field [.node .List [.ident 2], .ident 3]],
      .ident 4, .node .FuncType [.node .FieldList []], .node .BlockStmt []],
    .node .FuncDecl [nil, .ident 5, .node .FuncType [.node .FieldList []],
      .node .BlockStmt [
        .node .AssignStmt [.ident 6, .node .CompositeLit [.ident 7]],
        .node .ExprStmt [.node .CallExpr [.node .SelectorExpr [.ident 8, .ident 9]]]]]]

/-- The identifiers of `dogFile`. -/
def dogNames : Nat → Name :=
  namesOf ["p", "dog", "d", "dog", "speak", "main", "d", "dog", "d", "speak"]

/-- The file
`package p; type point struct { x int };
func main() { p := point{x: 1}; _ = p.x }`. -/
def pointFile : Node :=
  .node .File [.ident 0,
    .node .GenDecl [.node .TypeSpec [.ident 1, nil,
      .node .StructType [.node .FieldList [.node .Field [.node .List [.ident 2], .ident 3]]]]],
    .node .FuncDecl [nil, .ident 4, .node .FuncType [.node .FieldList []],
      .node .BlockStmt [
        .node .AssignStmt [.ident 5,
          .node .CompositeLit [.ident 6, .node .KeyValueExpr [.ident 7, .node .BasicLit []]]],
        .node .AssignStmt [.ident 8, .node .SelectorExpr [.ident 9, .ident 10]]]]]

/-- The identifiers of `pointFile`. -/
def pointNames : Nat → Name :=
  namesOf ["p", "point", "x", "int", "main", "p", "point", "x", "_", "p", "x"]

/-- The file `package p; var count int; func main() {}`. -/
def countFile : Node :=
  .node .File [.ident 0,
    .node .GenDecl [.node .ValueSpec [.node .List [.ident 1], .ident 2, .node .List []]],
    .node .FuncDecl [nil, .ident 3, .node .FuncType [.node .FieldList []],
      .node .BlockStmt []]]

/-- The identifiers of `countFile`. -/
def countNames : Nat → Name := namesOf ["p", "count", "int", "main"]

/-- The file `package main; func main() {}`. -/
def mainFile : Node :=
  .node .File [.ident 0,
    .node .FuncDecl [nil, .ident 1, .node .FuncType [.node .FieldList []],
      .node .BlockStmt []]]

/-- The identifiers of `mainFile`. -/
def mainNames : Nat → Name := namesOf ["main", "main"]

/-- The file `package p; type foo struct{}; func bar(x foo) {}`. -/
def paramFile : Node :=
  .node .File [.ident 0,
    .node .GenDecl [.node .TypeSpec [.ident 1, nil, .node .StructType [.node .FieldList []]]],
    .node .FuncDecl [nil, .ident 2,
      .node .FuncType [.node .FieldList [.node .Field [.node .List [.ident 3], .ident 4]]],
      .node .BlockStmt []]]

/-- The identifiers of `paramFile`. -/
def paramNames : Nat → Name := namesOf ["p", "foo", "bar", "x", "foo"]

/-- The file `package p; type dog struct{}; func (d *dog) speak() {}`. -/
def ptrFile : Node :=
  .node .File [.ident 0,
    .node .GenDecl [.node .TypeSpec [.ident 1, nil, .node .StructType [.node .FieldList []]]],
    .node .FuncDecl
      [.node .FieldList [.node .Field [.node .List [.ident 2], .node .StarExpr [.ident 3]]],
       .ident 4, .node .FuncType [.node .FieldList []], .node .BlockStmt []]]

/-- The identifiers of `ptrFile`. -/
def ptrNames : Nat → Name := namesOf ["p", "dog", "d", "dog", "speak"]

/-- The file `package p; func conv(v int) float64 { return float64(v) }`
(the return statement is a node of kind `Other`). -/
def convFile : Node :=
  .node .File [.ident 0,
    .node .FuncDecl [nil, .ident 1,
      .node .FuncType [.node .FieldList [.node .Field [.node .List [.ident 2], .ident 3]],
        .node .FieldList [.node .Field [.node .List [], .ident 4]]],
      .node .BlockStmt [.node .Other [.node .CallExpr [.ident 5, .ident 6]]]]]

/-- The identifiers of `convFile`. -/
def convNames : Nat → Name := namesOf ["p", "conv", "v", "int", "float64", "float64", "v"]

/-- The file `package p; var size = len(items)`. -/
def lenFile : Node :=
  .node .File [.ident 0,
    .node .GenDecl [.node .ValueSpec [.node .List [.ident 1], nil,
      .node .List [.node .CallExpr [.ident 2, .ident 3]]]]]

/-- The identifiers of `lenFile`. -/
def lenNames : Nat → Name := namesOf ["p", "size", "len", "items"]

/-! ## The guarded rename of one name -/

/-- The rename every case of the callback applies to a name:
`if isLowerCase(s) then capitalize(s) else s`. -/
def renameName (s : Name) : Name := if isLowerCase s then capitalize s else s

/-- The file `package main; func main() {}; func again() { main() }`. -/
def againFile : Node :=
  .node .File [.ident 0,
    .node .FuncDecl [nil, .ident 1, .node .FuncType [.node .FieldList []],
      .node .BlockStmt []],
    .node .FuncDecl [nil, .ident 2, .node .FuncType [.node .FieldList []],
      .node .BlockStmt [.node .ExprStmt [.node .CallExpr [.ident 3]]]]]

/-- The identifiers of `againFile`. -/
def againNames : Nat → Name := namesOf ["main", "main", "again", "main"]

/-! ## The tree with its names in place -/

/-- A syntax tree as the printer sees it: every identifier with its name. -/
inductive Tree
  | ident (name : Name)
  | node (kind : Kind) (kids : List Tree)

mutual
/-- The tree `root` with the names the store gives its identifiers. -/
def render (names : Nat → Name) : Node → Tree
  | .ident r => .ident (names r)
  | .node k kids => .node k (renderList names kids)
/-- The trees of a list of children. -/
def renderList (names : Nat → Name) : List Node → List Tree
  | [] => []
  | n :: ns => render names n :: renderList names ns
end

mutual
/-- The second tree has the node structure of the first (same kinds, same
children in the same order), and every identifier of the second is spelled as
in the first or is the capitalisation of a lowercase-initial one. -/
def capitalisedFrom : Tree → Tree → Bool
  | .ident a, .ident b => decide (b = a) || (isLowerCase a && decide (b = capitalize a))
  | .node k ks, .node l ls => decide (k = l) && capitalisedFromList ks ls
  | _, _ => false
/-- The same for two lists of children. -/
def capitalisedFromList : List Tree → List Tree → Bool
  | [], [] => true
  | a :: as, b :: bs => capitalisedFrom a b && capitalisedFromList as bs
  | _, _ => false
end

/-! ## Files and paths -/

/-- The function `strings.HasPrefix`: the string starts with `pre`. -/
def startsWith : Name → Name → Bool
  | _, [] => true
  | [], _ :: _ => false
  | c :: cs, p :: ps => decide (c = p) && startsWith cs ps

/-- The function `strings.Contains`: `sub` occurs in the string. -/
def contains : Name → Name → Bool
  | [], sub => sub.isEmpty
  | c :: cs, sub => startsWith (c :: cs) sub || contains cs sub

/-- The function `strings.HasSuffix`: the string ends with `suf`. -/
def endsWith (s suf : Name) : Bool := startsWith s.reverse suf.reverse

/-- The marker of generated files, main.go:57. -/
def marker : Name := bytes "DO NOT EDIT."

/-- The capabilities `processFile` calls and this repository does not
implement: `parser.ParseFile` (no result when it returns an error) and
`printer.Fprint` followed by `format.Source` (no result when formatting fails). -/
structure Tools where
  parseFile : Name → Option (Node × (Nat → Name))
  formatSource : Node → (Nat → Name) → Option Name

/-- How `processFile` leaves a file. -/
inductive Outcome
  | readFailed
  | skipped
  | parseFailed
  | unchanged
  | formatFailed
  | written (content : Name)

/-- The function `processFile` (main.go:48-238) on the content `os.ReadFile`
yields (none when reading fails). -/
def processFile (tools : Tools) (file : Option Name) : Outcome :=
  match file with
  | none => .readFailed
  | some content =>
    if contains content marker then .skipped
    else
      match tools.parseFile content with
      | none => .parseFailed
      | some (root, names) =>
        let s := engine root names
        if s.changed then
          match tools.formatSource root s.names with
          | none => .formatFailed
          | some formatted => .written formatted
        else .unchanged

/-- The content of the file after `processFile`: only `os.WriteFile` changes it. -/
def contentAfter (file : Option Name) : Outcome → Option Name
  | .written content => some content
  | _ => file

/-- The callback of `filepath.Walk` (main.go:26-41) on one visited path: the
list `files` after the call and whether the callback returns an error.  The
flag `err` says that the walk reports an error for the path, `isDir` is
`info.IsDir()`. -/
def walkFunc (files : List Name) (path : Name) (isDir : Bool) (err : Bool) :
    List Name × Bool :=
  if err then (files, true)
  else if contains path (bytes "vendor") then (files, false)
  else if !isDir && endsWith path (bytes ".go") then (files ++ [path], false)
  else (files, false)

/-- Tools that fail on every input. -/
def noTools : Tools := { parseFile := fun _ => none, formatSource := fun _ _ => none }

/-- The content `// DO NOT EDIT. package p` of a generated file. -/
def generatedContent : Name := bytes "// DO NOT EDIT. package p"

/-! ## The engine without its secondary scans -/

/-- The case `*ast.FuncDecl` (main.go:73-122) with the two nested
`ast.Inspect` calls (main.go:85-95 and 104-112) removed. -/
def visitFuncDeclNoScan (recv : Node) (nm : Nat) (s : State) : State :=
  if s.names nm = mainName then s
  else
    let s1 :=
      if (fieldsOf recv).isSome && isLowerCase (s.names nm) then s.rename nm
      else s
    let s2 :=
      if isLowerCase (s1.names nm) then s1.rename nm
      else s1
    match fieldsOf recv with
    | some fields => fields.foldl capRecvField s2
    | none => s2

/-- The callback of the outer `ast.Inspect` with the nested scans removed:
the case `*ast.FuncDecl` without them, every other case as in `visit`. -/
def visitNoScan (root : Node) : Node → State → State
  | .node .FuncDecl (recv :: .ident nm :: _), s => visitFuncDeclNoScan recv nm s
  | m, s => visit root m s

/-- The pass of the engine without the nested scans. -/
def engineNoScan (root : Node) (names : Nat → Name) : State :=
  inspect (visitNoScan root) root { names := names, changed := false }

/-! ## Passes in closed form -/

/-- The callback returns early on the node: a function declaration whose name
is `main` (main.go:75-77). -/
def skips : Node → (Nat → Name) → Bool
  | .node .FuncDecl (_ :: .ident nm :: _), σ => decide (σ nm = mainName)
  | _, _ => false

/-- What a callback that reaches the identifiers `U m` directly, the
identifiers `G m` under the reserved-name guard and the identifiers `X` by a
scan of the whole tree may assign on the node `m`. -/
def AllowedBy (U G : Node → List Nat) (X : List Nat) (m : Node) : State → Nat → Prop :=
  fun u r => r ∈ U m ∨ r ∈ X ∨ (r ∈ G m ∧ isReservedType (u.names r) = false)

/-- Such a callback has nothing left to do on the node `m`. -/
def SettledBy (U G : Node → List Nat) (σ : Nat → Name) (m : Node) : Prop :=
  (∀ r ∈ U m, isLowerCase (σ r) = false) ∧ (∀ r ∈ G m, AtRest σ r)

/-- A callback `f` is a pass over `root` that reaches `U`, `G` and `X`: it
assigns only what it may, returns early on a function named `main`, leaves
every other node settled, and what it reaches is among what the engine reaches. -/
structure Pass (root : Node) (U G : Node → List Nat) (X : List Nat)
    (f : Node → State → State) : Prop where
  run : ∀ m s, Run (AllowedBy U G X m) s (f m s)
  skip : ∀ m s, skips m s.names = true → f m s = s
  settle : ∀ m s, skips m s.names = false → SettledBy U G (f m s).names m
  subU : ∀ m r, r ∈ U m → r ∈ unguarded m
  subG : ∀ m r, r ∈ G m → r ∈ guarded m
  subX : ∀ r ∈ X, r ∈ callTargets root
  coverX : ∀ r ∈ X, ∃ m ∈ subnodes root, isFuncDecl m = false ∧ r ∈ U m

/-- The identifiers a pass capitalises if they are lowercase-initial: those it
reaches on a node it does not return early on, directly or, if their name is
not reserved, under the reserved-name guard. -/
def targetsBy (U G : Node → List Nat) (root : Node) (names : Nat → Name) : List Nat :=
  (subnodes root).flatMap (fun m =>
    if skips m names then []
    else U m ++ (G m).filter (fun r => !isReservedType (names r)))

/-- The spelling in which exactly the lowercase-initial names of `T` are capitalised. -/
def closedNames (T : List Nat) (names : Nat → Name) : Nat → Name :=
  fun r => if isLowerCase (names r) && decide (r ∈ T) then capitalize (names r) else names r

/-- The renames of a node in a fixed order: the identifiers `U m`, then the
identifiers `G m` under the reserved-name guard. -/
def capNode (U G : Node → List Nat) (m : Node) (s : State) : State :=
  capAllUnreserved (G m) (capAll (U m) s)

/-- The callback that returns early on a function named `main` and otherwise
renames the identifiers of the node in a fixed order. -/
def staticPass (U G : Node → List Nat) (m : Node) (s : State) : State :=
  if skips m s.names then s else capNode U G m s

/-! ## The engine with and without scans, side by side -/

/-- The identifiers a node of the list that is no function declaration
reaches directly: those a visit still to come capitalises. -/
def OwnedBy (rest : List Node) : Nat → Prop :=
  fun r => ∃ o ∈ rest, isFuncDecl o = false ∧ r ∈ unguarded o

/-- The state `s` of the engine with scans is ahead of the state `t` of the
engine without: the flags agree, and a name that differs is, in `s`, the
capitalisation of a lowercase-initial name other than `main` that a visit
still to come (`D`) capitalises in `t`. -/
def Ahead (D : Nat → Prop) (s t : State) : Prop :=
  s.changed = t.changed ∧
  ∀ r, s.names r = t.names r ∨
    (D r ∧ isLowerCase (t.names r) = true ∧ t.names r ≠ mainName ∧
      s.names r = capitalize (t.names r) ∧ t.changed = true)

/-! ## The two-phase design of the spec

The spec (design notes) recommends two explicit phases in place of the eager
re-scans: phase 1 walks the tree once, renaming declarations and recording
each old-to-new mapping in a file-scoped rename table; phase 2 walks the tree
once more, rewriting every reference-role occurrence (call targets,
member-access names, composite-literal keys and types, receiver types) whose
name appears in the table.  The definitions below follow these words; the
occurrences are those the engine's callback tells apart, and a function named
`main` is left alone in both phases. -/

/-- The declared names of a node: the name of a function or method, of a type,
the names of the fields of a struct, of the methods of an interface, of the
variables or constants of a value specification. -/
def declTargets : Node → List Nat
  | .node .FuncDecl (_ :: .ident nm :: _) => [nm]
  | .node .InterfaceType [methods] => fieldNameRefs (fieldsOrNil methods)
  | .node .TypeSpec [.ident nm, _, _] => [nm]
  | .node .StructType [fields] => fieldNameRefs (fieldsOrNil fields)
  | .node .ValueSpec [.node .List names, _, .node .List _] => identsOf names
  | _ => []

/-- The reference-role occurrences of a node: the receiver types of a method,
the target of a call, the type and the keys of a composite literal, the member
name of a member access. -/
def refTargets : Node → List Nat
  | .node .FuncDecl (recv :: .ident _ :: _) => recvTypeRefs (fieldsOrNil recv)
  | .node .CallExpr (.ident f :: _) => [f]
  | .node .CompositeLit (typ :: elts) => identRef typ ++ keyRefs elts
  | .node .SelectorExpr [_, .ident sel] => [sel]
  | _ => []

/-- No identifier under the reserved-name guard. -/
def noGuard : Node → List Nat := fun _ => []

/-- Phase 1 of the two-phase design: one walk that renames the declarations;
for a value specification the rule of the spec also renames the type reference
and the identifiers of the initializers that are not reserved. -/
def phaseOne (root : Node) (names : Nat → Name) : State :=
  inspect (staticPass declTargets guarded) root { names := names, changed := false }

/-- The rename table phase 1 records: the old and the new name of every
declaration it renamed. -/
def renameTable (root : Node) (names : Nat → Name) (s1 : State) : List (Name × Name) :=
  ((subnodes root).flatMap declTargets).filterMap (fun r =>
    if s1.names r = names r then none else some (names r, s1.names r))

/-- The new name the table gives for an old name, if it has one. -/
def lookupName : List (Name × Name) → Name → Option Name
  | [], _ => none
  | (o, n) :: rest, old => if o = old then some n else lookupName rest old

/-- Phase 2 on one occurrence: rewritten if its name appears in the table. -/
def rewriteRef (table : List (Name × Name)) (r : Nat) (s : State) : State :=
  match lookupName table (s.names r) with
  | some new => { names := Function.update s.names r new, changed := true }
  | none => s

/-- The callback of phase 2. -/
def refVisit (table : List (Name × Name)) (m : Node) (s : State) : State :=
  if skips m s.names then s
  else (refTargets m).foldl (fun st r => rewriteRef table r st) s

/-- The two-phase design: phase 1, then phase 2 with the table of phase 1. -/
def twoPhase (root : Node) (names : Nat → Name) : State :=
  let s1 := phaseOne root names
  inspect (refVisit (renameTable root names s1)) root s1

/-- Every reference-role occurrence that is still lowercase-initial after
phase 1 has its name in the rename table. -/
def TableCovers (root : Node) (names : Nat → Name) : Prop :=
  ∀ m ∈ subnodes root, ∀ r ∈ refTargets m,
    isLowerCase ((phaseOne root names).names r) = true →
    (phaseOne root names).names r ∈
      (renameTable root names (phaseOne root names)).map Prod.fst

instance (root : Node) (names : Nat → Name) : Decidable (TableCovers root names) := by
  unfold TableCovers; infer_instance

/-- The file `package p; func run() { helper() }`, where `helper` is declared
in another file of the package. -/
def helperFile : Node :=
  .node .File [.ident 0,
    .node .FuncDecl [nil, .ident 1, .node .FuncType [.node .FieldList []],
      .node .BlockStmt [.node .ExprStmt [.node .CallExpr [.ident 2]]]]]

/-- The identifiers of `helperFile`. -/
def helperNames : Nat → Name := namesOf ["p", "run", "helper"]

/-! ## The pass with its failures

The traversal and the callbacks once more, with a result only where the Go
code runs to its end.  No result stands for a panic: a nil pointer
dereference in a callback, a nil child that `ast.Walk` walks into, or a node
that is no value of its `go/ast` type.  Type assertions of the source are all
of the comma-ok form or cases of a type switch and cannot fail. -/

/-- The node is there (not nil). -/
def isPresent : Node → Bool
  | .node .Nil _ => false
  | _ => true

/-- What `ast.Walk` does with a child that is nil. -/
inductive NilChild
  | skipped
  | nilIdent
  | panics
  deriving DecidableEq, Repr

/-- The children `ast.Walk` compares with nil before it walks them
(`if n.Recv != nil`, ...): the receiver and the body of a function
declaration, the type parameters of a type specification, the type of a value
specification, of a composite literal and of a field, the tag of a field. -/
def walkChecks : Kind → Nat → Bool
  | .FuncDecl, 0 => true
  | .FuncDecl, 3 => true
  | .TypeSpec, 1 => true
  | .ValueSpec, 1 => true
  | .CompositeLit, 0 => true
  | .Field, 1 => true
  | .Field, 2 => true
  | _, _ => false

/-- The slices of identifiers: the `Names` of a field and of a value
specification. -/
def namesSlot : Kind → Nat → Bool
  | .Field, 0 => true
  | .ValueSpec, 0 => true
  | _, _ => false

/-- The children of type `*ast.Ident` that `ast.Walk` walks without a check:
the name of a file, of a function declaration and of a type specification,
the member of a selector, the elements of a slice of identifiers.  On a nil
`*ast.Ident` the callback is called and `ast.Walk` reads nothing of it. -/
def identSlot : Kind → Nat → Bool → Bool
  | .File, 0, _ => true
  | .FuncDecl, 1, _ => true
  | .TypeSpec, 0, _ => true
  | .SelectorExpr, 1, _ => true
  | .List, _, inNames => inNames
  | _, _, _ => false

/-- The behaviour of `ast.Walk` on a nil child at position `i` of a node of
kind `k`.  Where it neither checks the child nor finds a `*ast.Ident`, it
panics: `Walk(v, n.Fields)`, `Walk(v, n.Methods)` and `Walk(v, n.Type)` of a
function declaration read a field of the nil pointer, `Walk(v, n.Type)` of a
type specification and every nil expression, statement, declaration or
specification end in `panic("ast.Walk: unexpected node type")`.  For the kinds
without a layout of their own an absent optional child is left out of the
list, so that a nil child of theirs is one that `ast.Walk` walks into. -/
def nilChild (k : Kind) (i : Nat) (inNames : Bool) : NilChild :=
  if walkChecks k i then .skipped
  else if identSlot k i inNames then .nilIdent
  else .panics

mutual
/-- The function `ast.Walk` with the visitor of `ast.Inspect` on a node that
is not nil: the callback on the node, then the children in order.  `inNames`
tells whether the node is a slice of identifiers. -/
def walkChecked (f : Node → State → Option State) (inNames : Bool) :
    Node → State → Option State
  | .ident r, s => f (.ident r) s
  | .node k kids, s => (f (.node k kids) s).bind (walkKidsChecked f k inNames 0 kids)
/-- The children of a node of kind `k` from position `i` on. -/
def walkKidsChecked (f : Node → State → Option State) (k : Kind) (inNames : Bool)
    (i : Nat) : List Node → State → Option State
  | [], s => some s
  | c :: cs, s =>
      (if isPresent c then walkChecked f (namesSlot k i) c s
        else
          match nilChild k i inNames with
          | .skipped => some s
          | .nilIdent => f c s
          | .panics => none).bind (walkKidsChecked f k inNames (i + 1) cs)
end

/-- The traversal `ast.Inspect(n, f)` for a callback that may fail; on a nil
node `ast.Walk` panics. -/
def inspectChecked (f : Node → State → Option State) (n : Node) (s : State) :
    Option State :=
  if isPresent n then walkChecked f false n s else none

/-- The callback of the scan at main.go:85-95; `sel.Sel.Name` (main.go:88)
dereferences `sel.Sel` without a nil check. -/
def scanMethodCallsChecked (oldName : Name) : Node → State → Option State
  | .node .CallExpr (.node .SelectorExpr [_, .ident sel] :: _), s =>
      some (if s.names sel = oldName then s.rename sel else s)
  | .node .CallExpr (.node .SelectorExpr _ :: _), _ => none
  | _, s => some s

/-- The loop body of main.go:116-121; `field.Type` dereferences the field. -/
def capRecvFieldChecked : State → Node → Option State
  | s, .node .Field (_ :: .ident t :: _) => some (capIdent t s)
  | s, .node .Field _ => some s
  | _, _ => none

/-- One element of a `Names` slice; `name.Name` dereferences it. -/
def capNameNodeChecked : State → Node → Option State
  | s, .ident r => some (capIdent r s)
  | _, _ => none

/-- The loop body over `field.Names` of main.go:132-138 and 159-166;
`field.Names` dereferences the field. -/
def capFieldNamesChecked : State → Node → Option State
  | s, .node .Field (.node .List names :: _) => names.foldlM capNameNodeChecked s
  | _, _ => none

/-- The loops of main.go:131-140 and 158-167 over an optional field list. -/
def capFieldListChecked (list : Node) (s : State) : Option State :=
  match fieldsOf list with
  | some fields => fields.foldlM capFieldNamesChecked s
  | none => some s

/-- The callback of the scan at main.go:104-112; it dereferences nothing
without a check. -/
def scanFuncCallsChecked (oldName : Name) (n : Node) (s : State) : Option State :=
  some (scanFuncCalls oldName n s)

/-- The callback of the scan of an initializer, main.go:209-218;
`n.(*ast.Ident)` succeeds on a nil `*ast.Ident` and `ident.Name` dereferences
it. -/
def capFreeChecked : Node → State → Option State
  | .node .Nil _, _ => none
  | n, s => some (capFree n s)

/-- One initializer, main.go:208-219. -/
def inspectValueChecked (s : State) (value : Node) : Option State :=
  inspectChecked capFreeChecked value s

/-- The case `*ast.FuncDecl`, main.go:73-122. -/
def visitFuncDeclChecked (root recv : Node) (nm : Nat) (s : State) : Option State :=
  if s.names nm = mainName then some s
  else
    (if (fieldsOf recv).isSome && isLowerCase (s.names nm) then
        inspectChecked (scanMethodCallsChecked (s.names nm)) root (s.rename nm)
      else some s).bind fun s1 =>
    (if isLowerCase (s1.names nm) then
        inspectChecked (scanFuncCallsChecked (s1.names nm)) root (s1.rename nm)
      else some s1).bind fun s2 =>
    match fieldsOf recv with
    | some fields => fields.foldlM capRecvFieldChecked s2
    | none => some s2

/-- The case `*ast.ValueSpec`, main.go:190-219. -/
def visitValueSpecChecked (names : List Node) (typ : Node) (values : List Node)
    (s : State) : Option State :=
  (names.foldlM capNameNodeChecked s).bind fun s1 =>
  let s2 :=
    match typ with
    | .ident t => capUnreserved t s1
    | _ => s1
  values.foldlM inspectValueChecked s2

/-- The callback of the outer `ast.Inspect`, main.go:71-222.  The cases that
dereference nothing without a check are those of `visit`; `x.Name.Name`
dereferences the name of a function declaration (main.go:75) and the name of a
type specification whose type is an interface (main.go:150). -/
def visitChecked (root : Node) : Node → State → Option State
  | .node .FuncDecl (recv :: .ident nm :: _), s => visitFuncDeclChecked root recv nm s
  | .node .FuncDecl _, _ => none
  | .node .InterfaceType [methods], s => capFieldListChecked methods s
  | .node .StructType [fields], s => capFieldListChecked fields s
  | .node .TypeSpec [.ident nm, tparams, typ], s =>
      some (visit root (.node .TypeSpec [.ident nm, tparams, typ]) s)
  | .node .TypeSpec [_, _, .node .InterfaceType _], _ => none
  | .node .ValueSpec [.node .List names, typ, .node .List values], s =>
      visitValueSpecChecked names typ values s
  | m, s => some (visit root m s)

/-- The pass of the engine, with a result if nothing fails. -/
def engineChecked (root : Node) (names : Nat → Name) : Option State :=
  inspectChecked (visitChecked root) root { names := names, changed := false }

/-- The node is a field. -/
def isField : Node → Bool
  | .node .Field _ => true
  | _ => false

/-- The node is an identifier. -/
def isIdent : Node → Bool
  | .ident _ => true
  | _ => false

/-- The node is a field whose names are identifiers. -/
def isNamedField : Node → Bool
  | .node .Field (.node .List names :: _) => names.all isIdent
  | _ => false

mutual
/-- A nil child is found in the tree only where `ast.Walk` checks for one
(`walkChecks`), and it is `nil`. -/
def nilOnlyOptional : Node → Bool
  | .ident _ => true
  | .node k kids => nilOnlyOptionalKids k 0 kids
/-- The same for the children of a node of kind `k` from position `i` on. -/
def nilOnlyOptionalKids (k : Kind) (i : Nat) : List Node → Bool
  | [] => true
  | c :: cs =>
      (if isPresent c then nilOnlyOptional c else walkChecks k i && decide (c = nil))
        && nilOnlyOptionalKids k (i + 1) cs
end

/-- The node has the children that its `go/ast` type declares without
"or nil" and that the callbacks read: a function declaration its name and a
receiver that holds fields, a struct or interface type its field list of
fields with identifiers as names, a type specification its name and type, a
value specification identifiers as names and initializers, a selector that is
called its member. -/
def hasRequired : Node → Bool
  | .node .FuncDecl (recv :: .ident _ :: _) => (fieldsOrNil recv).all isField
  | .node .FuncDecl _ => false
  | .node .InterfaceType [methods] =>
      (fieldsOf methods).isSome && (fieldsOrNil methods).all isNamedField
  | .node .StructType [fields] =>
      (fieldsOf fields).isSome && (fieldsOrNil fields).all isNamedField
  | .node .TypeSpec [.ident _, _, typ] => isPresent typ
  | .node .TypeSpec [_, _, .node .InterfaceType _] => false
  | .node .ValueSpec [.node .List names, _, .node .List values] =>
      names.all isIdent && values.all isPresent
  | .node .CallExpr (.node .SelectorExpr [_, .ident _] :: _) => true
  | .node .CallExpr (.node .SelectorExpr _ :: _) => false
  | _ => true

/-- The tree has the shape of the trees `parser.ParseFile` builds: it is not
nil, only the children that `go/ast` declares optional and `ast.Walk` checks
are absent, and every node has its required children. -/
def ParserShaped (root : Node) : Prop :=
  isPresent root = true ∧ nilOnlyOptional root = true ∧
    ∀ m ∈ subnodes root, hasRequired m = true

instance (root : Node) : Decidable (ParserShaped root) := by
  unfold ParserShaped; infer_instance

/-- The file `package p; type box struct{}` with a nil `Fields` in place of
the empty field list. -/
def nilFieldsFile : Node :=
  .node .File [.ident 0,
    .node .GenDecl [.node .TypeSpec [.ident 1, nil, .node .StructType [nil]]]]

/-- The file `package p; type shape interface{}` with a nil `Methods` in
place of the empty method list. -/
def nilMethodsFile : Node :=
  .node .File [.ident 0,
    .node .GenDecl [.node .TypeSpec [.ident 1, nil, .node .InterfaceType [nil]]]]

/-- The file `package p; type alias T` with a nil `Type`. -/
def nilTypeFile : Node :=
  .node .File [.ident 0, .node .GenDecl [.node .TypeSpec [.ident 1, nil, nil]]]

/-- The identifiers of the three files, with `box` for the type. -/
def nilChildNames : Nat → Name := namesOf ["p", "box"]

/-- The file `package p; func run(); type box struct { size int };
var grid = row{{}}`: a function declaration without receiver and body, a type
specification without type parameters, a value specification without type, a
composite literal without type. -/
def optionalFile : Node :=
  .node .File [.ident 0,
    .node .FuncDecl [nil, .ident 1, .node .FuncType [.node .FieldList []], nil],
    .node .GenDecl [.node .TypeSpec [.ident 2, nil,
      .node .StructType [.node .FieldList [.node .Field [.node .List [.ident 3], .ident 4]]]]],
    .node .GenDecl [.node .ValueSpec [.node .List [.ident 5], nil,
      .node .List [.node .CompositeLit [.ident 6, .node .CompositeLit [nil]]]]]]

/-- The identifiers of `optionalFile`. -/
def optionalNames : Nat → Name :=
  namesOf ["p", "run", "box", "size", "int", "grid", "row"]

/-! ## Names: the guarded rename fires once -/

theorem isLowerCase_capitalize (s : Name) (h : isLowerCase s = true) :
    isLowerCase (capitalize s) = false := by
  cases s with
  | nil => simp [isLowerCase] at h
  | cons b rest =>
    simp only [isLowerCase, Bool.and_eq_true, decide_eq_true_eq] at h
    have h1 : toUpperRune b = b - 32 := by simp [toUpperRune, h.1, h.2]
    have h2 : encodeRune (b - 32) = [b - 32] := by
      have : b - 32 < 0x80 := by omega
      simp [encodeRune, this]
    simp only [capitalize, h1, h2, List.singleton_append, isLowerCase]
    simp only [Bool.and_eq_false_imp, decide_eq_true_eq, decide_eq_false_iff_not]
    omega

theorem isLowerCase_mainName : isLowerCase mainName = true := by decide

theorem capitalize_ne_mainName (s : Name) (h : isLowerCase s = true) :
    capitalize s ≠ mainName := by
  intro hc
  have h1 := isLowerCase_capitalize s h
  rw [hc, isLowerCase_mainName] at h1
  exact absurd h1 (by decide)

/-! ## Traversals are folds over the nodes in visiting order -/

mutual
theorem inspect_eq_foldl (f : Node → State → State) :
    ∀ (n : Node) (s : State), inspect f n s = (subnodes n).foldl (fun st m => f m st) s
  | .ident r, s => by simp [inspect, subnodes]
  | .node k kids, s => by
      simp only [inspect, subnodes, List.foldl_cons]
      exact inspectList_eq_foldl f kids _
theorem inspectList_eq_foldl (f : Node → State → State) :
    ∀ (ns : List Node) (s : State),
      inspectList f ns s = (subnodesList ns).foldl (fun st m => f m st) s
  | [], s => by simp [inspectList, subnodesList]
  | n :: ns, s => by
      simp only [inspectList, subnodesList, List.foldl_append]
      rw [inspect_eq_foldl f n s]
      exact inspectList_eq_foldl f ns _
end

theorem self_mem_subnodes (n : Node) : n ∈ subnodes n := by
  cases n <;> simp [subnodes]

theorem mem_subnodesList {m : Node} {ns : List Node} :
    m ∈ subnodesList ns ↔ ∃ n ∈ ns, m ∈ subnodes n := by
  induction ns with
  | nil => simp [subnodesList]
  | cons a as ih => simp [subnodesList, ih]

mutual
theorem subnodes_trans : ∀ (n : Node) {a b : Node},
    a ∈ subnodes n → b ∈ subnodes a → b ∈ subnodes n
  | .ident r, a, b, ha, hb => by
      simp only [subnodes, List.mem_singleton] at ha
      subst ha; exact hb
  | .node k kids, a, b, ha, hb => by
      simp only [subnodes, List.mem_cons] at ha
      rcases ha with ha | ha
      · subst ha; exact hb
      · simp only [subnodes, List.mem_cons]
        exact Or.inr (subnodesList_trans kids ha hb)
theorem subnodesList_trans : ∀ (ns : List Node) {a b : Node},
    a ∈ subnodesList ns → b ∈ subnodes a → b ∈ subnodesList ns
  | [], a, b, ha, _ => by simp [subnodesList] at ha
  | n :: ns, a, b, ha, hb => by
      simp only [subnodesList, List.mem_append] at ha ⊢
      rcases ha with ha | ha
      · exact Or.inl (subnodes_trans n ha hb)
      · exact Or.inr (subnodesList_trans ns ha hb)
end

/-- A child of a node of the tree is a node of the tree. -/
theorem kid_mem_subnodes {root : Node} {k : Kind} {kids : List Node} {c : Node}
    (h : Node.node k kids ∈ subnodes root) (hc : c ∈ kids) : c ∈ subnodes root := by
  refine subnodes_trans root h ?_
  simp only [subnodes, List.mem_cons]
  exact Or.inr (mem_subnodesList.mpr ⟨c, hc, self_mem_subnodes c⟩)

/-! ## Runs: sequences of guarded renames -/

theorem Run.trans {A : State → Nat → Prop} {s t u : State}
    (h1 : Run A s t) (h2 : Run A t u) : Run A s u := by
  induction h2 with
  | refl => exact h1
  | tail r _ hl ha ih => exact Run.tail r ih hl ha

theorem Run.mono {A B : State → Nat → Prop} {s t : State}
    (hAB : ∀ u r, A u r → B u r) (h : Run A s t) : Run B s t := by
  induction h with
  | refl => exact Run.refl _
  | tail r _ hl ha ih => exact Run.tail r ih hl (hAB _ _ ha)

theorem Run.single {A : State → Nat → Prop} {s : State} (r : Nat)
    (hl : isLowerCase (s.names r) = true) (ha : A s r) : Run A s (s.rename r) :=
  Run.tail r (Run.refl s) hl ha

theorem Run.foldl {A : State → Nat → Prop} {α : Type} (g : State → α → State)
    (l : List α) (hg : ∀ x ∈ l, ∀ s, Run A s (g s x)) (s : State) :
    Run A s (l.foldl g s) := by
  induction l generalizing s with
  | nil => exact Run.refl s
  | cons x xs ih =>
    simp only [List.foldl_cons]
    exact Run.trans (hg x (List.mem_cons_self _ _) s)
      (ih (fun y hy => hg y (List.mem_cons_of_mem _ hy)) _)

theorem Run.inspect {A : State → Nat → Prop} (f : Node → State → State) (n : Node)
    (hf : ∀ m ∈ subnodes n, ∀ s, Run A s (f m s)) (s : State) :
    Run A s (inspect f n s) := by
  rw [inspect_eq_foldl]
  exact Run.foldl (fun st m => f m st) (subnodes n) hf s

theorem Grows.refl (s : Nat → Name) : Grows s s := fun _ => Or.inl rfl

theorem Run.toGrows {A : State → Nat → Prop} {s t : State} (h : Run A s t) :
    Grows s.names t.names := by
  induction h with
  | refl => exact Grows.refl _
  | @tail u r _ hl _ ih =>
    intro x
    by_cases hx : x = r
    · subst hx
      simp only [State.rename, Function.update_same]
      rcases ih x with h1 | ⟨h1, h2⟩
      · rw [h1] at hl ⊢; exact Or.inr ⟨hl, rfl⟩
      · rw [h2, isLowerCase_capitalize _ h1] at hl; exact absurd hl (by decide)
    · simp only [State.rename, Function.update_noteq hx]
      exact ih x

/-- A name that is not lowercase-initial stays as it is. -/
theorem Grows.eq_of_not_lower {s t : Nat → Name} (h : Grows s t) {r : Nat}
    (hr : isLowerCase (s r) = false) : t r = s r := by
  rcases h r with h1 | ⟨h1, _⟩
  · exact h1
  · rw [hr] at h1; exact absurd h1 (by decide)

theorem Grows.not_lower {s t : Nat → Name} (h : Grows s t) {r : Nat}
    (hr : isLowerCase (s r) = false) : isLowerCase (t r) = false := by
  rw [h.eq_of_not_lower hr]; exact hr

/-- A lowercase-initial name that is no longer so has been capitalised. -/
theorem Grows.eq_capitalize {s t : Nat → Name} (h : Grows s t) {r : Nat}
    (hs : isLowerCase (s r) = true) (ht : isLowerCase (t r) = false) :
    t r = capitalize (s r) := by
  rcases h r with h1 | ⟨_, h2⟩
  · rw [h1, hs] at ht; exact absurd ht (by decide)
  · exact h2

theorem Grows.ne_mainName {s t : Nat → Name} (h : Grows s t) {r : Nat}
    (hs : s r ≠ mainName) : t r ≠ mainName := by
  rcases h r with h1 | ⟨h1, h2⟩
  · rw [h1]; exact hs
  · rw [h2]; exact capitalize_ne_mainName _ h1

/-- A run never takes the change flag back. -/
theorem Run.changed {A : State → Nat → Prop} {s t : State} (h : Run A s t) :
    t = s ∨ t.changed = true := by
  induction h with
  | refl => exact Or.inl rfl
  | tail r _ _ _ _ => exact Or.inr rfl

/-- Frame rule: a name the run is never allowed to touch keeps its spelling. -/
theorem Run.frame {A : State → Nat → Prop} {s t : State} (h : Run A s t)
    (x : Nat) (c : Name) (hA : ∀ u, u.names x = c → ¬ A u x) (hs : s.names x = c) :
    t.names x = c := by
  induction h with
  | refl => exact hs
  | @tail u r _ _ ha ih =>
    by_cases hx : x = r
    · subst hx; exact absurd ha (hA u ih)
    · simp only [State.rename, Function.update_noteq hx]; exact ih

/-! ## The callback as a list of guarded renames -/

theorem capIdent_idem (r : Nat) (s : State) : capIdent r (capIdent r s) = capIdent r s := by
  unfold capIdent
  by_cases h : isLowerCase (s.names r) = true
  · simp [h, State.rename, isLowerCase_capitalize _ h]
  · simp [h]

theorem capAll_nil (s : State) : capAll [] s = s := rfl
theorem capAll_cons (r : Nat) (l : List Nat) (s : State) :
    capAll (r :: l) s = capAll l (capIdent r s) := rfl
theorem capAll_append (l1 l2 : List Nat) (s : State) :
    capAll (l1 ++ l2) s = capAll l2 (capAll l1 s) := by
  simp [capAll, List.foldl_append]
theorem capAllUnreserved_append (l1 l2 : List Nat) (s : State) :
    capAllUnreserved (l1 ++ l2) s = capAllUnreserved l2 (capAllUnreserved l1 s) := by
  simp [capAllUnreserved, List.foldl_append]

theorem foldl_eq_capAll (g : State → Node → State) (h : Node → List Nat)
    (hg : ∀ s n, g s n = capAll (h n) s) (l : List Node) (s : State) :
    l.foldl g s = capAll (l.flatMap h) s := by
  induction l generalizing s with
  | nil => rfl
  | cons n ns ih =>
    simp only [List.foldl_cons, List.flatMap_cons, capAll_append, hg, ih]

theorem capNameNode_eq (s : State) (n : Node) : capNameNode s n = capAll (identRef n) s := by
  cases n <;> rfl

theorem identsOf_eq (l : List Node) : identsOf l = l.flatMap identRef := by
  induction l with
  | nil => rfl
  | cons n ns ih => cases n <;> simp [identsOf, identRef, ih]

theorem capRecvField_eq (s : State) (n : Node) :
    capRecvField s n = capAll (recvTypeRef n) s := by
  unfold capRecvField recvTypeRef
  split <;> simp_all [capAll]

theorem capFieldNames_eq (s : State) (n : Node) :
    capFieldNames s n = capAll (fieldNameRef n) s := by
  unfold capFieldNames fieldNameRef
  split
  · simp only [identsOf_eq]; exact foldl_eq_capAll _ _ capNameNode_eq _ _
  · split <;> simp_all [capAll]

theorem capKey_eq (s : State) (n : Node) : capKey s n = capAll (keyRef n) s := by
  unfold capKey keyRef
  split <;> simp_all [capAll]


theorem foldl_eq_capAllUnreserved (g : State → Node → State) (h : Node → List Nat)
    (hg : ∀ s n, g s n = capAllUnreserved (h n) s) (l : List Node) (s : State) :
    l.foldl g s = capAllUnreserved (l.flatMap h) s := by
  induction l generalizing s with
  | nil => rfl
  | cons n ns ih =>
    simp only [List.foldl_cons, List.flatMap_cons, capAllUnreserved_append, hg, ih]

theorem capFree_eq (s : State) (n : Node) : capFree n s = capAllUnreserved (identRef n) s := by
  cases n <;> rfl

theorem inspect_capFree (v : Node) (s : State) :
    inspect capFree v s = capAllUnreserved (refs v) s := by
  rw [inspect_eq_foldl, refs, identsOf_eq]
  exact foldl_eq_capAllUnreserved (fun st m => capFree m st) _ capFree_eq _ _

theorem foldl_inspect_capFree (vs : List Node) (s : State) :
    vs.foldl (fun st value => inspect capFree value st) s
      = capAllUnreserved (valueRefs vs) s :=
  foldl_eq_capAllUnreserved (fun st value => inspect capFree value st) _
    (fun s n => inspect_capFree n s) _ _

theorem visitValueSpec_eq (names : List Node) (typ : Node) (values : List Node) (s : State) :
    visitValueSpec names typ values s
      = capAllUnreserved (identRef typ ++ valueRefs values) (capAll (identsOf names) s) := by
  unfold visitValueSpec
  simp only [foldl_inspect_capFree, capAllUnreserved_append]
  rw [identsOf_eq, ← foldl_eq_capAll _ _ capNameNode_eq]
  cases typ <;> rfl

theorem fieldsOrNil_none {n : Node} (h : fieldsOf n = none) : fieldsOrNil n = [] := by
  simp [fieldsOrNil, h]

theorem fieldsOrNil_some {n : Node} {fs : List Node} (h : fieldsOf n = some fs) :
    fieldsOrNil n = fs := by
  simp [fieldsOrNil, h]

theorem foldl_fieldNames (n : Node) (s : State) :
    (match fieldsOf n with
      | some fields => fields.foldl capFieldNames s
      | none => s) = capAll (fieldNameRefs (fieldsOrNil n)) s := by
  cases hf : fieldsOf n with
  | none => simp [fieldsOrNil_none hf, fieldNameRefs, capAll]
  | some fs =>
    simp only [fieldsOrNil_some hf]
    exact foldl_eq_capAll _ _ capFieldNames_eq _ _

theorem visit_eq (root m : Node) (s : State) (h : isFuncDecl m = false) :
    visit root m s = capAllUnreserved (guarded m) (capAll (unguarded m) s) := by
  unfold visit
  split
  · simp [isFuncDecl] at h
  · simp [unguarded, guarded, capAll, capAllUnreserved]
  · simp only [unguarded, guarded, foldl_fieldNames]; rfl
  · rename_i nm x typ
    simp only [unguarded, guarded]
    split
    · simp [capAll, capAllUnreserved, capIdent_idem]
    · simp [capAll, capAllUnreserved]
  · simp only [unguarded, guarded, foldl_fieldNames]; rfl
  · rename_i typ elts
    simp only [unguarded, guarded, capAll_append, keyRefs]
    rw [foldl_eq_capAll _ _ capKey_eq]
    cases typ <;> rfl
  · simp [unguarded, guarded, capAll, capAllUnreserved]
  · simp only [unguarded, guarded, visitValueSpec_eq]
  · rename_i h1 h2 h3 h4 h5 h6 h7 h8
    have hu : unguarded m = [] := by
      unfold unguarded
      split <;> first
        | rfl
        | exact (h1 _ _ _ rfl).elim
        | exact (h2 _ _ rfl).elim
        | exact (h3 _ rfl).elim
        | exact (h4 _ _ _ rfl).elim
        | exact (h5 _ rfl).elim
        | exact (h6 _ _ rfl).elim
        | exact (h7 _ _ rfl).elim
        | exact (h8 _ _ _ rfl).elim
    have hg : guarded m = [] := by
      unfold guarded
      split <;> first
        | rfl
        | exact (h8 _ _ _ rfl).elim
    rw [hu, hg]; rfl

theorem capIdent_run {A : State → Nat → Prop} (r : Nat) (s : State)
    (h : A s r) : Run A s (capIdent r s) := by
  unfold capIdent
  split
  · rename_i hl; exact Run.single r hl h
  · exact Run.refl s

theorem capUnreserved_run {A : State → Nat → Prop} (r : Nat) (s : State)
    (h : isReservedType (s.names r) = false → A s r) : Run A s (capUnreserved r s) := by
  unfold capUnreserved
  split
  · rename_i hl
    split
    · rename_i hr
      exact Run.single r hl (h (by simpa using hr))
    · exact Run.refl s
  · exact Run.refl s

theorem capAll_run {A : State → Nat → Prop} (l : List Nat) (s : State)
    (h : ∀ r ∈ l, ∀ u, A u r) : Run A s (capAll l s) :=
  Run.foldl _ l (fun r hr u => capIdent_run r u (h r hr u)) s

theorem capAllUnreserved_run {A : State → Nat → Prop} (l : List Nat) (s : State)
    (h : ∀ r ∈ l, ∀ u, isReservedType (u.names r) = false → A u r) :
    Run A s (capAllUnreserved l s) :=
  Run.foldl _ l (fun r hr u => capUnreserved_run r u (h r hr u)) s

theorem scanFuncCalls_run {A : State → Nat → Prop} (old : Name) (m : Node) (s : State)
    (hold : isLowerCase old = true) (h : ∀ r ∈ callTarget m, ∀ u, A u r) :
    Run A s (scanFuncCalls old m s) := by
  unfold scanFuncCalls
  split
  · rename_i f tl
    split
    · rename_i he
      exact Run.single f (by rw [he]; exact hold) (h f (by simp [callTarget]) s)
    · exact Run.refl s
  · exact Run.refl s

theorem scanMethodCalls_run {A : State → Nat → Prop} (old : Name) (m : Node) (s : State)
    (hold : isLowerCase old = true) (h : ∀ r ∈ callTarget m, ∀ u, A u r) :
    Run A s (scanMethodCalls old m s) := by
  unfold scanMethodCalls
  split
  · rename_i x sel tl
    split
    · rename_i he
      exact Run.single sel (by rw [he]; exact hold) (h sel (by simp [callTarget]) s)
    · exact Run.refl s
  · exact Run.refl s

theorem mem_callTargets {root m : Node} {r : Nat} (hm : m ∈ subnodes root)
    (hr : r ∈ callTarget m) : r ∈ callTargets root := by
  simp only [callTargets, List.mem_flatMap]
  exact ⟨m, hm, hr⟩

theorem inspect_scanFuncCalls_run {A : State → Nat → Prop} (old : Name) (root : Node)
    (s : State) (hold : isLowerCase old = true) (h : ∀ r ∈ callTargets root, ∀ u, A u r) :
    Run A s (inspect (scanFuncCalls old) root s) :=
  Run.inspect _ root (fun m hm u =>
    scanFuncCalls_run old m u hold (fun r hr => h r (mem_callTargets hm hr))) s

theorem inspect_scanMethodCalls_run {A : State → Nat → Prop} (old : Name) (root : Node)
    (s : State) (hold : isLowerCase old = true) (h : ∀ r ∈ callTargets root, ∀ u, A u r) :
    Run A s (inspect (scanMethodCalls old) root s) :=
  Run.inspect _ root (fun m hm u =>
    scanMethodCalls_run old m u hold (fun r hr => h r (mem_callTargets hm hr))) s

theorem visit_funcDecl (root recv : Node) (nm : Nat) (tl : List Node) (s : State) :
    visit root (.node .FuncDecl (recv :: .ident nm :: tl)) s = visitFuncDecl root recv nm s := by
  simp [visit]

theorem recv_foldl (recv : Node) (s : State) :
    (match fieldsOf recv with
      | some fields => fields.foldl capRecvField s
      | none => s) = capAll (recvTypeRefs (fieldsOrNil recv)) s := by
  cases hf : fieldsOf recv with
  | none => simp [fieldsOrNil_none hf, recvTypeRefs, capAll]
  | some fs =>
    simp only [fieldsOrNil_some hf]
    exact foldl_eq_capAll _ _ capRecvField_eq _ _

/-- The renames of the case `*ast.FuncDecl` before the receiver loop. -/
theorem visitFuncDecl_eq (root recv : Node) (nm : Nat) (s : State)
    (h : s.names nm ≠ mainName) :
    ∃ s2, visitFuncDecl root recv nm s = capAll (recvTypeRefs (fieldsOrNil recv)) s2
      ∧ (∀ A : State → Nat → Prop, (∀ u, A u nm) → (∀ r ∈ callTargets root, ∀ u, A u r) →
          Run A s s2)
      ∧ isLowerCase (s2.names nm) = false := by
  unfold visitFuncDecl
  simp only [h, if_false, recv_foldl]
  generalize hs1 : (if ((fieldsOf recv).isSome && isLowerCase (s.names nm)) = true then
      inspect (scanMethodCalls (s.names nm)) root (s.rename nm) else s) = s1
  have h1 : ∀ A : State → Nat → Prop, (∀ u, A u nm) → (∀ r ∈ callTargets root, ∀ u, A u r) →
      Run A s s1 := by
    intro A hA hC
    rw [← hs1]
    split
    · rename_i hc
      simp only [Bool.and_eq_true] at hc
      exact Run.trans (Run.single nm hc.2 (hA s))
        (inspect_scanMethodCalls_run _ root _ hc.2 hC)
    · exact Run.refl s
  by_cases hl : isLowerCase (s1.names nm) = true
  · simp only [hl, if_true]
    refine ⟨_, rfl, ?_, ?_⟩
    · intro A hA hC
      exact Run.trans (h1 A hA hC)
        (Run.trans (Run.single nm hl (hA _)) (inspect_scanFuncCalls_run _ root _ hl hC))
    · have hr : Run anyRef (s1.rename nm)
          (inspect (scanFuncCalls (s1.names nm)) root (s1.rename nm)) :=
        inspect_scanFuncCalls_run _ root _ hl (fun _ _ _ => trivial)
      refine hr.toGrows.not_lower ?_
      simp only [State.rename, Function.update_same]
      exact isLowerCase_capitalize _ hl
  · simp only [hl]
    refine ⟨_, rfl, h1, ?_⟩
    simpa using hl


/-! ## What a visit leaves behind -/

theorem isFuncDecl_iff (m : Node) :
    isFuncDecl m = true ↔ ∃ recv nm tl, m = .node .FuncDecl (recv :: .ident nm :: tl) := by
  constructor
  · intro h
    unfold isFuncDecl at h
    split at h
    · exact ⟨_, _, _, rfl⟩
    · exact absurd h (by decide)
  · rintro ⟨recv, nm, tl, rfl⟩
    rfl

theorem capIdent_not_lower (r : Nat) (s : State) :
    isLowerCase ((capIdent r s).names r) = false := by
  unfold capIdent
  split
  · rename_i hl
    simp only [State.rename, Function.update_same]
    exact isLowerCase_capitalize _ hl
  · rename_i hl
    simpa using hl

theorem capAll_not_lower (l : List Nat) (s : State) :
    ∀ r ∈ l, isLowerCase ((capAll l s).names r) = false := by
  induction l generalizing s with
  | nil => intro r hr; simp at hr
  | cons x xs ih =>
    intro r hr
    rw [capAll_cons]
    by_cases hx : r ∈ xs
    · exact ih _ r hx
    · have hrx : r = x := by simpa [hx] using hr
      subst hrx
      have hrun : Run anyRef (capIdent r s) (capAll xs (capIdent r s)) :=
        capAll_run xs _ (fun _ _ _ => trivial)
      exact hrun.toGrows.not_lower (capIdent_not_lower r s)

theorem AtRest.persists {σ τ : Nat → Name} (h : Grows σ τ) {r : Nat} (hr : AtRest σ r) :
    AtRest τ r := by
  rcases h r with h1 | ⟨h1, h2⟩
  · unfold AtRest; rw [h1]; exact hr
  · exact Or.inl (by rw [h2]; exact isLowerCase_capitalize _ h1)

theorem capUnreserved_atRest (r : Nat) (s : State) : AtRest (capUnreserved r s).names r := by
  unfold capUnreserved
  split
  · rename_i hl
    split
    · left
      simp only [State.rename, Function.update_same]
      exact isLowerCase_capitalize _ hl
    · rename_i hr
      right; simpa using hr
  · rename_i hl
    left; simpa using hl

theorem capAllUnreserved_cons (r : Nat) (l : List Nat) (s : State) :
    capAllUnreserved (r :: l) s = capAllUnreserved l (capUnreserved r s) := rfl

theorem capAllUnreserved_atRest (l : List Nat) (s : State) :
    ∀ r ∈ l, AtRest (capAllUnreserved l s).names r := by
  induction l generalizing s with
  | nil => intro r hr; simp at hr
  | cons x xs ih =>
    intro r hr
    rw [capAllUnreserved_cons]
    by_cases hx : r ∈ xs
    · exact ih _ r hx
    · have hrx : r = x := by simpa [hx] using hr
      subst hrx
      have hrun : Run anyRef (capUnreserved r s) (capAllUnreserved xs (capUnreserved r s)) :=
        capAllUnreserved_run xs _ (fun _ _ _ _ => trivial)
      exact (capUnreserved_atRest r s).persists hrun.toGrows

theorem Settled.stays {σ τ : Nat → Name} {m : Node} (h : Grows σ τ) (hs : Settled σ m) :
    Settled τ m :=
  ⟨fun r hr => h.not_lower (hs.1 r hr), fun r hr => AtRest.persists h (hs.2 r hr)⟩

theorem visit_settled (root m : Node) (s : State) (h : isFuncDecl m = false) :
    Settled (visit root m s).names m := by
  rw [visit_eq root m s h]
  constructor
  · intro r hr
    have hrun : Run anyRef (capAll (unguarded m) s)
        (capAllUnreserved (guarded m) (capAll (unguarded m) s)) :=
      capAllUnreserved_run _ _ (fun _ _ _ _ => trivial)
    exact hrun.toGrows.not_lower (capAll_not_lower _ s r hr)
  · intro r hr
    exact capAllUnreserved_atRest _ _ r hr

theorem guarded_funcDecl (recv : Node) (nm : Nat) (tl : List Node) :
    guarded (.node .FuncDecl (recv :: .ident nm :: tl)) = [] := by
  simp [guarded]

theorem unguarded_funcDecl (recv : Node) (nm : Nat) (tl : List Node) :
    unguarded (.node .FuncDecl (recv :: .ident nm :: tl))
      = nm :: recvTypeRefs (fieldsOrNil recv) := by
  simp [unguarded]

theorem visit_funcDecl_settled (root recv : Node) (nm : Nat) (tl : List Node) (s : State)
    (h : s.names nm ≠ mainName) :
    Settled (visit root (.node .FuncDecl (recv :: .ident nm :: tl)) s).names
      (.node .FuncDecl (recv :: .ident nm :: tl)) := by
  rw [visit_funcDecl]
  obtain ⟨s2, he, _, hl⟩ := visitFuncDecl_eq root recv nm s h
  rw [he]
  constructor
  · intro r hr
    rw [unguarded_funcDecl] at hr
    by_cases hx : r ∈ recvTypeRefs (fieldsOrNil recv)
    · exact capAll_not_lower _ s2 r hx
    · have hrx : r = nm := by simpa [hx] using hr
      subst hrx
      have hrun : Run anyRef s2 (capAll (recvTypeRefs (fieldsOrNil recv)) s2) :=
        capAll_run _ _ (fun _ _ _ => trivial)
      exact hrun.toGrows.not_lower hl
  · intro r hr
    rw [guarded_funcDecl] at hr
    simp at hr

/-- Every visit is a run of renames the node allows. -/
theorem visit_run (root m : Node) (s : State) : Run (Allowed root m) s (visit root m s) := by
  by_cases hf : isFuncDecl m = true
  · obtain ⟨recv, nm, tl, rfl⟩ := (isFuncDecl_iff m).mp hf
    rw [visit_funcDecl]
    by_cases hm : s.names nm = mainName
    · have : visitFuncDecl root recv nm s = s := by simp [visitFuncDecl, hm]
      rw [this]; exact Run.refl s
    · obtain ⟨s2, he, hrun, _⟩ := visitFuncDecl_eq root recv nm s hm
      rw [he]
      refine Run.trans (hrun _ ?_ ?_) (capAll_run _ _ ?_)
      · intro u; left; rw [unguarded_funcDecl]; exact List.mem_cons_self _ _
      · intro r hr u; right; left; exact hr
      · intro r hr u; left; rw [unguarded_funcDecl]; exact List.mem_cons_of_mem _ hr
  · have hf2 : isFuncDecl m = false := by simpa using hf
    rw [visit_eq root m s hf2]
    refine Run.trans (capAll_run _ _ ?_) (capAllUnreserved_run _ _ ?_)
    · intro r hr u; left; exact hr
    · intro r hr u hu; right; right; exact ⟨hr, hu⟩

theorem visit_run_any (root m : Node) (s : State) : Run anyRef s (visit root m s) :=
  (visit_run root m s).mono (fun _ _ _ => trivial)



/-! ## The whole pass -/

theorem capIdent_of_not_lower (r : Nat) (s : State) (h : isLowerCase (s.names r) = false) :
    capIdent r s = s := by
  simp [capIdent, h]

theorem capUnreserved_of_atRest (r : Nat) (s : State) (h : AtRest s.names r) :
    capUnreserved r s = s := by
  unfold capUnreserved
  rcases h with h | h
  · simp [h]
  · simp [h]

theorem capAll_of_not_lower (l : List Nat) (s : State)
    (h : ∀ r ∈ l, isLowerCase (s.names r) = false) : capAll l s = s := by
  induction l with
  | nil => rfl
  | cons x xs ih =>
    rw [capAll_cons, capIdent_of_not_lower x s (h x (List.mem_cons_self _ _))]
    exact ih (fun r hr => h r (List.mem_cons_of_mem _ hr))

theorem capAllUnreserved_of_atRest (l : List Nat) (s : State)
    (h : ∀ r ∈ l, AtRest s.names r) : capAllUnreserved l s = s := by
  induction l with
  | nil => rfl
  | cons x xs ih =>
    rw [capAllUnreserved_cons, capUnreserved_of_atRest x s (h x (List.mem_cons_self _ _))]
    exact ih (fun r hr => h r (List.mem_cons_of_mem _ hr))

/-- On a settled node the callback assigns nothing. -/
theorem visit_of_settled (root m : Node) (s : State) (h : Settled s.names m) :
    visit root m s = s := by
  by_cases hf : isFuncDecl m = true
  · obtain ⟨recv, nm, tl, rfl⟩ := (isFuncDecl_iff m).mp hf
    rw [visit_funcDecl]
    have hnm : isLowerCase (s.names nm) = false :=
      h.1 nm (by rw [unguarded_funcDecl]; exact List.mem_cons_self _ _)
    have hrecv : ∀ r ∈ recvTypeRefs (fieldsOrNil recv), isLowerCase (s.names r) = false :=
      fun r hr => h.1 r (by rw [unguarded_funcDecl]; exact List.mem_cons_of_mem _ hr)
    unfold visitFuncDecl
    simp only [hnm, Bool.and_false, Bool.false_eq_true, if_false, recv_foldl]
    rw [capAll_of_not_lower _ s hrecv]
    simp
  · have hf2 : isFuncDecl m = false := by simpa using hf
    rw [visit_eq root m s hf2, capAll_of_not_lower _ s h.1, capAllUnreserved_of_atRest _ s h.2]

/-- The state in which the pass starts. -/
theorem engine_eq (root : Node) (names : Nat → Name) :
    engine root names
      = (subnodes root).foldl (fun st m => visit root m st) ⟨names, false⟩ := by
  unfold engine; rw [inspect_eq_foldl]

theorem foldl_visit_run (root : Node) (l : List Node) (s : State) :
    Run anyRef s (l.foldl (fun st m => visit root m st) s) :=
  Run.foldl _ l (fun m _ u => visit_run_any root m u) s

/-- The pass only capitalises lowercase-initial names. -/
theorem engine_grows (root : Node) (names : Nat → Name) :
    Grows names (engine root names).names := by
  rw [engine_eq]
  exact (foldl_visit_run root _ ⟨names, false⟩).toGrows

/-- The pass around the visit of one node of the tree. -/
theorem engine_split (root : Node) (names : Nat → Name) {m : Node} (hm : m ∈ subnodes root) :
    ∃ sb : State, Grows names sb.names ∧
      Grows (visit root m sb).names (engine root names).names := by
  obtain ⟨pre, post, hsplit⟩ := List.append_of_mem hm
  refine ⟨pre.foldl (fun st m => visit root m st) ⟨names, false⟩, ?_, ?_⟩
  · exact (foldl_visit_run root pre ⟨names, false⟩).toGrows
  · rw [engine_eq, hsplit, List.foldl_append, List.foldl_cons]
    exact (foldl_visit_run root post _).toGrows

/-- After the pass every node on which the callback did not return early is settled. -/
theorem engine_settled (root : Node) (names : Nat → Name) {m : Node} (hm : m ∈ subnodes root)
    (h : ∀ recv nm tl, m = .node .FuncDecl (recv :: .ident nm :: tl) → names nm ≠ mainName) :
    Settled (engine root names).names m := by
  obtain ⟨sb, h1, h2⟩ := engine_split root names hm
  refine Settled.stays h2 ?_
  by_cases hf : isFuncDecl m = true
  · obtain ⟨recv, nm, tl, rfl⟩ := (isFuncDecl_iff m).mp hf
    exact visit_funcDecl_settled root recv nm tl sb (h1.ne_mainName (h recv nm tl rfl))
  · exact visit_settled root m sb (by simpa using hf)

/-- An identifier the callback reaches directly on some node is capitalised by
the pass if it is lowercase-initial, unless that node is a function named `main`. -/
theorem engine_capitalizes (root : Node) (names : Nat → Name) {m : Node} {r : Nat}
    (hm : m ∈ subnodes root)
    (h : ∀ recv nm tl, m = .node .FuncDecl (recv :: .ident nm :: tl) → names nm ≠ mainName)
    (hr : r ∈ unguarded m) (hl : isLowerCase (names r) = true) :
    (engine root names).names r = capitalize (names r) :=
  (engine_grows root names).eq_capitalize hl ((engine_settled root names hm h).1 r hr)


/-! ## Membership in the lists of assigned identifiers -/

theorem mem_identsOf {l : List Node} {r : Nat} (h : Node.ident r ∈ l) : r ∈ identsOf l := by
  rw [identsOf_eq, List.mem_flatMap]
  exact ⟨_, h, by simp [identRef]⟩

theorem mem_recvTypeRefs {fields : List Node} {x : Node} {t : Nat} {tl : List Node}
    (h : Node.node .Field (x :: .ident t :: tl) ∈ fields) : t ∈ recvTypeRefs fields := by
  simp only [recvTypeRefs, List.mem_flatMap]
  exact ⟨_, h, by simp [recvTypeRef]⟩

theorem mem_fieldNameRefs {fields names tl : List Node} {r : Nat}
    (h : Node.node .Field (.node .List names :: tl) ∈ fields) (hr : Node.ident r ∈ names) :
    r ∈ fieldNameRefs fields := by
  simp only [fieldNameRefs, List.mem_flatMap]
  exact ⟨_, h, by simpa [fieldNameRef] using mem_identsOf hr⟩

theorem mem_keyRefs {elts tl : List Node} {k : Nat}
    (h : Node.node .KeyValueExpr (.ident k :: tl) ∈ elts) : k ∈ keyRefs elts := by
  simp only [keyRefs, List.mem_flatMap]
  exact ⟨_, h, by simp [keyRef]⟩

theorem not_funcDecl_of_kind {k : Kind} {kids : List Node} (hk : k ≠ .FuncDecl) :
    ∀ recv nm tl, Node.node k kids = .node .FuncDecl (recv :: .ident nm :: tl) →
      ∀ names : Nat → Name, names nm ≠ mainName := by
  intro recv nm tl h
  injection h with h1 _
  exact absurd h1 hk



/-! ## Positions: every identifier occurrence has one parent -/

mutual
theorem Node.induct_aux {P : Node → Prop} (hi : ∀ r, P (.ident r))
    (hn : ∀ k kids, (∀ c ∈ kids, P c) → P (.node k kids)) : ∀ n, P n
  | .ident r => hi r
  | .node k kids => hn k kids (Node.induct_list hi hn kids)
theorem Node.induct_list {P : Node → Prop} (hi : ∀ r, P (.ident r))
    (hn : ∀ k kids, (∀ c ∈ kids, P c) → P (.node k kids)) : ∀ l : List Node, ∀ c ∈ l, P c
  | [], c, hc => by simp at hc
  | n :: ns, c, hc => by
      rcases List.mem_cons.mp hc with h | h
      · rw [h]; exact Node.induct_aux hi hn n
      · exact Node.induct_list hi hn ns c h
end

theorem subnodesList_eq (l : List Node) : subnodesList l = l.flatMap subnodes := by
  induction l with
  | nil => rfl
  | cons n ns ih => simp [subnodesList, ih]

theorem identsOf_append (l1 l2 : List Node) :
    identsOf (l1 ++ l2) = identsOf l1 ++ identsOf l2 := by
  simp [identsOf_eq]

theorem refs_ident (r : Nat) : refs (.ident r) = [r] := rfl

theorem refs_node (k : Kind) (kids : List Node) : refs (.node k kids) = kids.flatMap refs := by
  unfold refs
  simp only [subnodes, identsOf, subnodesList_eq]
  induction kids with
  | nil => rfl
  | cons n ns ih =>
    simp only [List.flatMap_cons, identsOf_append, ih]

theorem mem_refs_iff {n : Node} {r : Nat} : r ∈ refs n ↔ Node.ident r ∈ subnodes n := by
  unfold refs
  rw [identsOf_eq, List.mem_flatMap]
  constructor
  · rintro ⟨m, hm, hr⟩
    cases m with
    | ident x =>
      simp only [identRef, List.mem_singleton] at hr
      rw [hr]; exact hm
    | node k kids => simp [identRef] at hr
  · intro h
    exact ⟨_, h, by simp [identRef]⟩

theorem mem_refs_of_mem_subnodes {n m : Node} {r : Nat} (hm : m ∈ subnodes n)
    (hr : r ∈ refs m) : r ∈ refs n :=
  mem_refs_iff.mpr (subnodes_trans n hm (mem_refs_iff.mp hr))

theorem subnodes_node (k : Kind) (kids : List Node) :
    subnodes (.node k kids) = .node k kids :: kids.flatMap subnodes := by
  simp [subnodes, subnodesList_eq]

/-- An identifier below a node has a parent there. -/
theorem exists_parent {r : Nat} : ∀ n : Node, Node.ident r ∈ subnodes n → n ≠ .ident r →
    ∃ k ks, Node.node k ks ∈ subnodes n ∧ Node.ident r ∈ ks := by
  intro n
  induction n using Node.induct_aux with
  | hi x =>
    intro h hne
    simp only [subnodes, List.mem_singleton] at h
    exact absurd h.symm hne
  | hn k kids ih =>
    intro h _
    rw [subnodes_node] at h
    simp only [List.mem_cons, List.mem_flatMap] at h
    rcases h with h | ⟨c, hc, hrc⟩
    · cases h
    · by_cases hcr : c = .ident r
      · exact ⟨k, kids, self_mem_subnodes _, hcr ▸ hc⟩
      · obtain ⟨k2, ks, hp, hk⟩ := ih c hc hrc hcr
        exact ⟨k2, ks, kid_mem_subnodes (self_mem_subnodes _) hc |> fun h2 =>
          subnodes_trans _ h2 hp, hk⟩

/-- The children of a node. -/
theorem refs_of_kid {k : Kind} {ks : List Node} {r : Nat} (h : Node.ident r ∈ ks) :
    r ∈ refs (.node k ks) := by
  rw [refs_node, List.mem_flatMap]
  exact ⟨_, h, by simp [refs_ident]⟩

theorem nodup_refs_kid {k : Kind} {kids : List Node} (h : (refs (.node k kids)).Nodup)
    {c : Node} (hc : c ∈ kids) : (refs c).Nodup := by
  rw [refs_node, List.nodup_flatMap] at h
  exact h.1 c hc

theorem disjoint_refs_kids {k : Kind} {kids : List Node} (h : (refs (.node k kids)).Nodup)
    {c1 c2 : Node} (h1 : c1 ∈ kids) (h2 : c2 ∈ kids) (hne : c1 ≠ c2) {r : Nat}
    (hr1 : r ∈ refs c1) (hr2 : r ∈ refs c2) : False := by
  rw [refs_node, List.nodup_flatMap] at h
  have hp := h.2
  have hsymm : Symmetric (fun a b : Node => List.Disjoint (refs a) (refs b)) :=
    fun a b hab => hab.symm
  exact (hp.forall hsymm h1 h2 hne) hr1 hr2

/-- Without aliasing, an identifier occurrence is the child of one node only. -/
theorem parent_unique {r : Nat} : ∀ n : Node, (refs n).Nodup →
    ∀ (k1 : Kind) (ks1 : List Node) (k2 : Kind) (ks2 : List Node),
      Node.node k1 ks1 ∈ subnodes n → Node.node k2 ks2 ∈ subnodes n →
      Node.ident r ∈ ks1 → Node.ident r ∈ ks2 → Node.node k1 ks1 = Node.node k2 ks2 := by
  intro n
  induction n using Node.induct_aux with
  | hi x =>
    intro _ k1 ks1 k2 ks2 h1 _ _ _
    simp [subnodes] at h1
  | hn k kids ih =>
    intro hnd k1 ks1 k2 ks2 h1 h2 hr1 hr2
    rw [subnodes_node] at h1 h2
    simp only [List.mem_cons, List.mem_flatMap] at h1 h2
    -- an occurrence below the child `c` that is also a child of the node itself
    have hmix : ∀ (k3 : Kind) (ks3 : List Node) (c : Node), c ∈ kids →
        Node.node k3 ks3 ∈ subnodes c → Node.ident r ∈ ks3 → Node.ident r ∈ kids → False := by
      intro k3 ks3 c hc hp hk3 hk
      have hrc : r ∈ refs c := mem_refs_of_mem_subnodes hp (refs_of_kid hk3)
      have hne : c ≠ .ident r := by
        intro he
        rw [he] at hp
        simp [subnodes] at hp
      exact disjoint_refs_kids hnd hc hk hne hrc (by simp [refs_ident])
    rcases h1 with h1 | ⟨c1, hc1, hp1⟩ <;> rcases h2 with h2 | ⟨c2, hc2, hp2⟩
    · rw [h1, h2]
    · injection h1 with _ hks
      exact (hmix k2 ks2 c2 hc2 hp2 hr2 (hks ▸ hr1)).elim
    · injection h2 with _ hks
      exact (hmix k1 ks1 c1 hc1 hp1 hr1 (hks ▸ hr2)).elim
    · by_cases he : c1 = c2
      · subst he
        exact ih c1 hc1 (nodup_refs_kid hnd hc1) k1 ks1 k2 ks2 hp1 hp2 hr1 hr2
      · exact (disjoint_refs_kids hnd hc1 hc2 he
          (mem_refs_of_mem_subnodes hp1 (refs_of_kid hr1))
          (mem_refs_of_mem_subnodes hp2 (refs_of_kid hr2))).elim


theorem fieldsOrNil_kid {n : Node} {f : Node} (h : f ∈ fieldsOrNil n) : f ∈ subnodes n := by
  cases hf : fieldsOf n with
  | none => simp [fieldsOrNil_none hf] at h
  | some fs =>
    rw [fieldsOrNil_some hf] at h
    unfold fieldsOf at hf
    split at hf
    · injection hf with hf
      subst hf
      exact kid_mem_subnodes (self_mem_subnodes _) h
    · cases hf

theorem recvTypeRefs_parent {n : Node} {r : Nat} (h : r ∈ recvTypeRefs (fieldsOrNil n)) :
    ∃ ks, Node.node .Field ks ∈ subnodes n ∧ Node.ident r ∈ ks := by
  simp only [recvTypeRefs, List.mem_flatMap] at h
  obtain ⟨f, hf, hr⟩ := h
  unfold recvTypeRef at hr
  split at hr
  · rename_i x t
    simp only [List.mem_singleton] at hr
    subst hr
    exact ⟨_, fieldsOrNil_kid hf, by simp⟩
  · simp at hr

theorem mem_identsOf_iff {l : List Node} {r : Nat} : r ∈ identsOf l ↔ Node.ident r ∈ l := by
  constructor
  · intro hr
    rw [identsOf_eq, List.mem_flatMap] at hr
    obtain ⟨m, hm, hrm⟩ := hr
    cases m with
    | ident x =>
      simp only [identRef, List.mem_singleton] at hrm
      rw [hrm]; exact hm
    | node k kids => simp [identRef] at hrm
  · exact mem_identsOf

theorem fieldNameRefs_parent {n : Node} {r : Nat} (h : r ∈ fieldNameRefs (fieldsOrNil n)) :
    ∃ ks, Node.node .List ks ∈ subnodes n ∧ Node.ident r ∈ ks := by
  simp only [fieldNameRefs, List.mem_flatMap] at h
  obtain ⟨f, hf, hr⟩ := h
  unfold fieldNameRef at hr
  split at hr
  · rename_i names tl
    refine ⟨names, kid_mem_subnodes (fieldsOrNil_kid hf) (List.mem_cons_self _ _), ?_⟩
    exact mem_identsOf_iff.mp hr
  · simp at hr

theorem keyRefs_parent {elts : List Node} {r : Nat} (h : r ∈ keyRefs elts) :
    ∃ ks, Node.node .KeyValueExpr ks ∈ elts ∧ Node.ident r ∈ ks := by
  simp only [keyRefs, List.mem_flatMap] at h
  obtain ⟨f, hf, hr⟩ := h
  unfold keyRef at hr
  split at hr
  · simp only [List.mem_singleton] at hr
    subst hr
    exact ⟨_, hf, by simp⟩
  · simp at hr

/-- The parent of an identifier the callback reaches directly on `m`: never a
value specification, and a function declaration only if `m` is that declaration
and the identifier its name. -/
theorem unguarded_parent {m : Node} {r : Nat} (h : r ∈ unguarded m) :
    ∃ k ks, Node.node k ks ∈ subnodes m ∧ Node.ident r ∈ ks ∧ k ≠ .ValueSpec ∧
      (k = .FuncDecl → ∃ recv tl, m = .node .FuncDecl (recv :: .ident r :: tl)) := by
  unfold unguarded at h
  split at h
  · rename_i recv nm tl
    rcases List.mem_cons.mp h with h | h
    · subst h
      exact ⟨_, _, self_mem_subnodes _, by simp, by decide, fun _ => ⟨_, _, rfl⟩⟩
    · obtain ⟨ks, hp, hk⟩ := recvTypeRefs_parent h
      exact ⟨_, ks, kid_mem_subnodes (self_mem_subnodes _) (List.mem_cons_self _ _) |>
        fun h2 => subnodes_trans _ h2 hp, hk, by decide, fun hc => by cases hc⟩
  · simp only [List.mem_singleton] at h
    subst h
    exact ⟨_, _, self_mem_subnodes _, by simp, by decide, fun hc => by cases hc⟩
  · obtain ⟨ks, hp, hk⟩ := fieldNameRefs_parent h
    exact ⟨_, ks, kid_mem_subnodes (self_mem_subnodes _) (List.mem_cons_self _ _) |>
      fun h2 => subnodes_trans _ h2 hp, hk, by decide, fun hc => by cases hc⟩
  · simp only [List.mem_singleton] at h
    subst h
    exact ⟨_, _, self_mem_subnodes _, by simp, by decide, fun hc => by cases hc⟩
  · obtain ⟨ks, hp, hk⟩ := fieldNameRefs_parent h
    exact ⟨_, ks, kid_mem_subnodes (self_mem_subnodes _) (List.mem_cons_self _ _) |>
      fun h2 => subnodes_trans _ h2 hp, hk, by decide, fun hc => by cases hc⟩
  · rename_i typ elts
    rcases List.mem_append.mp h with h | h
    · cases typ with
      | ident t =>
        simp only [identRef, List.mem_singleton] at h
        subst h
        exact ⟨_, _, self_mem_subnodes _, by simp, by decide, fun hc => by cases hc⟩
      | node k ks => simp [identRef] at h
    · obtain ⟨ks, hp, hk⟩ := keyRefs_parent h
      exact ⟨_, ks, kid_mem_subnodes (self_mem_subnodes _) (List.mem_cons_of_mem _ hp), hk,
        by decide, fun hc => by cases hc⟩
  · simp only [List.mem_singleton] at h
    subst h
    exact ⟨_, _, self_mem_subnodes _, by simp, by decide, fun hc => by cases hc⟩
  · rename_i names typ values
    exact ⟨_, names, kid_mem_subnodes (self_mem_subnodes _) (List.mem_cons_self _ _),
      mem_identsOf_iff.mp h, by decide, fun hc => by cases hc⟩
  · simp at h

/-- The parent of a target of a secondary scan is a call or a selector. -/
theorem callTarget_parent {m : Node} {r : Nat} (h : r ∈ callTarget m) :
    ∃ k ks, Node.node k ks ∈ subnodes m ∧ Node.ident r ∈ ks ∧ k ≠ .ValueSpec ∧
      k ≠ .FuncDecl := by
  unfold callTarget at h
  split at h
  · simp only [List.mem_singleton] at h
    subst h
    exact ⟨_, _, self_mem_subnodes _, by simp, by decide, by decide⟩
  · simp only [List.mem_singleton] at h
    subst h
    exact ⟨_, _, kid_mem_subnodes (self_mem_subnodes _) (List.mem_cons_self _ _), by simp,
      by decide, by decide⟩
  · simp at h



theorem guarded_cases {m : Node} {r : Nat} (h : r ∈ guarded m) :
    ∃ ns typ values, m = .node .ValueSpec [.node .List ns, typ, .node .List values] ∧
      (typ = .ident r ∨ ∃ v ∈ values, r ∈ refs v) := by
  unfold guarded at h
  split at h
  · rename_i ns typ values
    refine ⟨ns, typ, values, rfl, ?_⟩
    rcases List.mem_append.mp h with h | h
    · left
      cases typ with
      | ident t =>
        simp only [identRef, List.mem_singleton] at h
        rw [h]
      | node k ks => simp [identRef] at h
    · right
      simpa [valueRefs, List.mem_flatMap] using h
  · simp at h

/-! ## Frame rules -/

/-- A visit keeps the spelling of an identifier it does not reach, and of a
reserved name it reaches only under the reserved-name guard. -/
theorem visit_frame (root m : Node) (s : State) (x : Nat) (c : Name)
    (h1 : x ∉ unguarded m) (h2 : x ∉ callTargets root)
    (h3 : x ∈ guarded m → isReservedType c = true) (hs : s.names x = c) :
    (visit root m s).names x = c := by
  refine (visit_run root m s).frame x c ?_ hs
  intro u hu ha
  rcases ha with ha | ha | ⟨ha, hr⟩
  · exact h1 ha
  · exact h2 ha
  · rw [hu, h3 ha] at hr
    exact absurd hr (by decide)

theorem foldl_visit_inv (root : Node) (P : State → Prop) (l : List Node)
    (h : ∀ m ∈ l, ∀ s, P s → P (visit root m s)) (s : State) (hs : P s) :
    P (l.foldl (fun st m => visit root m st) s) := by
  induction l generalizing s with
  | nil => exact hs
  | cons m ms ih =>
    simp only [List.foldl_cons]
    exact ih (fun n hn => h n (List.mem_cons_of_mem _ hn)) _
      (h m (List.mem_cons_self _ _) s hs)

theorem not_mem_callTargets {root : Node} {x : Nat} {k : Kind} {ks : List Node}
    (hna : NoAlias root) (hp : Node.node k ks ∈ subnodes root) (hx : Node.ident x ∈ ks)
    (hk : k = .ValueSpec ∨ k = .FuncDecl) : x ∉ callTargets root := by
  intro hc
  simp only [callTargets, List.mem_flatMap] at hc
  obtain ⟨m, hm, hr⟩ := hc
  obtain ⟨k2, ks2, hp2, hx2, hv, hf⟩ := callTarget_parent hr
  have he := parent_unique root hna k2 ks2 k ks (subnodes_trans root hm hp2) hp hx2 hx
  injection he with he1 _
  rcases hk with hk | hk
  · exact hv (he1.trans hk)
  · exact hf (he1.trans hk)

/-- The type reference of a value specification keeps a reserved name through
every visit. -/
theorem visit_keeps_reserved_type (root : Node) (vnames values : List Node) (t : Nat)
    (c : Name) (hna : NoAlias root)
    (hvs : Node.node .ValueSpec [.node .List vnames, .ident t, .node .List values]
      ∈ subnodes root)
    (hres : isReservedType c = true) :
    ∀ m ∈ subnodes root, ∀ s : State, s.names t = c → (visit root m s).names t = c := by
  intro m hm s hs
  refine visit_frame root m s t c ?_ ?_ (fun _ => hres) hs
  · intro hu
    obtain ⟨k, ks, hp, hx, hv, _⟩ := unguarded_parent hu
    have he := parent_unique root hna k ks _ _ (subnodes_trans root hm hp) hvs hx (by simp)
    injection he with he1 _
    exact hv he1
  · exact not_mem_callTargets hna hvs (by simp) (Or.inl rfl)

theorem mem_initializerNodes {root m v p : Node} (hm : m ∈ subnodes root)
    (hv : v ∈ initializers m) (hp : p ∈ subnodes v) : p ∈ initializerNodes root := by
  simp only [initializerNodes, List.mem_flatMap]
  exact ⟨m, hm, v, hv, hp⟩

/-- The name of a function declared `main` outside initializers stays `main`
through every visit. -/
theorem visit_keeps_main (root recv : Node) (nm : Nat) (tl : List Node)
    (hna : NoAlias root)
    (hfd : Node.node .FuncDecl (recv :: .ident nm :: tl) ∈ subnodes root)
    (hinit : Node.node .FuncDecl (recv :: .ident nm :: tl) ∉ initializerNodes root) :
    ∀ m ∈ subnodes root, ∀ s : State, s.names nm = mainName →
      (visit root m s).names nm = mainName := by
  intro m hm s hs
  by_cases hself : ∃ recv2 tl2, m = .node .FuncDecl (recv2 :: .ident nm :: tl2)
  · obtain ⟨recv2, tl2, rfl⟩ := hself
    rw [visit_funcDecl]
    simp [visitFuncDecl, hs]
  · have hkid : Node.ident nm ∈ recv :: Node.ident nm :: tl := by simp
    refine visit_frame root m s nm mainName ?_ ?_ ?_ hs
    · intro hu
      obtain ⟨k, ks, hp, hx, _, hf⟩ := unguarded_parent hu
      have he := parent_unique root hna k ks _ _ (subnodes_trans root hm hp) hfd hx hkid
      injection he with he1 _
      exact hself (hf he1)
    · exact not_mem_callTargets hna hfd hkid (Or.inr rfl)
    · intro hg
      exfalso
      obtain ⟨ns, typ, values, hmeq, hcase⟩ := guarded_cases hg
      subst hmeq
      rcases hcase with ht | ⟨v, hv, hr⟩
      · subst ht
        have he := parent_unique root hna _ _ _ _ hm hfd (by simp) hkid
        injection he with he1 _
        cases he1
      · have hvals : Node.node .List values ∈ subnodes root :=
          kid_mem_subnodes hm (by simp)
        by_cases hvi : v = .ident nm
        · subst hvi
          have he := parent_unique root hna _ _ _ _ hvals hfd hv hkid
          injection he with he1 _
          cases he1
        · obtain ⟨k, ks, hp, hx⟩ := exists_parent v (mem_refs_iff.mp hr) hvi
          have hproot : Node.node k ks ∈ subnodes root :=
            subnodes_trans root (kid_mem_subnodes hvals hv) hp
          have he := parent_unique root hna k ks _ _ hproot hfd hx hkid
          rw [he] at hp
          exact hinit (mem_initializerNodes hm (by simp [initializers]; exact hv) hp)


theorem engine_keeps_main (root : Node) (names : Nat → Name) (recv : Node) (nm : Nat)
    (tl : List Node) (hna : NoAlias root)
    (hfd : Node.node .FuncDecl (recv :: .ident nm :: tl) ∈ subnodes root)
    (hinit : Node.node .FuncDecl (recv :: .ident nm :: tl) ∉ initializerNodes root)
    (hmain : names nm = mainName) (l : List Node) (hl : ∀ m ∈ l, m ∈ subnodes root) :
    (l.foldl (fun st m => visit root m st) ⟨names, false⟩).names nm = mainName :=
  foldl_visit_inv root (fun s => s.names nm = mainName) l
    (fun m hm s hs => visit_keeps_main root recv nm tl hna hfd hinit m (hl m hm) s hs)
    ⟨names, false⟩ hmain


theorem capitalize_ne (s : Name) (h : isLowerCase s = true) : capitalize s ≠ s := by
  intro hc
  have h1 := isLowerCase_capitalize s h
  rw [hc, h] at h1
  exact absurd h1 (by decide)


/-! ## The claims -/

/-- C3: Declaration and call consistency.  In a file that declares a function
without receiver whose name `f` is lowercase-initial and not `main`, the name
of the declaration and the target of every call `f(...)` of the file, before
or after the declaration, are `capitalize f` after one pass. -/
theorem decl_and_calls_consistent (root : Node) (names : Nat → Name)
    (recv : Node) (nm : Nat) (tl : List Node) (f : Name)
    (hdecl : Node.node .FuncDecl (recv :: .ident nm :: tl) ∈ subnodes root)
    (_hrecv : fieldsOf recv = none)
    (hname : names nm = f) (hlow : isLowerCase f = true) (hmain : f ≠ mainName) :
    (engine root names).names nm = capitalize f ∧
    ∀ (c : Nat) (args : List Node), Node.node .CallExpr (.ident c :: args) ∈ subnodes root →
      names c = f → (engine root names).names c = capitalize f := by
  constructor
  · rw [← hname]
    refine engine_capitalizes root names hdecl ?_ ?_ (by rw [hname]; exact hlow)
    · intro recv2 nm2 tl2 h
      injection h with _ h2
      injection h2 with _ h3
      injection h3 with h4 _
      injection h4 with h5
      rw [← h5, hname]; exact hmain
    · rw [unguarded_funcDecl]; exact List.mem_cons_self _ _
  · intro c args hcall hc
    rw [← hc]
    refine engine_capitalizes root names hcall ?_ ?_ (by rw [hc]; exact hlow)
    · intro recv2 nm2 tl2 h
      exact not_funcDecl_of_kind (by decide) recv2 nm2 tl2 h names
    · simp [unguarded]


theorem decl_and_calls_consistent_witness :
    (engine greetFile greetNames).names 1 = capitalize (bytes "greet") ∧
    (engine greetFile greetNames).names 5 = capitalize (bytes "greet") :=
  have h := decl_and_calls_consistent greetFile greetNames nil 1
    [.node .FuncType [.node .FieldList [.node .Field [.node .List [.ident 2], .ident 3]]],
      .node .BlockStmt []]
    (bytes "greet") (by decide) rfl rfl (by decide) (by decide)
  ⟨h.1, h.2 5 [.node .BasicLit []] (by decide) rfl⟩

/-- C4: Method, receiver and call-site consistency.  In a file with a type
declaration of lowercase-initial name `T`, a method of lowercase-initial name
`m` other than `main` on the value receiver type `T`, and a call `d.m()`, one
pass spells the type name and the receiver type `capitalize T` and the method
name and the called member `capitalize m`. -/
theorem method_receiver_call_consistent (root : Node) (names : Nat → Name)
    (tn : Nat) (tparams typ : Node) (recv : Node) (fields : List Node) (x : Node) (rt : Nat)
    (ftl : List Node)
    (mn : Nat) (tl : List Node) (d : Node) (sel : Nat) (args : List Node) (T m : Name)
    (htype : Node.node .TypeSpec [.ident tn, tparams, typ] ∈ subnodes root)
    (hmeth : Node.node .FuncDecl (recv :: .ident mn :: tl) ∈ subnodes root)
    (hrecv : fieldsOf recv = some fields)
    (hfield : Node.node .Field (x :: .ident rt :: ftl) ∈ fields)
    (hcall : Node.node .CallExpr (.node .SelectorExpr [d, .ident sel] :: args) ∈ subnodes root)
    (hT : names tn = T) (hrt : names rt = T) (hTlow : isLowerCase T = true)
    (hm : names mn = m) (hsel : names sel = m) (hmlow : isLowerCase m = true)
    (hmain : m ≠ mainName) :
    (engine root names).names tn = capitalize T ∧
    (engine root names).names rt = capitalize T ∧
    (engine root names).names mn = capitalize m ∧
    (engine root names).names sel = capitalize m := by
  have hfd : ∀ recv2 nm2 tl2,
      Node.node .FuncDecl (recv :: .ident mn :: tl) = .node .FuncDecl (recv2 :: .ident nm2 :: tl2) →
      names nm2 ≠ mainName := by
    intro recv2 nm2 tl2 h
    injection h with _ h2
    injection h2 with _ h3
    injection h3 with h4 _
    injection h4 with h5
    rw [← h5, hm]; exact hmain
  refine ⟨?_, ?_, ?_, ?_⟩
  · rw [← hT]
    refine engine_capitalizes root names htype ?_ ?_ (by rw [hT]; exact hTlow)
    · intro a b c h; exact not_funcDecl_of_kind (by decide) a b c h names
    · simp [unguarded]
  · rw [← hrt]
    refine engine_capitalizes root names hmeth hfd ?_ (by rw [hrt]; exact hTlow)
    rw [unguarded_funcDecl, fieldsOrNil_some hrecv]
    exact List.mem_cons_of_mem _ (mem_recvTypeRefs hfield)
  · rw [← hm]
    refine engine_capitalizes root names hmeth hfd ?_ (by rw [hm]; exact hmlow)
    rw [unguarded_funcDecl]; exact List.mem_cons_self _ _
  · rw [← hsel]
    have hselNode : Node.node .SelectorExpr [d, .ident sel] ∈ subnodes root :=
      kid_mem_subnodes hcall (List.mem_cons_self _ _)
    refine engine_capitalizes root names hselNode ?_ ?_ (by rw [hsel]; exact hmlow)
    · intro a b c h; exact not_funcDecl_of_kind (by decide) a b c h names
    · simp [unguarded]

theorem method_receiver_call_consistent_witness :
    (engine dogFile dogNames).names 1 = capitalize (bytes "dog") ∧
    (engine dogFile dogNames).names 3 = capitalize (bytes "dog") ∧
    (engine dogFile dogNames).names 4 = capitalize (bytes "speak") ∧
    (engine dogFile dogNames).names 9 = capitalize (bytes "speak") :=
  method_receiver_call_consistent dogFile dogNames 1 nil (.node .StructType [.node .FieldList []])
    (.node .FieldList [.node .Field [.node .List [.ident 2], .ident 3]])
    [.node .Field [.node .List [.ident 2], .ident 3]] (.node .List [.ident 2]) 3 []
    4 [.node .FuncType [.node .FieldList []], .node .BlockStmt []] (.ident 8) 9 []
    (bytes "dog") (bytes "speak")
    (by decide) (by decide) rfl (by decide) (by decide) rfl rfl (by decide) rfl rfl
    (by decide) (by decide)

/-- C6: Struct field, literal and access consistency.  In a file with a struct
type declaration of lowercase-initial name `T` with a lowercase-initial field
`f`, a composite literal `T{f: v}` and a member access `p.f`, one pass spells
the type name and the type of the literal `capitalize T` and the field name,
the key of the literal and the accessed member `capitalize f`. -/
theorem struct_field_literal_access_consistent (root : Node) (names : Nat → Name)
    (tn : Nat) (tparams : Node) (fields fnames ftl : List Node) (fn : Nat)
    (lt : Nat) (elts : List Node) (key : Nat) (ktl : List Node) (p : Node) (acc : Nat)
    (T f : Name)
    (htype : Node.node .TypeSpec
      [.ident tn, tparams, .node .StructType [.node .FieldList fields]] ∈ subnodes root)
    (hfield : Node.node .Field (.node .List fnames :: ftl) ∈ fields)
    (hfname : Node.ident fn ∈ fnames)
    (hlit : Node.node .CompositeLit (.ident lt :: elts) ∈ subnodes root)
    (hkey : Node.node .KeyValueExpr (.ident key :: ktl) ∈ elts)
    (hacc : Node.node .SelectorExpr [p, .ident acc] ∈ subnodes root)
    (hT : names tn = T) (hlt : names lt = T) (hTlow : isLowerCase T = true)
    (hf : names fn = f) (hk : names key = f) (ha : names acc = f)
    (hflow : isLowerCase f = true) :
    (engine root names).names tn = capitalize T ∧
    (engine root names).names fn = capitalize f ∧
    (engine root names).names lt = capitalize T ∧
    (engine root names).names key = capitalize f ∧
    (engine root names).names acc = capitalize f := by
  have hnf : ∀ {k : Kind} {kids : List Node}, k ≠ .FuncDecl → ∀ recv nm tl,
      Node.node k kids = .node .FuncDecl (recv :: .ident nm :: tl) → names nm ≠ mainName :=
    fun hk a b c h => not_funcDecl_of_kind hk a b c h names
  have hstruct : Node.node .StructType [.node .FieldList fields] ∈ subnodes root :=
    kid_mem_subnodes htype (by simp)
  refine ⟨?_, ?_, ?_, ?_, ?_⟩
  · rw [← hT]
    refine engine_capitalizes root names htype (hnf (by decide)) ?_ (by rw [hT]; exact hTlow)
    simp [unguarded]
  · rw [← hf]
    refine engine_capitalizes root names hstruct (hnf (by decide)) ?_ (by rw [hf]; exact hflow)
    simp only [unguarded, fieldsOrNil, fieldsOf, Option.getD_some]
    exact mem_fieldNameRefs hfield hfname
  · rw [← hlt]
    refine engine_capitalizes root names hlit (hnf (by decide)) ?_ (by rw [hlt]; exact hTlow)
    simp [unguarded, identRef]
  · rw [← hk]
    refine engine_capitalizes root names hlit (hnf (by decide)) ?_ (by rw [hk]; exact hflow)
    simp only [unguarded, List.mem_append]
    exact Or.inr (mem_keyRefs hkey)
  · rw [← ha]
    refine engine_capitalizes root names hacc (hnf (by decide)) ?_ (by rw [ha]; exact hflow)
    simp [unguarded]

theorem struct_field_literal_access_consistent_witness :
    (engine pointFile pointNames).names 1 = capitalize (bytes "point") ∧
    (engine pointFile pointNames).names 2 = capitalize (bytes "x") ∧
    (engine pointFile pointNames).names 6 = capitalize (bytes "point") ∧
    (engine pointFile pointNames).names 7 = capitalize (bytes "x") ∧
    (engine pointFile pointNames).names 10 = capitalize (bytes "x") :=
  struct_field_literal_access_consistent pointFile pointNames 1 nil
    [.node .Field [.node .List [.ident 2], .ident 3]] [.ident 2] [.ident 3] 2
    6 [.node .KeyValueExpr [.ident 7, .node .BasicLit []]] 7 [.node .BasicLit []] (.ident 9) 10
    (bytes "point") (bytes "x")
    (by decide) (by decide) (by decide) (by decide) (by decide) (by decide)
    rfl rfl (by decide) rfl rfl rfl (by decide)

/-- C7: Reserved-name exclusion for declared types.  The explicit type
reference of a value specification whose name is reserved (`isReservedType`)
is spelled after the pass as before, and the declared names that are
lowercase-initial are capitalised. -/
theorem reserved_type_ref_unchanged (root : Node) (names : Nat → Name)
    (vnames values : List Node) (t : Nat) (hna : NoAlias root)
    (hvs : Node.node .ValueSpec [.node .List vnames, .ident t, .node .List values]
      ∈ subnodes root)
    (hres : isReservedType (names t) = true) :
    (engine root names).names t = names t ∧
    ∀ x, Node.ident x ∈ vnames → isLowerCase (names x) = true →
      (engine root names).names x = capitalize (names x) := by
  constructor
  · rw [engine_eq]
    exact foldl_visit_inv root (fun s => s.names t = names t) (subnodes root)
      (visit_keeps_reserved_type root vnames values t (names t) hna hvs hres)
      ⟨names, false⟩ rfl
  · intro x hx hl
    refine engine_capitalizes root names hvs ?_ ?_ hl
    · intro a b c h; exact not_funcDecl_of_kind (by decide) a b c h names
    · simp only [unguarded]
      exact mem_identsOf hx

theorem reserved_type_ref_unchanged_witness :
    (engine countFile countNames).names 2 = bytes "int" ∧
    (engine countFile countNames).names 1 = capitalize (bytes "count") :=
  have h := reserved_type_ref_unchanged countFile countNames [.ident 1] [] 2
    (by decide) (by decide) (by decide)
  ⟨h.1, h.2 1 (by decide) (by decide)⟩

/-- C10: Entry-point exclusion.  The name of a function declaration named
`main` is still `main` after the pass, and the callback leaves the state as it
is, change flag included, when the traversal reaches that declaration. -/
theorem main_func_excluded (root : Node) (names : Nat → Name) (recv : Node) (nm : Nat)
    (tl : List Node) (hna : NoAlias root)
    (hfd : Node.node .FuncDecl (recv :: .ident nm :: tl) ∈ subnodes root)
    (hinit : Node.node .FuncDecl (recv :: .ident nm :: tl) ∉ initializerNodes root)
    (hmain : names nm = mainName) :
    (engine root names).names nm = mainName ∧
    ∀ pre post : List Node,
      subnodes root = pre ++ Node.node .FuncDecl (recv :: .ident nm :: tl) :: post →
      visit root (.node .FuncDecl (recv :: .ident nm :: tl))
          (pre.foldl (fun st m => visit root m st) ⟨names, false⟩)
        = pre.foldl (fun st m => visit root m st) ⟨names, false⟩ := by
  constructor
  · rw [engine_eq]
    exact engine_keeps_main root names recv nm tl hna hfd hinit hmain _ (fun _ h => h)
  · intro pre post hsplit
    have hpre : ∀ m ∈ pre, m ∈ subnodes root := by
      intro m hm
      rw [hsplit]
      exact List.mem_append_left _ hm
    have hs := engine_keeps_main root names recv nm tl hna hfd hinit hmain pre hpre
    rw [visit_funcDecl]
    simp [visitFuncDecl, hs]

theorem main_func_excluded_witness :
    (engine mainFile mainNames).names 1 = mainName ∧
    visit mainFile
        (.node .FuncDecl [nil, .ident 1, .node .FuncType [.node .FieldList []],
          .node .BlockStmt []])
        ([mainFile, .ident 0].foldl (fun st m => visit mainFile m st) ⟨mainNames, false⟩)
      = [mainFile, .ident 0].foldl (fun st m => visit mainFile m st) ⟨mainNames, false⟩ :=
  have h := main_func_excluded mainFile mainNames nil 1
    [.node .FuncType [.node .FieldList []], .node .BlockStmt []]
    (by decide) (by decide) (by decide) rfl
  ⟨h.1, h.2 [mainFile, .ident 0]
    [nil, .ident 1, .node .FuncType [.node .FieldList []], .node .FieldList [],
      .node .BlockStmt []] (by decide)⟩

/-- C1: Idempotence of the rename engine.  On the tree a pass produced, a
second pass changes no name and reports `changed = false`. -/
theorem engine_idempotent (root : Node) (names : Nat → Name) (hwf : WellFormed root) :
    (engine root (engine root names).names).names = (engine root names).names ∧
    (engine root (engine root names).names).changed = false := by
  have key : engine root (engine root names).names = ⟨(engine root names).names, false⟩ := by
    rw [engine_eq root (engine root names).names]
    refine foldl_visit_inv root (fun s => s = ⟨(engine root names).names, false⟩)
      (subnodes root) ?_ _ rfl
    intro m hm s hs
    subst hs
    by_cases hmain : ∃ recv nm tl, m = .node .FuncDecl (recv :: .ident nm :: tl) ∧
        names nm = mainName
    · obtain ⟨recv, nm, tl, rfl, hn⟩ := hmain
      have hinit : Node.node .FuncDecl (recv :: .ident nm :: tl) ∉ initializerNodes root := by
        intro hi
        have := hwf.2 _ hi
        simp [isFuncDecl] at this
      have hkeep : (engine root names).names nm = mainName := by
        rw [engine_eq]
        exact engine_keeps_main root names recv nm tl hwf.1 hm hinit hn _ (fun _ h => h)
      rw [visit_funcDecl]
      simp [visitFuncDecl, hkeep]
    · refine visit_of_settled root m _ (engine_settled root names hm ?_)
      intro recv nm tl he hn
      exact hmain ⟨recv, nm, tl, he, hn⟩
  rw [key]
  exact ⟨rfl, rfl⟩

theorem engine_idempotent_witness :
    (engine dogFile (engine dogFile dogNames).names).names = (engine dogFile dogNames).names ∧
    (engine dogFile (engine dogFile dogNames).names).changed = false :=
  engine_idempotent dogFile dogNames (by decide)

/-- C2, as stated, fails: in `paramFile` the type declaration `foo` is renamed
to `Foo`, and the parameter type of `bar`, which refers to it, is still
spelled `foo` after the pass. -/
theorem propagation_misses_parameter_type :
    paramNames 1 = bytes "foo" ∧ paramNames 4 = bytes "foo" ∧
    (engine paramFile paramNames).names 1 = bytes "Foo" ∧
    (engine paramFile paramNames).names 4 = bytes "foo" := by
  decide

/-- C2, amended: when the pass renames a declaration spelled `n`, every
identifier spelled `n` that the callback reaches on a node of the file (other
than a function named `main`) is spelled `capitalize n` after the pass, and no
longer `n`: directly (call target, selector member, type and keys of a
composite literal, value receiver type, declared name) or, if `n` is not
reserved, under the reserved-name guard (type reference and initializers of a
value specification). -/
theorem propagation_to_reached_positions (root : Node) (names : Nat → Name)
    (d : Nat) (n : Name) (hd : names d = n) (hren : (engine root names).names d ≠ n) :
    (engine root names).names d = capitalize n ∧
    ∀ m ∈ subnodes root,
      (∀ recv nm tl, m = .node .FuncDecl (recv :: .ident nm :: tl) → names nm ≠ mainName) →
      ∀ r, names r = n →
        (r ∈ unguarded m ∨ (r ∈ guarded m ∧ isReservedType n = false)) →
        (engine root names).names r = capitalize n ∧ (engine root names).names r ≠ n := by
  have hlow : isLowerCase n = true := by
    rcases engine_grows root names d with h | ⟨h, _⟩
    · rw [hd] at h; exact absurd h hren
    · rw [hd] at h; exact h
  constructor
  · rcases engine_grows root names d with h | ⟨_, h⟩
    · rw [hd] at h; exact absurd h hren
    · rw [h, hd]
  · intro m hm hmain r hr hpos
    have hset := engine_settled root names hm hmain
    have hnl : isLowerCase ((engine root names).names r) = false := by
      rcases hpos with hu | ⟨hg, hres⟩
      · exact hset.1 r hu
      · rcases hset.2 r hg with h | h
        · exact h
        · rcases engine_grows root names r with h2 | ⟨_, h2⟩
          · rw [h2, hr, hres] at h; exact absurd h (by decide)
          · rw [h2, hr]; exact isLowerCase_capitalize n hlow
    have heq : (engine root names).names r = capitalize n := by
      have := (engine_grows root names).eq_capitalize (r := r) (by rw [hr]; exact hlow) hnl
      rw [this, hr]
    exact ⟨heq, by rw [heq]; exact capitalize_ne n hlow⟩

theorem propagation_to_reached_positions_witness :
    (engine dogFile dogNames).names 1 = capitalize (bytes "dog") ∧
    (engine dogFile dogNames).names 7 = capitalize (bytes "dog") ∧
    (engine dogFile dogNames).names 7 ≠ bytes "dog" :=
  have h := propagation_to_reached_positions dogFile dogNames 1 (bytes "dog") rfl (by decide)
  ⟨h.1, h.2 (.node .CompositeLit [.ident 7]) (by decide)
    (fun _ _ _ hm => by cases hm) 7 rfl (Or.inl (by decide))⟩

/-- C5 on a pointer receiver: in `ptrFile` the type `dog` and the method
`speak` are capitalised, the receiver type in `*dog` is not. -/
theorem pointer_receiver_not_renamed :
    ptrNames 3 = bytes "dog" ∧
    (engine ptrFile ptrNames).names 1 = bytes "Dog" ∧
    (engine ptrFile ptrNames).names 4 = bytes "Speak" ∧
    (engine ptrFile ptrNames).names 3 = bytes "dog" := by
  decide

/-- C8 on a conversion: in `convFile` the predeclared type `float64` in the
conversion `float64(v)` is renamed to `Float64`. -/
theorem conversion_type_renamed :
    convNames 5 = bytes "float64" ∧ isReservedType (convNames 5) = true ∧
    (engine convFile convNames).names 5 = bytes "Float64" := by
  decide

/-- C9 on a call in an initializer: in `lenFile` the predeclared function
`len` in the initializer `len(items)` is renamed to `Len`. -/
theorem initializer_builtin_renamed :
    lenNames 2 = bytes "len" ∧ isReservedType (lenNames 2) = true ∧
    (engine lenFile lenNames).names 2 = bytes "Len" ∧
    (engine lenFile lenNames).names 3 = bytes "Items" := by
  decide


/-! ## The change flag and the shape -/

theorem unguarded_subset_refs {m : Node} {r : Nat} (h : r ∈ unguarded m) : r ∈ refs m := by
  obtain ⟨k, ks, hp, hx, _, _⟩ := unguarded_parent h
  exact mem_refs_of_mem_subnodes hp (refs_of_kid hx)

theorem guarded_subset_refs {m : Node} {r : Nat} (h : r ∈ guarded m) : r ∈ refs m := by
  obtain ⟨ns, typ, values, rfl, hc⟩ := guarded_cases h
  rcases hc with ht | ⟨v, hv, hr⟩
  · subst ht
    exact refs_of_kid (by simp)
  · have hvals : Node.node .List values ∈
        subnodes (.node .ValueSpec [.node .List ns, typ, .node .List values]) :=
      kid_mem_subnodes (self_mem_subnodes _) (by simp)
    exact mem_refs_of_mem_subnodes (kid_mem_subnodes hvals hv) hr

theorem callTargets_subset_refs {root : Node} {r : Nat} (h : r ∈ callTargets root) :
    r ∈ refs root := by
  simp only [callTargets, List.mem_flatMap] at h
  obtain ⟨m, hm, hr⟩ := h
  obtain ⟨k, ks, hp, hx, _, _⟩ := callTarget_parent hr
  exact mem_refs_of_mem_subnodes (subnodes_trans root hm hp) (refs_of_kid hx)

/-- Everything a visit may assign is an identifier of the tree. -/
theorem allowed_subset_refs {root m : Node} (hm : m ∈ subnodes root) {u : State} {r : Nat}
    (h : Allowed root m u r) : r ∈ refs root := by
  rcases h with h | h | ⟨h, _⟩
  · exact mem_refs_of_mem_subnodes hm (unguarded_subset_refs h)
  · exact callTargets_subset_refs h
  · exact mem_refs_of_mem_subnodes hm (guarded_subset_refs h)

/-- A run that starts with the flag down raises it exactly when it changes a name. -/
theorem Run.changed_iff {A : State → Nat → Prop} {R : Nat → Prop}
    (hA : ∀ u r, A u r → R r) {names : Nat → Name} {t : State}
    (h : Run A ⟨names, false⟩ t) :
    t.changed = true ↔ ∃ r, R r ∧ t.names r ≠ names r := by
  cases h with
  | refl => simp
  | @tail u r hrun hl ha =>
    constructor
    · intro _
      refine ⟨r, hA u r ha, ?_⟩
      have hu : u.names r = names r := by
        rcases hrun.toGrows r with h1 | ⟨h1, h2⟩
        · exact h1
        · rw [h2, isLowerCase_capitalize _ h1] at hl
          exact absurd hl (by decide)
      simp only [State.rename, Function.update_same]
      rw [hu] at hl ⊢
      exact capitalize_ne _ hl
    · intro _
      rfl

theorem engine_run_refs (root : Node) (names : Nat → Name) :
    Run (fun _ r => r ∈ refs root) ⟨names, false⟩ (engine root names) := by
  rw [engine_eq]
  exact Run.foldl _ _ (fun m hm s =>
    (visit_run root m s).mono (fun _ _ h => allowed_subset_refs hm h)) _

mutual
theorem capitalisedFrom_render {σ τ : Nat → Name} (h : Grows σ τ) :
    ∀ n : Node, capitalisedFrom (render σ n) (render τ n) = true
  | .ident r => by
      simp only [render, capitalisedFrom, Bool.or_eq_true, Bool.and_eq_true, decide_eq_true_eq]
      exact h r
  | .node k kids => by
      simp only [render, capitalisedFrom, decide_True, Bool.true_and]
      exact capitalisedFromList_render h kids
theorem capitalisedFromList_render {σ τ : Nat → Name} (h : Grows σ τ) :
    ∀ l : List Node, capitalisedFromList (renderList σ l) (renderList τ l) = true
  | [] => by simp [renderList, capitalisedFromList]
  | n :: ns => by
      simp only [renderList, capitalisedFromList, Bool.and_eq_true]
      exact ⟨capitalisedFrom_render h n, capitalisedFromList_render h ns⟩
end

/-! ## Strings -/

theorem startsWith_iff (s pre : Name) : startsWith s pre = true ↔ ∃ t, s = pre ++ t := by
  induction pre generalizing s with
  | nil => cases s <;> simp [startsWith]
  | cons p ps ih =>
    cases s with
    | nil => simp [startsWith]
    | cons c cs =>
      simp only [startsWith, Bool.and_eq_true, decide_eq_true_eq, ih, List.cons_append,
        List.cons.injEq]
      constructor
      · rintro ⟨h, t, ht⟩; exact ⟨t, h, ht⟩
      · rintro ⟨t, h, ht⟩; exact ⟨h, t, ht⟩

/-- The function `contains` decides whether `sub` is a substring. -/
theorem contains_iff (s sub : Name) : contains s sub = true ↔ ∃ a b, s = a ++ sub ++ b := by
  induction s with
  | nil =>
    simp only [contains, List.isEmpty_iff]
    constructor
    · intro h; exact ⟨[], [], by simp [h]⟩
    · rintro ⟨a, b, h⟩
      have := congrArg List.length h
      simp only [List.length_nil, List.length_append] at this
      exact List.length_eq_zero.mp (by omega)
  | cons c cs ih =>
    simp only [contains, Bool.or_eq_true, startsWith_iff, ih]
    constructor
    · rintro (⟨t, ht⟩ | ⟨a, b, hab⟩)
      · exact ⟨[], t, by simpa using ht⟩
      · exact ⟨c :: a, b, by simp [hab]⟩
    · rintro ⟨a, b, hab⟩
      cases a with
      | nil => left; exact ⟨b, by simpa using hab⟩
      | cons x xs =>
        right
        simp only [List.cons_append, List.cons.injEq] at hab
        exact ⟨xs, b, hab.2⟩

theorem endsWith_iff (s suf : Name) : endsWith s suf = true ↔ ∃ t, s = t ++ suf := by
  unfold endsWith
  rw [startsWith_iff]
  constructor
  · rintro ⟨t, ht⟩
    refine ⟨t.reverse, ?_⟩
    have := congrArg List.reverse ht
    simpa using this
  · rintro ⟨t, ht⟩
    exact ⟨t.reverse, by rw [ht]; simp⟩

/-! ## Passes in closed form -/

theorem skips_iff (m : Node) (σ : Nat → Name) :
    skips m σ = true ↔
      ∃ recv nm tl, m = .node .FuncDecl (recv :: .ident nm :: tl) ∧ σ nm = mainName := by
  constructor
  · intro h
    unfold skips at h
    split at h
    · exact ⟨_, _, _, rfl, by simpa using h⟩
    · exact absurd h (by decide)
  · rintro ⟨recv, nm, tl, rfl, h⟩
    simp [skips, h]

theorem skips_funcDecl (recv : Node) (nm : Nat) (tl : List Node) (σ : Nat → Name) :
    skips (.node .FuncDecl (recv :: .ident nm :: tl)) σ = decide (σ nm = mainName) := by
  simp [skips]

theorem skips_of_not_funcDecl {m : Node} (h : isFuncDecl m = false) (σ : Nat → Name) :
    skips m σ = false := by
  cases hs : skips m σ with
  | false => rfl
  | true =>
    obtain ⟨recv, nm, tl, rfl, _⟩ := (skips_iff m σ).mp hs
    simp [isFuncDecl] at h

theorem skips_false_of_grows {σ τ : Nat → Name} (h : Grows σ τ) {m : Node}
    (hs : skips m σ = false) : skips m τ = false := by
  cases ht : skips m τ with
  | false => rfl
  | true =>
    obtain ⟨recv, nm, tl, rfl, hn⟩ := (skips_iff _ τ).mp ht
    rw [skips_funcDecl] at hs
    have hne : σ nm ≠ mainName := by simpa using hs
    exact absurd hn (h.ne_mainName hne)

theorem settledBy_of_grows {U G : Node → List Nat} {σ τ : Nat → Name} {m : Node}
    (h : Grows σ τ) (hs : SettledBy U G σ m) : SettledBy U G τ m :=
  ⟨fun r hr => h.not_lower (hs.1 r hr), fun r hr => (hs.2 r hr).persists h⟩

/-- Where the name of a function declared outside initializers stands: the
callback reaches it only on that declaration, directly. -/
theorem main_name_position (root recv : Node) (nm : Nat) (tl : List Node)
    (hna : NoAlias root)
    (hfd : Node.node .FuncDecl (recv :: .ident nm :: tl) ∈ subnodes root)
    (hinit : Node.node .FuncDecl (recv :: .ident nm :: tl) ∉ initializerNodes root) :
    nm ∉ callTargets root ∧ ∀ m ∈ subnodes root,
      (nm ∈ unguarded m → ∃ recv2 tl2, m = .node .FuncDecl (recv2 :: .ident nm :: tl2)) ∧
      nm ∉ guarded m := by
  have hkid : Node.ident nm ∈ recv :: Node.ident nm :: tl := by simp
  refine ⟨not_mem_callTargets hna hfd hkid (Or.inr rfl), ?_⟩
  intro m hm
  constructor
  · intro hu
    obtain ⟨k, ks, hp, hx, _, hf⟩ := unguarded_parent hu
    have he := parent_unique root hna k ks _ _ (subnodes_trans root hm hp) hfd hx hkid
    injection he with he1 _
    exact hf he1
  · intro hg
    obtain ⟨ns, typ, values, hmeq, hcase⟩ := guarded_cases hg
    subst hmeq
    rcases hcase with ht | ⟨v, hv, hr⟩
    · subst ht
      have he := parent_unique root hna _ _ _ _ hm hfd (by simp) hkid
      injection he with he1 _
      cases he1
    · have hvals : Node.node .List values ∈ subnodes root :=
        kid_mem_subnodes hm (by simp)
      by_cases hvi : v = .ident nm
      · subst hvi
        have he := parent_unique root hna _ _ _ _ hvals hfd hv hkid
        injection he with he1 _
        cases he1
      · obtain ⟨k, ks, hp, hx⟩ := exists_parent v (mem_refs_iff.mp hr) hvi
        have hproot : Node.node k ks ∈ subnodes root :=
          subnodes_trans root (kid_mem_subnodes hvals hv) hp
        have he := parent_unique root hna k ks _ _ hproot hfd hx hkid
        rw [he] at hp
        exact hinit (mem_initializerNodes hm (by simp [initializers]; exact hv) hp)

theorem foldl_inv {α : Type} (g : State → α → State) (P : State → Prop) (l : List α)
    (h : ∀ x ∈ l, ∀ s, P s → P (g s x)) (s : State) (hs : P s) : P (l.foldl g s) := by
  induction l generalizing s with
  | nil => exact hs
  | cons x xs ih =>
    simp only [List.foldl_cons]
    exact ih (fun y hy => h y (List.mem_cons_of_mem _ hy)) _
      (h x (List.mem_cons_self _ _) s hs)

/-- A pass keeps the name of a function declared `main`. -/
theorem pass_step_keeps_main {root : Node} {U G : Node → List Nat} {X : List Nat}
    {f : Node → State → State} (hp : Pass root U G X f) (hwf : WellFormed root)
    (recv : Node) (nm : Nat) (tl : List Node)
    (hfd : Node.node .FuncDecl (recv :: .ident nm :: tl) ∈ subnodes root) :
    ∀ m ∈ subnodes root, ∀ s : State, s.names nm = mainName →
      (f m s).names nm = mainName := by
  have hinit : Node.node .FuncDecl (recv :: .ident nm :: tl) ∉ initializerNodes root := by
    intro hi
    have := hwf.2 _ hi
    simp [isFuncDecl] at this
  obtain ⟨hcall, hpos⟩ := main_name_position root recv nm tl hwf.1 hfd hinit
  intro m hm s hs
  by_cases hsk : skips m s.names = true
  · rw [hp.skip m s hsk]; exact hs
  · refine (hp.run m s).frame nm mainName ?_ hs
    intro u _ ha
    rcases ha with ha | ha | ⟨ha, _⟩
    · obtain ⟨recv2, tl2, rfl⟩ := (hpos m hm).1 (hp.subU m nm ha)
      exact hsk (by rw [skips_funcDecl]; simpa using hs)
    · exact hcall (hp.subX nm ha)
    · exact (hpos m hm).2 (hp.subG m nm ha)

theorem grows_trans {σ τ υ : Nat → Name} (h1 : Grows σ τ) (h2 : Grows τ υ) : Grows σ υ := by
  intro r
  rcases h1 r with a | ⟨a1, a2⟩
  · rcases h2 r with b | ⟨b1, b2⟩
    · left; rw [b, a]
    · right; rw [a] at b1 b2; exact ⟨b1, b2⟩
  · right
    refine ⟨a1, ?_⟩
    have hnl : isLowerCase (τ r) = false := by rw [a2]; exact isLowerCase_capitalize _ a1
    rw [h2.eq_of_not_lower hnl, a2]

theorem mem_targetsBy {U G : Node → List Nat} {root : Node} {names : Nat → Name} {r : Nat} :
    r ∈ targetsBy U G root names ↔
      ∃ m ∈ subnodes root, skips m names = false ∧
        (r ∈ U m ∨ (r ∈ G m ∧ isReservedType (names r) = false)) := by
  simp only [targetsBy, List.mem_flatMap]
  constructor
  · rintro ⟨m, hm, hr⟩
    refine ⟨m, hm, ?_⟩
    cases hs : skips m names with
    | true => simp [hs] at hr
    | false =>
      simp only [hs, Bool.false_eq_true, if_false, List.mem_append, List.mem_filter,
        Bool.not_eq_true'] at hr
      exact ⟨rfl, hr⟩
  · rintro ⟨m, hm, hs, hr⟩
    refine ⟨m, hm, ?_⟩
    simp only [hs, Bool.false_eq_true, if_false, List.mem_append, List.mem_filter,
      Bool.not_eq_true']
    exact hr

theorem pass_fold_run {root : Node} {U G : Node → List Nat} {X : List Nat}
    {f : Node → State → State} (hp : Pass root U G X f) (l : List Node) (s : State) :
    Run anyRef s (l.foldl (fun st m => f m st) s) :=
  Run.foldl _ l (fun m _ u => (hp.run m u).mono (fun _ _ _ => trivial)) s

/-- What a pass keeps along the traversal: names only grow, functions named
`main` keep their name, identifiers outside the targets keep theirs. -/
theorem pass_invariant {root : Node} {U G : Node → List Nat} {X : List Nat}
    {f : Node → State → State} (hp : Pass root U G X f) (hwf : WellFormed root)
    (names : Nat → Name) (c : Bool) (l : List Node) (hl : ∀ m ∈ l, m ∈ subnodes root) :
    (∀ recv nm tl, Node.node .FuncDecl (recv :: .ident nm :: tl) ∈ subnodes root →
        names nm = mainName →
        (l.foldl (fun st m => f m st) ⟨names, c⟩).names nm = mainName) ∧
    (∀ r, r ∉ targetsBy U G root names →
        (l.foldl (fun st m => f m st) ⟨names, c⟩).names r = names r) := by
  refine foldl_inv (fun st m => f m st)
    (fun s => (∀ recv nm tl, Node.node .FuncDecl (recv :: .ident nm :: tl) ∈ subnodes root →
        names nm = mainName → s.names nm = mainName) ∧
      (∀ r, r ∉ targetsBy U G root names → s.names r = names r)) l ?_ ⟨names, c⟩
    ⟨fun _ _ _ _ h => h, fun _ _ => rfl⟩
  intro m hm s ⟨hmain, hframe⟩
  have hmr := hl m hm
  show (∀ recv nm tl, Node.node .FuncDecl (recv :: .ident nm :: tl) ∈ subnodes root →
        names nm = mainName → (f m s).names nm = mainName) ∧
      (∀ r, r ∉ targetsBy U G root names → (f m s).names r = names r)
  constructor
  · intro recv nm tl hfd hn
    exact pass_step_keeps_main hp hwf recv nm tl hfd m hmr s (hmain recv nm tl hfd hn)
  · intro r hr
    by_cases hsk : skips m s.names = true
    · rw [hp.skip m s hsk]; exact hframe r hr
    · have hs0 : skips m names = false := by
        cases h0 : skips m names with
        | false => rfl
        | true =>
          obtain ⟨recv, nm, tl, rfl, hn⟩ := (skips_iff _ names).mp h0
          exact absurd (by rw [skips_funcDecl]; simpa using hmain recv nm tl hmr hn) hsk
      refine (hp.run m s).frame r (names r) ?_ (hframe r hr)
      intro u hu ha
      rcases ha with ha | ha | ⟨ha, hres⟩
      · exact hr (mem_targetsBy.mpr ⟨m, hmr, hs0, Or.inl ha⟩)
      · obtain ⟨m2, hm2, hnf, hu2⟩ := hp.coverX r ha
        exact hr (mem_targetsBy.mpr ⟨m2, hm2, skips_of_not_funcDecl hnf names, Or.inl hu2⟩)
      · rw [hu] at hres
        exact hr (mem_targetsBy.mpr ⟨m, hmr, hs0, Or.inr ⟨ha, hres⟩⟩)

/-- After a pass every node it does not return early on is settled. -/
theorem pass_settled {root : Node} {U G : Node → List Nat} {X : List Nat}
    {f : Node → State → State} (hp : Pass root U G X f)
    (names : Nat → Name) (c : Bool) {m : Node} (hm : m ∈ subnodes root)
    (hs : skips m names = false) :
    SettledBy U G (inspect f root ⟨names, c⟩).names m := by
  obtain ⟨pre, post, hsplit⟩ := List.append_of_mem hm
  rw [inspect_eq_foldl, hsplit, List.foldl_append, List.foldl_cons]
  refine settledBy_of_grows (pass_fold_run hp post _).toGrows ?_
  refine hp.settle m _ (skips_false_of_grows ?_ hs)
  exact (pass_fold_run hp pre ⟨names, c⟩).toGrows

/-- The names after a pass, in closed form. -/
theorem pass_closed_form {root : Node} {U G : Node → List Nat} {X : List Nat}
    {f : Node → State → State} (hp : Pass root U G X f) (hwf : WellFormed root)
    (names : Nat → Name) (c : Bool) :
    (inspect f root ⟨names, c⟩).names = closedNames (targetsBy U G root names) names := by
  funext r
  have hgrow : Grows names (inspect f root ⟨names, c⟩).names := by
    rw [inspect_eq_foldl]; exact (pass_fold_run hp _ ⟨names, c⟩).toGrows
  unfold closedNames
  by_cases hT : r ∈ targetsBy U G root names
  · cases hl : isLowerCase (names r) with
    | false =>
      simp only [Bool.false_and, Bool.false_eq_true, if_false]
      exact hgrow.eq_of_not_lower hl
    | true =>
      simp only [hT, decide_True, Bool.and_self, if_true]
      refine hgrow.eq_capitalize hl ?_
      obtain ⟨m, hm, hs, hr⟩ := mem_targetsBy.mp hT
      have hset := pass_settled hp names c hm hs
      rcases hr with hr | ⟨hr, hres⟩
      · exact hset.1 r hr
      · rcases hset.2 r hr with h | h
        · exact h
        · rcases hgrow r with h2 | ⟨_, h2⟩
          · rw [h2, hres] at h; exact absurd h (by decide)
          · rw [h2]; exact isLowerCase_capitalize _ hl
  · simp only [hT, decide_False, Bool.and_false, Bool.false_eq_true, if_false]
    have := (pass_invariant hp hwf names c (subnodes root) (fun _ h => h)).2 r hT
    rw [inspect_eq_foldl]; exact this

/-- After a pass the callback returns early on the same nodes as before. -/
theorem pass_skips_final {root : Node} {U G : Node → List Nat} {X : List Nat}
    {f : Node → State → State} (hp : Pass root U G X f) (hwf : WellFormed root)
    (names : Nat → Name) (c : Bool) {m : Node} (hm : m ∈ subnodes root) :
    skips m (inspect f root ⟨names, c⟩).names = skips m names := by
  have hgrow : Grows names (inspect f root ⟨names, c⟩).names := by
    rw [inspect_eq_foldl]; exact (pass_fold_run hp _ ⟨names, c⟩).toGrows
  cases h0 : skips m names with
  | false => exact skips_false_of_grows hgrow h0
  | true =>
    obtain ⟨recv, nm, tl, rfl, hn⟩ := (skips_iff _ names).mp h0
    have := (pass_invariant hp hwf names c (subnodes root) (fun _ h => h)).1 recv nm tl hm hn
    rw [skips_funcDecl, inspect_eq_foldl]
    simpa using this

/-! ## The passes at hand -/

theorem capNode_run {U G : Node → List Nat} (X : List Nat) (m : Node) (s : State) :
    Run (AllowedBy U G X m) s (capNode U G m s) := by
  refine Run.trans (capAll_run _ _ ?_) (capAllUnreserved_run _ _ ?_)
  · intro r hr u; left; exact hr
  · intro r hr u hu; right; right; exact ⟨hr, hu⟩

theorem capNode_settled {U G : Node → List Nat} (m : Node) (s : State) :
    SettledBy U G (capNode U G m s).names m := by
  constructor
  · intro r hr
    have hrun : Run anyRef (capAll (U m) s) (capAllUnreserved (G m) (capAll (U m) s)) :=
      capAllUnreserved_run _ _ (fun _ _ _ _ => trivial)
    exact hrun.toGrows.not_lower (capAll_not_lower _ s r hr)
  · intro r hr
    exact capAllUnreserved_atRest _ _ r hr

/-- A callback in fixed order is a pass. -/
theorem staticPass_pass (root : Node) (U G : Node → List Nat)
    (hU : ∀ m r, r ∈ U m → r ∈ unguarded m) (hG : ∀ m r, r ∈ G m → r ∈ guarded m) :
    Pass root U G [] (staticPass U G) where
  run := by
    intro m s
    unfold staticPass
    split
    · exact Run.refl s
    · exact capNode_run [] m s
  skip := by
    intro m s h
    simp [staticPass, h]
  settle := by
    intro m s h
    simp only [staticPass, h, Bool.false_eq_true, if_false]
    exact capNode_settled m s
  subU := hU
  subG := hG
  subX := by intro r hr; simp at hr
  coverX := by intro r hr; simp at hr

theorem callTargets_covered {root : Node} {r : Nat} (h : r ∈ callTargets root) :
    ∃ m ∈ subnodes root, isFuncDecl m = false ∧ r ∈ unguarded m := by
  simp only [callTargets, List.mem_flatMap] at h
  obtain ⟨m, hm, hr⟩ := h
  unfold callTarget at hr
  split at hr
  · simp only [List.mem_singleton] at hr
    subst hr
    exact ⟨_, hm, rfl, by simp [unguarded]⟩
  · simp only [List.mem_singleton] at hr
    subst hr
    exact ⟨_, kid_mem_subnodes hm (List.mem_cons_self _ _), rfl, by simp [unguarded]⟩
  · simp at hr

/-- The callback of the engine is a pass. -/
theorem visit_pass (root : Node) :
    Pass root unguarded guarded (callTargets root) (visit root) where
  run := fun m s => (visit_run root m s).mono (fun _ _ h => h)
  skip := by
    intro m s h
    obtain ⟨recv, nm, tl, rfl, hn⟩ := (skips_iff m s.names).mp h
    rw [visit_funcDecl]
    simp [visitFuncDecl, hn]
  settle := by
    intro m s h
    by_cases hf : isFuncDecl m = true
    · obtain ⟨recv, nm, tl, rfl⟩ := (isFuncDecl_iff m).mp hf
      rw [skips_funcDecl] at h
      exact visit_funcDecl_settled root recv nm tl s (by simpa using h)
    · exact visit_settled root m s (by simpa using hf)
  subU := fun _ _ h => h
  subG := fun _ _ h => h
  subX := fun _ h => h
  coverX := fun _ h => callTargets_covered h

theorem visitFuncDeclNoScan_eq (recv : Node) (nm : Nat) (s : State)
    (h : s.names nm ≠ mainName) :
    visitFuncDeclNoScan recv nm s
      = capAll (recvTypeRefs (fieldsOrNil recv)) (capIdent nm s) := by
  unfold visitFuncDeclNoScan
  simp only [h, if_false, recv_foldl]
  congr 1
  by_cases hl : isLowerCase (s.names nm) = true
  · have hc : isLowerCase ((s.rename nm).names nm) = false := by
      simp only [State.rename, Function.update_same]
      exact isLowerCase_capitalize _ hl
    cases hr : (fieldsOf recv).isSome with
    | true => simp [hl, hc, capIdent]
    | false => simp [hl, capIdent]
  · have hl2 : isLowerCase (s.names nm) = false := by simpa using hl
    simp [hl2, capIdent]

theorem visitNoScan_eq (root m : Node) (s : State) :
    visitNoScan root m s = staticPass unguarded guarded m s := by
  by_cases hf : isFuncDecl m = true
  · obtain ⟨recv, nm, tl, rfl⟩ := (isFuncDecl_iff m).mp hf
    simp only [visitNoScan, staticPass, skips_funcDecl, decide_eq_true_eq]
    by_cases hn : s.names nm = mainName
    · simp [visitFuncDeclNoScan, hn]
    · rw [visitFuncDeclNoScan_eq recv nm s hn]
      simp only [hn, if_false, capNode, unguarded_funcDecl, guarded_funcDecl, capAll_cons]
      rfl
  · have hf2 : isFuncDecl m = false := by simpa using hf
    have hv : visitNoScan root m s = visit root m s := by
      unfold visitNoScan
      split
      · simp [isFuncDecl] at hf2
      · rfl
    rw [hv, visit_eq root m s hf2]
    simp [staticPass, skips_of_not_funcDecl hf2, capNode]

theorem visitNoScan_pass (root : Node) :
    Pass root unguarded guarded [] (visitNoScan root) := by
  have h : visitNoScan root = staticPass unguarded guarded := by
    funext m s; exact visitNoScan_eq root m s
  rw [h]
  exact staticPass_pass root unguarded guarded (fun _ _ h => h) (fun _ _ h => h)

/-- Two runs from the same state with the flag down that end in the same
names end in the same state. -/
theorem run_eq_of_names_eq {A B : State → Nat → Prop} {names : Nat → Name} {s t : State}
    (hs : Run A ⟨names, false⟩ s) (ht : Run B ⟨names, false⟩ t) (h : s.names = t.names) :
    s = t := by
  have h1 := hs.changed_iff (R := fun _ => True) (fun _ _ _ => trivial)
  have h2 := ht.changed_iff (R := fun _ => True) (fun _ _ _ => trivial)
  have hc : s.changed = t.changed := by
    have : (s.changed = true ↔ t.changed = true) := by rw [h1, h2, h]
    cases hsc : s.changed <;> cases htc : t.changed <;> simp_all
  cases s; cases t
  simp only [State.mk.injEq]
  exact ⟨h, hc⟩

/-! ## The two-phase design against the engine -/

theorem mem_unguarded_iff (m : Node) (r : Nat) :
    r ∈ unguarded m ↔ r ∈ declTargets m ∨ r ∈ refTargets m := by
  unfold unguarded
  split
  · simp [declTargets, refTargets]
  · simp [declTargets, refTargets]
  · simp [declTargets, refTargets]
  · simp [declTargets, refTargets]
  · simp [declTargets, refTargets]
  · simp [declTargets, refTargets]
  · simp [declTargets, refTargets]
  · simp [declTargets, refTargets]
  · rename_i h1 h2 h3 h4 h5 h6 h7 h8
    have hd : declTargets m = [] := by
      unfold declTargets
      split <;> first
        | rfl
        | exact (h1 _ _ _ rfl).elim
        | exact (h3 _ rfl).elim
        | exact (h4 _ _ _ rfl).elim
        | exact (h5 _ rfl).elim
        | exact (h8 _ _ _ rfl).elim
    have hr : refTargets m = [] := by
      unfold refTargets
      split <;> first
        | rfl
        | exact (h1 _ _ _ rfl).elim
        | exact (h2 _ _ rfl).elim
        | exact (h6 _ _ rfl).elim
        | exact (h7 _ _ rfl).elim
    simp [hd, hr]

theorem phaseOne_pass (root : Node) :
    Pass root declTargets guarded [] (staticPass declTargets guarded) :=
  staticPass_pass root declTargets guarded
    (fun m r h => (mem_unguarded_iff m r).mpr (Or.inl h)) (fun _ _ h => h)

theorem phaseTwo_pass (root : Node) :
    Pass root refTargets noGuard [] (staticPass refTargets noGuard) :=
  staticPass_pass root refTargets noGuard
    (fun m r h => (mem_unguarded_iff m r).mpr (Or.inr h))
    (fun _ _ h => by simp [noGuard] at h)

theorem lookupName_some {table : List (Name × Name)} {old new : Name}
    (h : lookupName table old = some new) : (old, new) ∈ table := by
  induction table with
  | nil => simp [lookupName] at h
  | cons p rest ih =>
    obtain ⟨o, n⟩ := p
    simp only [lookupName] at h
    split at h
    · rename_i ho
      injection h with hn
      rw [ho, hn]; exact List.mem_cons_self _ _
    · exact List.mem_cons_of_mem _ (ih h)

theorem lookupName_of_mem {table : List (Name × Name)} {old : Name}
    (h : old ∈ table.map Prod.fst) : ∃ new, lookupName table old = some new := by
  induction table with
  | nil => simp at h
  | cons p rest ih =>
    obtain ⟨o, n⟩ := p
    simp only [lookupName]
    by_cases ho : o = old
    · exact ⟨n, by simp [ho]⟩
    · simp only [ho, if_false]
      apply ih
      simp only [List.map_cons, List.mem_cons] at h
      rcases h with h | h
      · exact absurd h.symm ho
      · exact h

/-- The table holds lowercase-initial old names with their capitalisation. -/
theorem renameTable_entries (root : Node) (names : Nat → Name) (s1 : State)
    (hg : Grows names s1.names) {old new : Name}
    (h : (old, new) ∈ renameTable root names s1) :
    isLowerCase old = true ∧ new = capitalize old := by
  simp only [renameTable, List.mem_filterMap] at h
  obtain ⟨r, _, hr⟩ := h
  split at hr
  · cases hr
  · rename_i hne
    injection hr with hr
    injection hr with h1 h2
    rcases hg r with h3 | ⟨h3, h4⟩
    · exact absurd h3 hne
    · rw [← h1, ← h2]; exact ⟨h3, h4⟩

theorem rewriteRef_eq_capIdent (table : List (Name × Name)) (r : Nat) (s : State)
    (hent : ∀ old new, (old, new) ∈ table → isLowerCase old = true ∧ new = capitalize old)
    (hcov : isLowerCase (s.names r) = true → s.names r ∈ table.map Prod.fst) :
    rewriteRef table r s = capIdent r s := by
  unfold rewriteRef capIdent
  cases hl : isLowerCase (s.names r) with
  | false =>
    cases hlook : lookupName table (s.names r) with
    | none => simp
    | some new =>
      have := (hent _ _ (lookupName_some hlook)).1
      rw [hl] at this
      exact absurd this (by decide)
  | true =>
    obtain ⟨new, hlook⟩ := lookupName_of_mem (hcov hl)
    have hn := (hent _ _ (lookupName_some hlook)).2
    simp [hlook, hn, State.rename]

theorem foldl_rewriteRef_eq (table : List (Name × Name)) (σ : Nat → Name)
    (hent : ∀ old new, (old, new) ∈ table → isLowerCase old = true ∧ new = capitalize old)
    (l : List Nat)
    (hcov : ∀ r ∈ l, isLowerCase (σ r) = true → σ r ∈ table.map Prod.fst)
    (s : State) (hs : Grows σ s.names) :
    l.foldl (fun st r => rewriteRef table r st) s = capAll l s := by
  induction l generalizing s with
  | nil => rfl
  | cons x xs ih =>
    have hx : rewriteRef table x s = capIdent x s := by
      refine rewriteRef_eq_capIdent table x s hent ?_
      intro hl
      have hσ : s.names x = σ x := by
        rcases hs x with h | ⟨h1, h2⟩
        · exact h
        · rw [h2, isLowerCase_capitalize _ h1] at hl
          exact absurd hl (by decide)
      rw [hσ] at hl ⊢
      exact hcov x (List.mem_cons_self _ _) hl
    simp only [List.foldl_cons, capAll_cons, hx]
    refine ih (fun r hr => hcov r (List.mem_cons_of_mem _ hr)) _ ?_
    exact grows_trans hs (capIdent_run (A := anyRef) x s trivial).toGrows

theorem foldl_congr_inv {α : Type} (g1 g2 : State → α → State) (P : State → Prop)
    (l : List α) (h : ∀ x ∈ l, ∀ s, P s → g1 s x = g2 s x ∧ P (g2 s x))
    (s : State) (hs : P s) : l.foldl g1 s = l.foldl g2 s := by
  induction l generalizing s with
  | nil => rfl
  | cons x xs ih =>
    simp only [List.foldl_cons]
    obtain ⟨h1, h2⟩ := h x (List.mem_cons_self _ _) s hs
    rw [h1]
    exact ih (fun y hy => h y (List.mem_cons_of_mem _ hy)) _ h2

/-- When the table covers the references, phase 2 capitalises every
lowercase-initial reference-role occurrence. -/
theorem phaseTwo_eq (root : Node) (names : Nat → Name) (hcov : TableCovers root names) :
    twoPhase root names
      = inspect (staticPass refTargets noGuard) root (phaseOne root names) := by
  have hg1 : Grows names (phaseOne root names).names := by
    unfold phaseOne
    rw [inspect_eq_foldl]
    exact (pass_fold_run (phaseOne_pass root) _ _).toGrows
  unfold twoPhase
  simp only [inspect_eq_foldl]
  refine foldl_congr_inv _ _ (fun s => Grows (phaseOne root names).names s.names)
    (subnodes root) ?_ _ (Grows.refl _)
  intro m hm s hs
  constructor
  · unfold refVisit staticPass
    split
    · rfl
    · rw [foldl_rewriteRef_eq _ (phaseOne root names).names
        (fun old new h => renameTable_entries root names _ hg1 h) (refTargets m)
        (fun r hr hl => hcov m hm r hr hl) s hs]
      simp [capNode, noGuard, capAllUnreserved]
  · exact grows_trans hs
      (((phaseTwo_pass root).run m s).mono (fun _ _ _ => trivial : ∀ u r, _ → anyRef u r)).toGrows

theorem twoPhase_names (root : Node) (names : Nat → Name) (hwf : WellFormed root)
    (hcov : TableCovers root names) (r : Nat) :
    (twoPhase root names).names r = (engine root names).names r := by
  have h1 : (phaseOne root names).names
      = closedNames (targetsBy declTargets guarded root names) names := by
    unfold phaseOne
    exact pass_closed_form (phaseOne_pass root) hwf names false
  have hsk : ∀ m ∈ subnodes root, skips m (phaseOne root names).names = skips m names := by
    intro m hm
    unfold phaseOne
    exact pass_skips_final (phaseOne_pass root) hwf names false hm
  have h2 : (twoPhase root names).names
      = closedNames (targetsBy refTargets noGuard root (phaseOne root names).names)
          (phaseOne root names).names := by
    rw [phaseTwo_eq root names hcov]
    exact pass_closed_form (phaseTwo_pass root) hwf (phaseOne root names).names
      (phaseOne root names).changed
  have h3 : (engine root names).names
      = closedNames (targetsBy unguarded guarded root names) names := by
    unfold engine
    exact pass_closed_form (visit_pass root) hwf names false
  have hT2 : r ∈ targetsBy refTargets noGuard root (phaseOne root names).names ↔
      ∃ m ∈ subnodes root, skips m names = false ∧ r ∈ refTargets m := by
    rw [mem_targetsBy]
    constructor
    · rintro ⟨m, hm, hs, hr⟩
      rw [hsk m hm] at hs
      rcases hr with hr | ⟨hr, _⟩
      · exact ⟨m, hm, hs, hr⟩
      · simp [noGuard] at hr
    · rintro ⟨m, hm, hs, hr⟩
      exact ⟨m, hm, by rw [hsk m hm]; exact hs, Or.inl hr⟩
  have hT : r ∈ targetsBy unguarded guarded root names ↔
      (r ∈ targetsBy declTargets guarded root names ∨
        ∃ m ∈ subnodes root, skips m names = false ∧ r ∈ refTargets m) := by
    simp only [mem_targetsBy, mem_unguarded_iff]
    constructor
    · rintro ⟨m, hm, hs, hr⟩
      rcases hr with (hr | hr) | hr
      · exact Or.inl ⟨m, hm, hs, Or.inl hr⟩
      · exact Or.inr ⟨m, hm, hs, hr⟩
      · exact Or.inl ⟨m, hm, hs, Or.inr hr⟩
    · rintro (⟨m, hm, hs, hr⟩ | ⟨m, hm, hs, hr⟩)
      · rcases hr with hr | hr
        · exact ⟨m, hm, hs, Or.inl (Or.inl hr)⟩
        · exact ⟨m, hm, hs, Or.inr hr⟩
      · exact ⟨m, hm, hs, Or.inl (Or.inr hr)⟩
  have hs1 := congrFun h1 r
  rw [h2, h3]
  simp only [closedNames] at hs1 ⊢
  by_cases hl : isLowerCase (names r) = true
  · by_cases hd : r ∈ targetsBy declTargets guarded root names
    · have hTr : r ∈ targetsBy unguarded guarded root names := hT.mpr (Or.inl hd)
      simp only [hl, hd, decide_True, Bool.and_self, if_true] at hs1
      simp [hs1, hl, hTr, isLowerCase_capitalize _ hl]
    · simp only [hl, hd, decide_False, Bool.and_false, Bool.false_eq_true, if_false] at hs1
      by_cases hr : r ∈ targetsBy refTargets noGuard root (phaseOne root names).names
      · have hTr : r ∈ targetsBy unguarded guarded root names := hT.mpr (Or.inr (hT2.mp hr))
        simp [hs1, hl, hTr, hr]
      · have hTr : r ∉ targetsBy unguarded guarded root names := by
          intro hc
          rcases hT.mp hc with h | h
          · exact hd h
          · exact hr (hT2.mpr h)
        simp [hs1, hl, hTr, hr]
  · have hl2 : isLowerCase (names r) = false := by simpa using hl
    simp only [hl2, Bool.false_and, Bool.false_eq_true, if_false] at hs1
    simp [hs1, hl2]

/-! ## The pass does not fail on the trees of the parser -/

theorem foldlM_eq_some {α : Type} (g : State → α → Option State) (g2 : State → α → State)
    (l : List α) (h : ∀ x ∈ l, ∀ s, g s x = some (g2 s x)) (s : State) :
    l.foldlM g s = some (l.foldl g2 s) := by
  induction l generalizing s with
  | nil => rfl
  | cons x xs ih =>
    simp only [List.foldlM_cons, List.foldl_cons, h x (List.mem_cons_self _ _) s]
    exact ih (fun y hy => h y (List.mem_cons_of_mem _ hy)) _

theorem nilChild_of_checks {k : Kind} {i : Nat} (b : Bool) (h : walkChecks k i = true) :
    nilChild k i b = .skipped := by
  simp [nilChild, h]

theorem inspect_nil (f2 : Node → State → State) (hnil : ∀ s, f2 nil s = s) (s : State) :
    inspect f2 nil s = s := by
  simp only [nil, inspect, inspectList]
  exact hnil s

mutual
theorem walkChecked_eq_some (f : Node → State → Option State) (f2 : Node → State → State)
    (hnil : ∀ s, f2 nil s = s) :
    ∀ (n : Node) (b : Bool), isPresent n = true → nilOnlyOptional n = true →
      (∀ m ∈ subnodes n, isPresent m = true → ∀ s, f m s = some (f2 m s)) →
      ∀ s, walkChecked f b n s = some (inspect f2 n s)
  | .ident r, b, hp, _, h, s => by
      simp only [walkChecked, inspect]
      exact h _ (by simp [subnodes]) hp s
  | .node k kids, b, hp, hs, h, s => by
      simp only [walkChecked, inspect]
      rw [h _ (self_mem_subnodes _) hp s, Option.some_bind]
      refine walkKidsChecked_eq_some f f2 hnil kids k b 0 ?_ ?_ _
      · simpa [nilOnlyOptional] using hs
      · intro m hm
        exact h m (by simp only [subnodes, List.mem_cons]; exact Or.inr hm)
theorem walkKidsChecked_eq_some (f : Node → State → Option State)
    (f2 : Node → State → State) (hnil : ∀ s, f2 nil s = s) :
    ∀ (ns : List Node) (k : Kind) (b : Bool) (i : Nat), nilOnlyOptionalKids k i ns = true →
      (∀ m ∈ subnodesList ns, isPresent m = true → ∀ s, f m s = some (f2 m s)) →
      ∀ s, walkKidsChecked f k b i ns s = some (inspectList f2 ns s)
  | [], _, _, _, _, _, s => by simp [walkKidsChecked, inspectList]
  | c :: cs, k, b, i, hs, h, s => by
      simp only [nilOnlyOptionalKids, Bool.and_eq_true] at hs
      have hrest := walkKidsChecked_eq_some f f2 hnil cs k b (i + 1) hs.2
        (fun m hm => h m (by simp only [subnodesList, List.mem_append]; exact Or.inr hm))
      simp only [walkKidsChecked, inspectList]
      by_cases hp : isPresent c = true
      · have hc : nilOnlyOptional c = true := by simpa [hp] using hs.1
        rw [if_pos hp, walkChecked_eq_some f f2 hnil c (namesSlot k i) hp hc
          (fun m hm => h m (by simp only [subnodesList, List.mem_append]; exact Or.inl hm)) s,
          Option.some_bind]
        exact hrest _
      · have hc : walkChecks k i = true ∧ c = nil := by simpa [hp] using hs.1
        rw [if_neg hp, nilChild_of_checks b hc.1, hc.2, inspect_nil f2 hnil]
        exact hrest s
end

theorem inspectChecked_eq_some (f : Node → State → Option State) (f2 : Node → State → State)
    (hnil : ∀ s, f2 nil s = s) (n : Node) (hp : isPresent n = true)
    (hs : nilOnlyOptional n = true)
    (h : ∀ m ∈ subnodes n, isPresent m = true → ∀ s, f m s = some (f2 m s)) (s : State) :
    inspectChecked f n s = some (inspect f2 n s) := by
  unfold inspectChecked
  rw [if_pos hp]
  exact walkChecked_eq_some f f2 hnil n false hp hs h s

mutual
theorem nilOnlyOptional_of_mem :
    ∀ (n : Node), nilOnlyOptional n = true → ∀ m ∈ subnodes n, nilOnlyOptional m = true
  | .ident r, _, m, hm => by
      simp only [subnodes, List.mem_singleton] at hm
      rw [hm]; rfl
  | .node k kids, hs, m, hm => by
      simp only [subnodes, List.mem_cons] at hm
      rcases hm with rfl | hm
      · exact hs
      · exact nilOnlyOptionalKids_of_mem kids k 0 (by simpa [nilOnlyOptional] using hs) m hm
theorem nilOnlyOptionalKids_of_mem :
    ∀ (ns : List Node) (k : Kind) (i : Nat), nilOnlyOptionalKids k i ns = true →
      ∀ m ∈ subnodesList ns, nilOnlyOptional m = true
  | [], _, _, _, m, hm => by simp [subnodesList] at hm
  | c :: cs, k, i, hs, m, hm => by
      simp only [nilOnlyOptionalKids, Bool.and_eq_true] at hs
      simp only [subnodesList, List.mem_append] at hm
      rcases hm with hm | hm
      · by_cases hp : isPresent c = true
        · exact nilOnlyOptional_of_mem c (by simpa [hp] using hs.1) m hm
        · have hc : walkChecks k i = true ∧ c = nil := by simpa [hp] using hs.1
          rw [hc.2] at hm
          have : m = nil := by simpa [nil, subnodes, subnodesList] using hm
          rw [this]; rfl
      · exact nilOnlyOptionalKids_of_mem cs k (i + 1) hs.2 m hm
end

theorem capNameNodeChecked_eq (s : State) (n : Node) (h : isIdent n = true) :
    capNameNodeChecked s n = some (capNameNode s n) := by
  cases n with
  | ident r => rfl
  | node k kids => simp [isIdent] at h

theorem capRecvFieldChecked_eq (s : State) (n : Node) (h : isField n = true) :
    capRecvFieldChecked s n = some (capRecvField s n) := by
  unfold capRecvFieldChecked
  split
  · simp [capRecvField]
  · rename_i kids hneg
    congr 1
    rcases kids with _ | ⟨a, _ | ⟨b, tl⟩⟩
    · simp [capRecvField]
    · simp [capRecvField]
    · cases b with
      | ident t => exact (hneg _ _ _ rfl).elim
      | node k ks => simp [capRecvField]
  · rename_i hneg
    unfold isField at h
    split at h
    · exact (hneg _ rfl).elim
    · exact absurd h (by decide)

theorem capFieldNamesChecked_eq (s : State) (n : Node) (h : isNamedField n = true) :
    capFieldNamesChecked s n = some (capFieldNames s n) := by
  unfold isNamedField at h
  split at h
  · rename_i names tl
    simp only [capFieldNamesChecked, capFieldNames]
    refine foldlM_eq_some _ _ names ?_ s
    intro x hx u
    exact capNameNodeChecked_eq u x (List.all_eq_true.mp h x hx)
  · exact absurd h (by decide)

theorem capFieldListChecked_eq (list : Node) (s : State)
    (h : (fieldsOrNil list).all isNamedField = true) :
    capFieldListChecked list s
      = some (match fieldsOf list with
          | some fields => fields.foldl capFieldNames s
          | none => s) := by
  unfold capFieldListChecked
  cases hf : fieldsOf list with
  | none => rfl
  | some fields =>
    rw [fieldsOrNil_some hf] at h
    exact foldlM_eq_some _ _ fields
      (fun x hx u => capFieldNamesChecked_eq u x (List.all_eq_true.mp h x hx)) s

theorem capFreeChecked_eq (m : Node) (s : State) (h : isPresent m = true) :
    capFreeChecked m s = some (capFree m s) := by
  unfold capFreeChecked
  split
  · simp [isPresent] at h
  · rfl

theorem inspectValueChecked_eq (s : State) (v : Node) (h : isPresent v = true)
    (hs : nilOnlyOptional v = true) :
    inspectValueChecked s v = some (inspect capFree v s) :=
  inspectChecked_eq_some capFreeChecked capFree (fun _ => rfl) v h hs
    (fun m _ hm u => capFreeChecked_eq m u hm) s

theorem visitValueSpecChecked_eq (names : List Node) (typ : Node) (values : List Node)
    (s : State) (hn : names.all isIdent = true) (hv : values.all isPresent = true)
    (hs : ∀ v ∈ values, nilOnlyOptional v = true) :
    visitValueSpecChecked names typ values s = some (visitValueSpec names typ values s) := by
  unfold visitValueSpecChecked visitValueSpec
  rw [foldlM_eq_some _ capNameNode names
    (fun x hx u => capNameNodeChecked_eq u x (List.all_eq_true.mp hn x hx)) s,
    Option.some_bind]
  exact foldlM_eq_some _ (fun st value => inspect capFree value st) values
    (fun x hx u => inspectValueChecked_eq u x (List.all_eq_true.mp hv x hx) (hs x hx)) _

theorem scanMethodCallsChecked_eq (old : Name) (m : Node) (s : State)
    (h : hasRequired m = true) :
    scanMethodCallsChecked old m s = some (scanMethodCalls old m s) := by
  unfold scanMethodCallsChecked
  split
  · simp [scanMethodCalls]
  · rename_i x tl hneg
    exfalso
    unfold hasRequired at h
    split at h
    all_goals first
      | exact absurd h (by decide)
      | (rename_i a; exact (a _ _ rfl).elim)
      | (rename_i heq; cases heq <;> exact (hneg _ _ rfl).elim)
  · rename_i hneg1 hneg2
    congr 1
    unfold scanMethodCalls
    split
    · exact (hneg1 _ _ _ rfl).elim
    · rfl

theorem visitFuncDeclChecked_eq (root recv : Node) (nm : Nat) (s : State)
    (hroot : ParserShaped root) (hrecv : (fieldsOrNil recv).all isField = true) :
    visitFuncDeclChecked root recv nm s = some (visitFuncDecl root recv nm s) := by
  have hscan : ∀ old u, inspectChecked (scanMethodCallsChecked old) root u
      = some (inspect (scanMethodCalls old) root u) := fun old u =>
    inspectChecked_eq_some _ _ (fun _ => rfl) root hroot.1 hroot.2.1
      (fun m hm _ v => scanMethodCallsChecked_eq old m v (hroot.2.2 m hm)) u
  have hscan2 : ∀ old u, inspectChecked (scanFuncCallsChecked old) root u
      = some (inspect (scanFuncCalls old) root u) := fun old u =>
    inspectChecked_eq_some _ _ (fun _ => rfl) root hroot.1 hroot.2.1
      (fun m _ _ v => rfl) u
  have hfold : ∀ u, (match fieldsOf recv with
      | some fields => fields.foldlM capRecvFieldChecked u
      | none => some u)
      = some (match fieldsOf recv with
        | some fields => fields.foldl capRecvField u
        | none => u) := by
    intro u
    cases hf : fieldsOf recv with
    | none => rfl
    | some fields =>
      rw [fieldsOrNil_some hf] at hrecv
      exact foldlM_eq_some _ _ fields
        (fun x hx v => capRecvFieldChecked_eq v x (List.all_eq_true.mp hrecv x hx)) u
  unfold visitFuncDeclChecked visitFuncDecl
  by_cases hm : s.names nm = mainName
  · simp [hm]
  · simp only [hm, if_false, hscan, hscan2, hfold]
    by_cases hc : ((fieldsOf recv).isSome && isLowerCase (s.names nm)) = true
    · simp only [hc, if_true, Option.some_bind]
      split <;> simp only [Option.some_bind]
    · have hc2 : ((fieldsOf recv).isSome && isLowerCase (s.names nm)) = false := by
        simpa using hc
      simp only [hc2, Bool.false_eq_true, if_false, Option.some_bind]
      split <;> simp only [Option.some_bind]

theorem visitChecked_eq (root m : Node) (s : State) (hroot : ParserShaped root)
    (hmem : m ∈ subnodes root) : visitChecked root m s = some (visit root m s) := by
  have hm : hasRequired m = true := hroot.2.2 m hmem
  unfold visitChecked
  split
  · rename_i recv nm tl
    rw [visit_funcDecl]
    exact visitFuncDeclChecked_eq root recv nm s hroot (by simpa [hasRequired] using hm)
  · rename_i kids hneg
    exfalso
    rcases kids with _ | ⟨a, _ | ⟨b, tl⟩⟩
    · simp [hasRequired] at hm
    · simp [hasRequired] at hm
    · cases b with
      | ident t => exact hneg _ _ _ rfl
      | node k ks => simp [hasRequired] at hm
  · rename_i methods
    have h2 : (fieldsOf methods).isSome = true ∧ (fieldsOrNil methods).all isNamedField = true := by
      simpa [hasRequired] using hm
    rw [capFieldListChecked_eq methods s h2.2]
    simp [visit]
  · rename_i fields
    have h2 : (fieldsOf fields).isSome = true ∧ (fieldsOrNil fields).all isNamedField = true := by
      simpa [hasRequired] using hm
    rw [capFieldListChecked_eq fields s h2.2]
    simp [visit]
  · rfl
  · rename_i hd tp ks hneg
    exfalso
    cases hd with
    | ident t => exact hneg _ rfl
    | node k ks2 => simp [hasRequired] at hm
  · rename_i names typ values
    have h2 : names.all isIdent = true ∧ values.all isPresent = true := by
      simpa [hasRequired] using hm
    have hs : ∀ v ∈ values, nilOnlyOptional v = true := fun v hv =>
      nilOnlyOptional_of_mem root hroot.2.1 v
        (kid_mem_subnodes (kid_mem_subnodes hmem
          (show Node.node .List values ∈ [Node.node .List names, typ, Node.node .List values]
            by simp)) hv)
    rw [visitValueSpecChecked_eq names typ values s h2.1 h2.2 hs]
    simp [visit]
  · rfl

/-! ## The scans are redundant on every tree -/

theorem Ahead.weaken {D E : Nat → Prop} {s t : State} (h : Ahead D s t)
    (hDE : ∀ r, D r → E r) : Ahead E s t :=
  ⟨h.1, fun r => (h.2 r).imp id (fun ⟨a, b⟩ => ⟨hDE r a, b⟩)⟩

theorem capIdent_ahead {D : Nat → Prop} {s t : State} (r : Nat) (h : Ahead D s t) :
    Ahead (fun x => D x ∧ x ≠ r) (capIdent r s) (capIdent r t) := by
  obtain ⟨hc, hn⟩ := h
  rcases hn r with he | ⟨_, hl, _, hcap, htc⟩
  · -- the same name on both sides: the same step
    by_cases hl : isLowerCase (t.names r) = true
    · have hls : isLowerCase (s.names r) = true := by rw [he]; exact hl
      simp only [capIdent, hl, hls, if_true]
      refine ⟨rfl, fun x => ?_⟩
      by_cases hx : x = r
      · subst hx; left; simp [State.rename, he]
      · simp only [State.rename, Function.update_noteq hx]
        exact (hn x).imp id (fun ⟨a, b, c, d, _⟩ => ⟨⟨a, hx⟩, b, c, d, by first | rfl | trivial⟩)
    · have hl2 : isLowerCase (t.names r) = false := by simpa using hl
      have hls : isLowerCase (s.names r) = false := by rw [he]; exact hl2
      simp only [capIdent, hl2, hls, Bool.false_eq_true, if_false]
      refine ⟨hc, fun x => ?_⟩
      by_cases hx : x = r
      · subst hx; left; exact he
      · exact (hn x).imp id (fun ⟨a, b⟩ => ⟨⟨a, hx⟩, b⟩)
  · -- the engine with scans is ahead at `r`: the other side catches up
    have hls : isLowerCase (s.names r) = false := by
      rw [hcap]; exact isLowerCase_capitalize _ hl
    simp only [capIdent, hl, hls, Bool.false_eq_true, if_false, if_true]
    refine ⟨by simp [State.rename, hc, htc], fun x => ?_⟩
    by_cases hx : x = r
    · subst hx; left; simp [State.rename, hcap]
    · simp only [State.rename, Function.update_noteq hx]
      exact (hn x).imp id (fun ⟨a, b, c, d, _⟩ => ⟨⟨a, hx⟩, b, c, d, by first | rfl | trivial⟩)

theorem capUnreserved_ahead {D : Nat → Prop} {s t : State} (r : Nat) (h : Ahead D s t) :
    Ahead D (capUnreserved r s) (capUnreserved r t) := by
  obtain ⟨hc, hn⟩ := h
  rcases hn r with he | ⟨hD, hl, hm, hcap, htc⟩
  · by_cases hl : isLowerCase (t.names r) = true ∧ isReservedType (t.names r) = false
    · have hw : capUnreserved r t = t.rename r := by simp [capUnreserved, hl.1, hl.2]
      have hw2 : capUnreserved r s = s.rename r := by simp [capUnreserved, he, hl.1, hl.2]
      rw [hw, hw2]
      refine ⟨rfl, fun x => ?_⟩
      by_cases hx : x = r
      · subst hx; left; simp [State.rename, he]
      · simp only [State.rename, Function.update_noteq hx]
        exact (hn x).imp id (fun ⟨a, b, c, d, _⟩ => ⟨a, b, c, d, by first | rfl | trivial⟩)
    · have hw : capUnreserved r t = t := by
        unfold capUnreserved
        by_cases h1 : isLowerCase (t.names r) = true
        · have h2 : isReservedType (t.names r) = true := by
            by_contra h3
            exact hl ⟨h1, by simpa using h3⟩
          simp [h1, h2]
        · simp [h1]
      have hw2 : capUnreserved r s = s := by
        unfold capUnreserved
        rw [he]
        unfold capUnreserved at hw
        by_cases h1 : isLowerCase (t.names r) = true
        · have h2 : isReservedType (t.names r) = true := by
            by_contra h3
            exact hl ⟨h1, by simpa using h3⟩
          simp [h1, h2]
        · simp [h1]
      rw [hw, hw2]
      exact ⟨hc, hn⟩
  · have hls : isLowerCase (s.names r) = false := by
      rw [hcap]; exact isLowerCase_capitalize _ hl
    have hw2 : capUnreserved r s = s := by simp [capUnreserved, hls]
    rw [hw2]
    by_cases hres : isReservedType (t.names r) = true
    · have hw : capUnreserved r t = t := by simp [capUnreserved, hl, hres]
      rw [hw]
      exact ⟨hc, hn⟩
    · have hres2 : isReservedType (t.names r) = false := by simpa using hres
      have hw : capUnreserved r t = t.rename r := by simp [capUnreserved, hl, hres2]
      rw [hw]
      refine ⟨by simp [State.rename, hc, htc], fun x => ?_⟩
      by_cases hx : x = r
      · subst hx; left; simp [State.rename, hcap]
      · simp only [State.rename, Function.update_noteq hx]
        exact (hn x).imp id (fun ⟨a, b, c, d, _⟩ => ⟨a, b, c, d, by first | rfl | trivial⟩)

theorem capAll_ahead {D : Nat → Prop} (l : List Nat) {s t : State} (h : Ahead D s t) :
    Ahead (fun x => D x ∧ x ∉ l) (capAll l s) (capAll l t) := by
  induction l generalizing D s t with
  | nil => exact h.weaken (fun r hr => ⟨hr, by simp⟩)
  | cons a as ih =>
    rw [capAll_cons, capAll_cons]
    refine (ih (capIdent_ahead a h)).weaken ?_
    rintro r ⟨⟨h1, h2⟩, h3⟩
    exact ⟨h1, by simp [h2, h3]⟩

theorem capAllUnreserved_ahead {D : Nat → Prop} (l : List Nat) {s t : State}
    (h : Ahead D s t) : Ahead D (capAllUnreserved l s) (capAllUnreserved l t) := by
  induction l generalizing s t with
  | nil => exact h
  | cons a as ih =>
    rw [capAllUnreserved_cons, capAllUnreserved_cons]
    exact ih (capUnreserved_ahead a h)

/-- The case `*ast.FuncDecl` when the name is not `main`: the guarded rename
of the name, one scan if the name was renamed, the receiver loop. -/
theorem visitFuncDecl_form (root recv : Node) (nm : Nat) (s : State)
    (h : s.names nm ≠ mainName) :
    visitFuncDecl root recv nm s
      = capAll (recvTypeRefs (fieldsOrNil recv))
          (if isLowerCase (s.names nm) then
            (if (fieldsOf recv).isSome then
              inspect (scanMethodCalls (s.names nm)) root (s.rename nm)
            else inspect (scanFuncCalls (s.names nm)) root (s.rename nm))
          else s) := by
  unfold visitFuncDecl
  simp only [h, if_false, recv_foldl]
  congr 1
  by_cases hl : isLowerCase (s.names nm) = true
  · cases hr : (fieldsOf recv).isSome with
    | true =>
      have hrun : Run anyRef (s.rename nm)
          (inspect (scanMethodCalls (s.names nm)) root (s.rename nm)) :=
        inspect_scanMethodCalls_run _ root _ hl (fun _ _ _ => trivial)
      have hnl : isLowerCase
          ((inspect (scanMethodCalls (s.names nm)) root (s.rename nm)).names nm) = false := by
        refine hrun.toGrows.not_lower ?_
        simp only [State.rename, Function.update_same]
        exact isLowerCase_capitalize _ hl
      simp [hl, hnl]
    | false => simp [hl]
  · have hl2 : isLowerCase (s.names nm) = false := by simpa using hl
    simp [hl2]

/-- A scan only renames call targets spelled `old`. -/
theorem scanFuncCalls_cases (old : Name) (c : Node) (s : State) :
    scanFuncCalls old c s = s ∨
      ∃ r ∈ callTarget c, s.names r = old ∧ scanFuncCalls old c s = s.rename r := by
  unfold scanFuncCalls
  split
  · rename_i f tl
    by_cases he : s.names f = old
    · right; exact ⟨f, by simp [callTarget], he, by simp [he]⟩
    · left; simp [he]
  · left; rfl

theorem scanMethodCalls_cases (old : Name) (c : Node) (s : State) :
    scanMethodCalls old c s = s ∨
      ∃ r ∈ callTarget c, s.names r = old ∧ scanMethodCalls old c s = s.rename r := by
  unfold scanMethodCalls
  split
  · rename_i x sel tl
    by_cases he : s.names sel = old
    · right; exact ⟨sel, by simp [callTarget], he, by simp [he]⟩
    · left; simp [he]
  · left; rfl

/-- A rename on the side of the engine with scans only. -/
theorem rename_ahead {D : Nat → Prop} {s t : State} (r : Nat) (h : Ahead D s t)
    (hl : isLowerCase (s.names r) = true) (hm : s.names r ≠ mainName) (hD : D r)
    (htc : t.changed = true) : Ahead D (s.rename r) t := by
  obtain ⟨hc, hn⟩ := h
  have he : s.names r = t.names r := by
    rcases hn r with he | ⟨_, hl2, _, hcap, _⟩
    · exact he
    · rw [hcap, isLowerCase_capitalize _ hl2] at hl
      exact absurd hl (by decide)
  refine ⟨by simp [State.rename, htc], fun x => ?_⟩
  by_cases hx : x = r
  · subst hx
    right
    refine ⟨hD, he ▸ hl, he ▸ hm, ?_, htc⟩
    simp [State.rename, he]
  · simp only [State.rename, Function.update_noteq hx]
    exact hn x

/-- A whole scan on the side of the engine with scans only. -/
theorem scan_ahead {D : Nat → Prop} (old : Name) (hold : isLowerCase old = true)
    (hmain : old ≠ mainName) (sc : Node → State → State)
    (hsc : ∀ c s, sc c s = s ∨ ∃ r ∈ callTarget c, s.names r = old ∧ sc c s = s.rename r)
    (σ : Nat → Name) (l : List Node)
    (hD : ∀ c ∈ l, ∀ r ∈ callTarget c, ∀ u : State, Grows σ u.names →
      isLowerCase (u.names r) = true → D r)
    {s t : State} (h : Ahead D s t) (hg : Grows σ s.names) (htc : t.changed = true) :
    Ahead D (l.foldl (fun st c => sc c st) s) t := by
  induction l generalizing s with
  | nil => exact h
  | cons c cs ih =>
    simp only [List.foldl_cons]
    rcases hsc c s with he | ⟨r, hr, hn, he⟩
    · rw [he]
      exact ih (fun c2 hc2 => hD c2 (List.mem_cons_of_mem _ hc2)) h hg
    · rw [he]
      have hl : isLowerCase (s.names r) = true := by rw [hn]; exact hold
      refine ih (fun c2 hc2 => hD c2 (List.mem_cons_of_mem _ hc2))
        (rename_ahead r h hl (by rw [hn]; exact hmain)
          (hD c (List.mem_cons_self _ _) r hr s hg hl) htc) ?_
      exact grows_trans hg (Run.single (A := anyRef) r hl trivial).toGrows

theorem ownedBy_tail {m : Node} {rest : List Node} {x : Nat}
    (h : OwnedBy (m :: rest) x) (hx : isFuncDecl m = true ∨ x ∉ unguarded m) :
    OwnedBy rest x := by
  obtain ⟨o, ho, hf, hu⟩ := h
  rcases List.mem_cons.mp ho with he | he
  · subst he
    rcases hx with hx | hx
    · rw [hx] at hf; exact absurd hf (by decide)
    · exact absurd hu hx
  · exact ⟨o, he, hf, hu⟩

/-- One visit of both engines keeps the engine with scans ahead. -/
theorem visit_ahead (root m : Node) (pre rest : List Node)
    (hsplit : subnodes root = pre ++ m :: rest) {s t : State}
    (h : Ahead (OwnedBy (m :: rest)) s t)
    (hvis : ∀ o ∈ pre, isFuncDecl o = false → ∀ r ∈ unguarded o,
      isLowerCase (s.names r) = false) :
    Ahead (OwnedBy rest) (visit root m s) (visitNoScan root m t) := by
  by_cases hf : isFuncDecl m = true
  · obtain ⟨recv, nm, tl, rfl⟩ := (isFuncDecl_iff m).mp hf
    have h0 : Ahead (OwnedBy rest) s t := h.weaken (fun x hx => ownedBy_tail hx (Or.inl hf))
    have hskip : s.names nm = mainName ↔ t.names nm = mainName := by
      rcases h0.2 nm with he | ⟨_, hl, hm, hcap, _⟩
      · rw [he]
      · constructor
        · intro hs
          rw [hcap] at hs
          exact absurd hs (capitalize_ne_mainName _ hl)
        · intro ht; exact absurd ht hm
    rw [visit_funcDecl]
    have hns : visitNoScan root (.node .FuncDecl (recv :: .ident nm :: tl)) t
        = visitFuncDeclNoScan recv nm t := by simp [visitNoScan]
    rw [hns]
    by_cases hs : s.names nm = mainName
    · have ht := hskip.mp hs
      have e1 : visitFuncDecl root recv nm s = s := by simp [visitFuncDecl, hs]
      have e2 : visitFuncDeclNoScan recv nm t = t := by simp [visitFuncDeclNoScan, ht]
      rw [e1, e2]; exact h0
    · have ht : t.names nm ≠ mainName := fun hc => hs (hskip.mpr hc)
      rw [visitFuncDecl_form root recv nm s hs, visitFuncDeclNoScan_eq recv nm t ht]
      refine (capAll_ahead _ ?_).weaken (fun x hx => hx.1)
      have h1 : Ahead (OwnedBy rest) (capIdent nm s) (capIdent nm t) :=
        (capIdent_ahead nm h0).weaken (fun x hx => hx.1)
      by_cases hl : isLowerCase (s.names nm) = true
      · have he : s.names nm = t.names nm := by
          rcases h0.2 nm with he | ⟨_, hl2, _, hcap, _⟩
          · exact he
          · rw [hcap, isLowerCase_capitalize _ hl2] at hl
            exact absurd hl (by decide)
        have hlt : isLowerCase (t.names nm) = true := he ▸ hl
        have e1 : capIdent nm s = s.rename nm := by simp [capIdent, hl]
        have e2 : capIdent nm t = t.rename nm := by simp [capIdent, hlt]
        rw [e1, e2] at h1
        rw [e2]
        have hg : Grows s.names (s.rename nm).names :=
          (Run.single (A := anyRef) nm hl trivial).toGrows
        have hD : ∀ c ∈ subnodes root, ∀ r ∈ callTarget c, ∀ u : State,
            Grows s.names u.names → isLowerCase (u.names r) = true → OwnedBy rest r := by
          intro c hc r hr u hu hlu
          obtain ⟨o, ho, hof, hou⟩ := callTargets_covered (mem_callTargets hc hr)
          rw [hsplit] at ho
          rcases List.mem_append.mp ho with hp | hp
          · have := hu.not_lower (hvis o hp hof r hou)
            rw [this] at hlu
            exact absurd hlu (by decide)
          · rcases List.mem_cons.mp hp with hp | hp
            · subst hp
              rw [hf] at hof
              exact absurd hof (by decide)
            · exact ⟨o, hp, hof, hou⟩
        simp only [hl, if_true]
        cases hr : (fieldsOf recv).isSome with
        | true =>
          simp only [if_true, inspect_eq_foldl]
          exact scan_ahead (s.names nm) hl hs _ (scanMethodCalls_cases _) s.names _ hD h1 hg rfl
        | false =>
          simp only [Bool.false_eq_true, if_false, inspect_eq_foldl]
          exact scan_ahead (s.names nm) hl hs _ (scanFuncCalls_cases _) s.names _ hD h1 hg rfl
      · have hl2 : isLowerCase (s.names nm) = false := by simpa using hl
        have e1 : capIdent nm s = s := by simp [capIdent, hl2]
        rw [e1] at h1
        simp only [hl2, Bool.false_eq_true, if_false]
        exact h1
  · have hf2 : isFuncDecl m = false := by simpa using hf
    rw [visit_eq root m s hf2, visitNoScan_eq root m t]
    simp only [staticPass, skips_of_not_funcDecl hf2, Bool.false_eq_true, if_false, capNode]
    refine capAllUnreserved_ahead _ ?_
    exact (capAll_ahead _ h).weaken (fun x hx => ownedBy_tail hx.1 (Or.inr hx.2))

/-- The rest of the traversal brings both engines to the same state. -/
theorem fold_ahead (root : Node) : ∀ (rest pre : List Node) (s t : State),
    subnodes root = pre ++ rest → Ahead (OwnedBy rest) s t →
    (∀ o ∈ pre, isFuncDecl o = false → ∀ r ∈ unguarded o,
      isLowerCase (s.names r) = false) →
    rest.foldl (fun st m => visit root m st) s
      = rest.foldl (fun st m => visitNoScan root m st) t
  | [], _, s, t, _, h, _ => by
      have hn : s.names = t.names := by
        funext r
        rcases h.2 r with he | ⟨⟨o, ho, _⟩, _⟩
        · exact he
        · simp at ho
      cases s; cases t
      simp only [List.foldl_nil, State.mk.injEq]
      exact ⟨hn, h.1⟩
  | m :: rest, pre, s, t, hsplit, h, hvis => by
      simp only [List.foldl_cons]
      refine fold_ahead root rest (pre ++ [m]) _ _ (by simp [hsplit])
        (visit_ahead root m pre rest hsplit h hvis) ?_
      intro o ho hof r hr
      rcases List.mem_append.mp ho with hp | hp
      · exact (visit_run_any root m s).toGrows.not_lower (hvis o hp hof r hr)
      · simp only [List.mem_singleton] at hp
        subst hp
        exact (visit_settled root o s hof).1 r hr

theorem engineNoScan_eq_engine (root : Node) (names : Nat → Name) :
    engineNoScan root names = engine root names := by
  unfold engineNoScan engine
  rw [inspect_eq_foldl, inspect_eq_foldl]
  refine (fold_ahead root (subnodes root) [] _ _ rfl ⟨rfl, fun r => Or.inl rfl⟩ ?_).symm
  intro o ho
  simp at ho

/-! ## The claims, continued -/

/-- C20: Name-level rename is a one-shot.  For a lowercase-initial string `s`,
`capitalize s` has the length of `s`, differs from `s` only in its first byte,
which becomes the corresponding ASCII uppercase letter, and is no longer
lowercase-initial; hence the guarded rename applied twice is the guarded
rename applied once. -/
theorem capitalize_one_shot (s : Name) (h : isLowerCase s = true) :
    (capitalize s).length = s.length ∧
    (∃ b rest, s = b :: rest ∧ 97 ≤ b ∧ b ≤ 122 ∧ capitalize s = (b - 32) :: rest ∧
      65 ≤ b - 32 ∧ b - 32 ≤ 90) ∧
    isLowerCase (capitalize s) = false ∧
    renameName (renameName s) = renameName s := by
  cases s with
  | nil => simp [isLowerCase] at h
  | cons b rest =>
    have hb := h
    simp only [isLowerCase, Bool.and_eq_true, decide_eq_true_eq] at hb
    have h1 : toUpperRune b = b - 32 := by simp [toUpperRune, hb.1, hb.2]
    have h2 : encodeRune (b - 32) = [b - 32] := by
      have : b - 32 < 0x80 := by omega
      simp [encodeRune, this]
    have hc : capitalize (b :: rest) = (b - 32) :: rest := by
      simp only [capitalize, h1, h2, List.singleton_append]
    refine ⟨by rw [hc]; rfl, ⟨b, rest, rfl, hb.1, hb.2, hc, by omega, by omega⟩,
      isLowerCase_capitalize _ h, ?_⟩
    simp [renameName, h, isLowerCase_capitalize _ h]

theorem capitalize_one_shot_witness :
    (capitalize (bytes "greet")).length = (bytes "greet").length ∧
    isLowerCase (capitalize (bytes "greet")) = false ∧
    renameName (renameName (bytes "greet")) = renameName (bytes "greet") :=
  have h := capitalize_one_shot (bytes "greet") (by decide)
  ⟨h.1, h.2.2.1, h.2.2.2⟩

/-- C11: Uppercase-initial names are never altered.  An identifier occurrence
whose name is not lowercase-initial (uppercase-initial, underscore-initial or
empty) is spelled after the pass as before, whatever its syntactic role. -/
theorem non_lowercase_unaltered (root : Node) (names : Nat → Name) (r : Nat)
    (h : isLowerCase (names r) = false) : (engine root names).names r = names r :=
  (engine_grows root names).eq_of_not_lower h

theorem non_lowercase_unaltered_witness :
    (engine pointFile pointNames).names 8 = bytes "_" :=
  non_lowercase_unaltered pointFile pointNames 8 (by decide)

/-- C19 on a call of `main`: in `againFile` the declaration `main` keeps its
name and the call `main()` in `again` is renamed to `Main()`. -/
theorem main_call_out_of_step :
    againNames 1 = bytes "main" ∧ againNames 3 = bytes "main" ∧
    (engine againFile againNames).names 1 = bytes "main" ∧
    (engine againFile againNames).names 3 = bytes "Main" := by
  decide


/-- C12: Change flag is exact.  The pass reports `changed = true` if and only
if some identifier of the tree is spelled differently after the pass. -/
theorem changed_iff_some_name_differs (root : Node) (names : Nat → Name) :
    (engine root names).changed = true ↔
      ∃ r ∈ refs root, (engine root names).names r ≠ names r := by
  rw [(engine_run_refs root names).changed_iff (R := fun r => r ∈ refs root)
    (fun _ _ h => h)]

/-- C13: Tree shape is preserved.  The tree after the pass has the same node
kinds and the same children in the same order as the tree before it; the two
differ only in identifier names, and a name that differs is the capitalisation
of the lowercase-initial original. -/
theorem shape_preserved (root : Node) (names : Nat → Name) :
    capitalisedFrom (render names root) (render (engine root names).names root) = true ∧
    ∀ r, (engine root names).names r ≠ names r →
      isLowerCase (names r) = true ∧ (engine root names).names r = capitalize (names r) := by
  refine ⟨capitalisedFrom_render (engine_grows root names) root, ?_⟩
  intro r hr
  rcases engine_grows root names r with h | h
  · exact absurd h hr
  · exact h

/-- C14: Generated-file exclusion.  A file whose content contains
`DO NOT EDIT.` is skipped whatever the parser would do with it, and its
content is as before; a file without the marker is not skipped by the filter. -/
theorem generated_file_excluded (tools : Tools) (content : Name) :
    ((∃ a b, content = a ++ marker ++ b) →
      processFile tools (some content) = .skipped ∧
      contentAfter (some content) (processFile tools (some content)) = some content) ∧
    ((¬ ∃ a b, content = a ++ marker ++ b) →
      processFile tools (some content) ≠ .skipped) := by
  constructor
  · intro h
    have hc : contains content marker = true := (contains_iff _ _).mpr h
    simp [processFile, hc, contentAfter]
  · intro h
    have hc : contains content marker = false := by
      cases hcc : contains content marker with
      | false => rfl
      | true => exact absurd ((contains_iff _ _).mp hcc) h
    simp only [processFile, hc, Bool.false_eq_true, if_false]
    cases tools.parseFile content with
    | none => simp
    | some p =>
      obtain ⟨root, names⟩ := p
      simp only
      cases (engine root names).changed with
      | false => simp
      | true =>
        simp only [if_true]
        cases tools.formatSource root (engine root names).names <;> simp

/-- C15: Traversal exclusion.  A path the walk visits without error is
appended to the list of files if and only if it is not a directory, ends in
`.go` and does not contain `vendor`; otherwise the list is as before, so no
path with a component `vendor` is selected, and neither is a path the walk
reports an error for. -/
theorem traversal_selects (files : List Name) (path : Name) (isDir : Bool) :
    ((walkFunc files path isDir false).1 = files ++ [path] ↔
      (isDir = false ∧ (∃ t, path = t ++ bytes ".go") ∧
        ¬ ∃ a b, path = a ++ bytes "vendor" ++ b)) ∧
    ((walkFunc files path isDir false).1 = files ++ [path] ∨
      (walkFunc files path isDir false).1 = files) ∧
    (∀ a b, path = a ++ bytes "vendor" ++ b → (walkFunc files path isDir false).1 = files) ∧
    (walkFunc files path isDir true).1 = files := by
  have hne : files ++ [path] ≠ files := by
    intro h
    have := congrArg List.length h
    simp at this
  refine ⟨?_, ?_, ?_, by simp [walkFunc]⟩
  · simp only [walkFunc, Bool.false_eq_true, if_false, ← contains_iff, ← endsWith_iff]
    cases hv : contains path (bytes "vendor") <;> cases hd : isDir <;>
      cases hg : endsWith path (bytes ".go") <;> simp [hne.symm]
  · simp only [walkFunc, Bool.false_eq_true, if_false]
    split
    · right; rfl
    · split
      · left; rfl
      · right; rfl
  · intro a b hab
    have hv : contains path (bytes "vendor") = true := (contains_iff _ _).mpr ⟨a, b, hab⟩
    simp [walkFunc, hv]

/-- C18: The secondary propagation scans are redundant.  On every tree the
engine without the two nested re-scans ends with the same names and the same
change flag as the engine as written: what a scan capitalises early, the visit
of the call or of the selector capitalises without it. -/
theorem scans_redundant (root : Node) (names : Nat → Name) :
    (engineNoScan root names).names = (engine root names).names ∧
    (engineNoScan root names).changed = (engine root names).changed := by
  rw [engineNoScan_eq_engine root names]
  exact ⟨rfl, rfl⟩


/-- C17, as stated, fails: `helperFile` is well formed, the two-phase design
leaves the call `helper()` as it is, because no declaration of the file put
`helper` into the table, and the engine renames it to `Helper()`. -/
theorem two_phase_misses_undeclared_call :
    WellFormed helperFile ∧
    (twoPhase helperFile helperNames).names 2 = bytes "helper" ∧
    (engine helperFile helperNames).names 2 = bytes "Helper" := by
  decide

/-- C17, amended: on a well-formed tree in which every reference-role
occurrence that is lowercase-initial after phase 1 has its name in the rename
table, the two-phase design ends with the names of the engine's single
traversal. -/
theorem two_phase_agrees_when_covered (root : Node) (names : Nat → Name)
    (hwf : WellFormed root) (hcov : TableCovers root names) :
    (twoPhase root names).names = (engine root names).names :=
  funext (twoPhase_names root names hwf hcov)

theorem two_phase_agrees_when_covered_witness :
    (twoPhase dogFile dogNames).names = (engine dogFile dogNames).names :=
  two_phase_agrees_when_covered dogFile dogNames (by decide) (by decide)

/-- C16, as stated, fails: a struct type without field list, an interface
type without method list and a type specification without type are syntax
trees on which the pass does not run to its end.  The callback passes over the
nil child (main.go:131, 148, 158), then `ast.Walk` walks into it and panics. -/
theorem nil_field_list_fails :
    engineChecked nilFieldsFile nilChildNames = none ∧
    engineChecked nilMethodsFile nilChildNames = none ∧
    engineChecked nilTypeFile nilChildNames = none :=
  ⟨Option.isNone_iff_eq_none.mp (by decide), Option.isNone_iff_eq_none.mp (by decide),
    Option.isNone_iff_eq_none.mp (by decide)⟩

/-- C16, amended: on every tree of the shape the parser builds, in which of
the children only a receiver, a function body, type parameters, the type of a
value specification, of a composite literal or of a field, or a field tag are
absent, the pass with its nested scans runs to its end, without a panic in
`ast.Walk` or in a callback, and its result is that of `engine`, a total
function. -/
theorem engine_completes_on_parser_trees (root : Node) (names : Nat → Name)
    (h : ParserShaped root) :
    engineChecked root names = some (engine root names) := by
  unfold engineChecked engine
  exact inspectChecked_eq_some _ _ (fun s => by simp [visit, nil]) root h.1 h.2.1
    (fun m hm _ s => visitChecked_eq root m s h hm) _

theorem engine_completes_on_parser_trees_witness :
    engineChecked optionalFile optionalNames = some (engine optionalFile optionalNames) :=
  engine_completes_on_parser_trees optionalFile optionalNames (by decide)

theorem generated_file_excluded_witness :
    processFile noTools (some generatedContent) = .skipped ∧
    contentAfter (some generatedContent) (processFile noTools (some generatedContent))
      = some generatedContent :=
  (generated_file_excluded noTools generatedContent).1
    ⟨bytes "// ", bytes " package p", by decide⟩

theorem traversal_selects_witness :
    (walkFunc [] (bytes "cmd/tool.go") false false).1 = [] ++ [bytes "cmd/tool.go"] :=
  (traversal_selects [] (bytes "cmd/tool.go") false).1.mpr
    ⟨rfl, ⟨bytes "cmd/tool", by decide⟩,
      fun h => absurd ((contains_iff _ _).mpr h) (by decide)⟩

end Goallpublic
